import Mathlib

/-!
Verification development for the n-dimensional r*-tree of src/src/rtree.rs
(the spade crate rtree module).

The embedding fixes the coordinate scalar to Int and the dimension to 2,
and instantiates the generic spatial object type T with a 2-dimensional
integer point (the simplest SpatialObject: its MBR is the degenerate
rectangle at the point, distance2 is the squared euclidean distance, the
containment predicate is coordinatewise equality, and object equality is
point equality).  The collaborator types (BoundingRect, PointN) live in
files of the repository that are not part of src/, so their operations are
modelled from the spec, as marked on each definition.

Rust Vec.sort_by is a stable sort; it is modelled by Mathlib insertionSort,
which is stable with the same orientation (an element is inserted in front
of the equal elements of the already sorted tail, so earlier elements stay
in front of later equal ones).
-/

namespace Spade

/-- A 2-dimensional integer point. -/
abbrev Pt := Int × Int

/-- Squared euclidean distance between two points.  Modelled from the spec:
PointN subtraction followed by squared length, which is also the
SpatialObject distance2 of a point object. -/
def dist2 (p q : Pt) : Int := (p.1 - q.1) * (p.1 - q.1) + (p.2 - q.2) * (p.2 - q.2)

/-- Modelled from the spec: an axis-aligned rectangle given by two corner
points lower and upper (componentwise lower ≤ upper for well-formed
rectangles).  The BoundingRect type of the repository is not under src/. -/
structure Rect where
  lx : Int
  ly : Int
  ux : Int
  uy : Int
deriving DecidableEq

instance : Inhabited Rect := ⟨⟨0, 0, 0, 0⟩⟩

namespace Rect

/-- Modelled from the spec: the degenerate rectangle of a single point
(the MBR of a point object). -/
def ofPoint (p : Pt) : Rect := ⟨p.1, p.2, p.1, p.2⟩

/-- Modelled from the spec: enlargement of the rectangle to include another
rectangle (componentwise union). -/
def add_rect (r s : Rect) : Rect :=
  ⟨min r.lx s.lx, min r.ly s.ly, max r.ux s.ux, max r.uy s.uy⟩

/-- Modelled from the spec: rectangle area; the intersection of disjoint
rectangles is represented with inverted corners, whose geometric area is 0,
hence the clamping of each side length at 0. -/
def area (r : Rect) : Int := max (r.ux - r.lx) 0 * max (r.uy - r.ly) 0

/-- Modelled from the spec: half the perimeter (the sum of the side
lengths in 2 dimensions). -/
def half_margin (r : Rect) : Int := (r.ux - r.lx) + (r.uy - r.ly)

/-- Modelled from the spec: intersection of two rectangles (corners may be
inverted when the rectangles are disjoint). -/
def intersect (r s : Rect) : Rect :=
  ⟨max r.lx s.lx, max r.ly s.ly, min r.ux s.ux, min r.uy s.uy⟩

/-- Modelled from the spec: containment of a point. -/
def contains_point (r : Rect) (p : Pt) : Bool :=
  decide (r.lx ≤ p.1 ∧ p.1 ≤ r.ux ∧ r.ly ≤ p.2 ∧ p.2 ≤ r.uy)

/-- Modelled from the spec: containment of a rectangle. -/
def contains_rect (r s : Rect) : Bool :=
  decide (r.lx ≤ s.lx ∧ s.ux ≤ r.ux ∧ r.ly ≤ s.ly ∧ s.uy ≤ r.uy)

/-- Modelled from the spec: do two rectangles intersect. -/
def intersects (r s : Rect) : Bool :=
  decide (r.lx ≤ s.ux ∧ s.lx ≤ r.ux ∧ r.ly ≤ s.uy ∧ s.ly ≤ r.uy)

/-- Distance from the coordinate q to the interval from l to u along one
axis (0 inside the interval). -/
def axdist (l u q : Int) : Int := max (l - q) (max (q - u) 0)

/-- Modelled from the spec: squared minimum distance from a query point to
the nearest point of the rectangle (zero inside). -/
def min_dist2 (r : Rect) (q : Pt) : Int :=
  axdist r.lx r.ux q.1 * axdist r.lx r.ux q.1 +
  axdist r.ly r.uy q.2 * axdist r.ly r.uy q.2

/-- Squared distance from the coordinate q to the nearer face of the
interval from l to u along one axis. -/
def nearSq (l u q : Int) : Int := min ((q - l) * (q - l)) ((q - u) * (q - u))

/-- Squared distance from the coordinate q to the farther face of the
interval from l to u along one axis. -/
def farSq (l u q : Int) : Int := max ((q - l) * (q - l)) ((q - u) * (q - u))

/-- Modelled from the spec: squared MINMAXDIST; for each axis replace that
axis with the nearer face and every other axis with the farther face, and
take the minimum over the axes. -/
def min_max_dist2 (r : Rect) (q : Pt) : Int :=
  min (nearSq r.lx r.ux q.1 + farSq r.ly r.uy q.2)
      (farSq r.lx r.ux q.1 + nearSq r.ly r.uy q.2)

/-- Modelled from the spec: the center of the rectangle.  To stay inside
the integral scalar domain it is represented doubled (lower plus upper
corner, without the division by 2); the reinsertion routine only compares
squared distances between centers, and doubling every center scales all
the compared squared distances by 4, leaving their order unchanged. -/
def center2 (r : Rect) : Pt := (r.lx + r.ux, r.ly + r.uy)

end Rect

/-- SpatialObject instance for a point object, modelled from the spec: the
MBR of a point is the degenerate rectangle at the point. -/
def objMbr (p : Pt) : Rect := Rect.ofPoint p

/-- SpatialObject instance for a point object, modelled from the spec: a
point object contains exactly the query point equal to it. -/
def objContains (p q : Pt) : Bool := decide (p = q)

/-- RTreeOptions of src/src/rtree.rs lines 20 to 26. -/
structure RTreeOptions where
  max_size : Nat
  min_size : Nat
  reinsertion_count : Nat
deriving DecidableEq

namespace RTreeOptions

/-- RTreeOptions::new, lines 36 to 42. -/
def new : RTreeOptions := ⟨6, 3, 2⟩

/-- RTreeOptions::set_max_size, lines 44 to 48.  The assert models the
fatal failure as none. -/
def set_max_size (o : RTreeOptions) (m : Nat) : Option RTreeOptions :=
  if m > o.min_size then some { o with max_size := m } else none

/-- RTreeOptions::set_min_size, lines 50 to 54. -/
def set_min_size (o : RTreeOptions) (m : Nat) : Option RTreeOptions :=
  if o.max_size > m then some { o with min_size := m } else none

/-- RTreeOptions::set_reinsertion_count, lines 56 to 60. -/
def set_reinsertion_count (o : RTreeOptions) (c : Nat) : Option RTreeOptions :=
  if 0 < c ∧ o.max_size > c then some { o with reinsertion_count := c } else none

end RTreeOptions

/-- Every options value obtainable through the public constructor and the
setters (each setter application must have succeeded). -/
inductive BuiltOptions : RTreeOptions → Prop where
  | new : BuiltOptions RTreeOptions.new
  | max {o o2 m} : BuiltOptions o → o.set_max_size m = some o2 → BuiltOptions o2
  | min {o o2 m} : BuiltOptions o → o.set_min_size m = some o2 → BuiltOptions o2
  | reins {o o2 c} : BuiltOptions o → o.set_reinsertion_count c = some o2 → BuiltOptions o2

/-- Node variants of the r-tree (RTreeNode, lines 830 to 836, and the
directory payload DirectoryNodeData, lines 820 to 828, whose fields
bounding_box, children and depth are inlined into the constructor because
a nested inductive cannot be declared mutually with a structure in Lean).
The shared Arc of options is not stored per node: it is immutable and
identical across a whole tree, so it is passed as a parameter instead. -/
inductive RTreeNode : Type where
  | Leaf : Pt → RTreeNode
  | DirectoryNode : Option Rect → List RTreeNode → Nat → RTreeNode

/-- DirectoryNodeData as a structure, convertible to the inlined
constructor fields of RTreeNode.DirectoryNode. -/
structure DirectoryNodeData where
  bounding_box : Option Rect
  children : List RTreeNode
  depth : Nat

/-- View of a directory payload as a node. -/
def DirectoryNodeData.asNode (dd : DirectoryNodeData) : RTreeNode :=
  RTreeNode.DirectoryNode dd.bounding_box dd.children dd.depth

namespace RTreeNode

/-- RTreeNode::depth, lines 760 to 765. -/
def depth : RTreeNode → Nat
  | .Leaf _ => 0
  | .DirectoryNode _ _ d => d

/-- RTreeNode::mbr, lines 767 to 772.  The directory case unwraps the
cached bounding box; the unwrap cannot fail on reachable trees (every
directory node in a live child list carries a cached box), and the
impossible case is modelled with the default rectangle. -/
def mbr : RTreeNode → Rect
  | .DirectoryNode bb _ _ => bb.getD default
  | .Leaf t => objMbr t

end RTreeNode

namespace DirectoryNodeData

/-- Union of the cached MBRs of a child list: some value for a nonempty
list (the MBR of the first child enlarged by every later child), none for
an empty list.  This is the value DirectoryNodeData::update_mbr stores. -/
def mbrOfChildren : List RTreeNode → Option Rect
  | [] => none
  | c :: rest => some (rest.foldl (fun acc ch => acc.add_rect ch.mbr) c.mbr)

/-- DirectoryNodeData::update_mbr, lines 192 to 203. -/
def update_mbr (dd : DirectoryNodeData) : DirectoryNodeData :=
  { dd with bounding_box := mbrOfChildren dd.children }

/-- DirectoryNodeData::update_mbr_with_element, lines 205 to 212. -/
def update_mbr_with_element (dd : DirectoryNodeData) (element_bb : Rect) : DirectoryNodeData :=
  match dd.bounding_box with
  | some bb => { dd with bounding_box := some (bb.add_rect element_bb) }
  | none => { dd with bounding_box := some element_bb }

/-- DirectoryNodeData::add_children, lines 398 to 414. -/
def add_children (dd : DirectoryNodeData) (new_children : List RTreeNode) : DirectoryNodeData :=
  match dd.bounding_box with
  | some bb =>
    { dd with
      bounding_box := some (new_children.foldl (fun a c => a.add_rect c.mbr) bb),
      children := dd.children ++ new_children }
  | none =>
    { dd with
      bounding_box := mbrOfChildren new_children,
      children := dd.children ++ new_children }

/-- DirectoryNodeData::new_parent, lines 178 to 190 (the capacity
reservation has no observable effect). -/
def new_parent (children : List RTreeNode) (depth : Nat) : DirectoryNodeData :=
  update_mbr ⟨none, children, depth⟩

end DirectoryNodeData

mutual

/-- Structural Boolean equality on nodes; DecidableEq cannot be derived
for the nested inductive, so it is defined by hand and proved sound. -/
def RTreeNode.beq : RTreeNode → RTreeNode → Bool
  | RTreeNode.Leaf p, RTreeNode.Leaf q => decide (p = q)
  | RTreeNode.DirectoryNode bb1 cs1 d1, RTreeNode.DirectoryNode bb2 cs2 d2 =>
    decide (bb1 = bb2) && RTreeNode.beqList cs1 cs2 && decide (d1 = d2)
  | _, _ => false

/-- Structural Boolean equality on node lists. -/
def RTreeNode.beqList : List RTreeNode → List RTreeNode → Bool
  | [], [] => true
  | c :: cs, e :: es => RTreeNode.beq c e && RTreeNode.beqList cs es
  | _, _ => false

end

/-- Soundness and completeness of the Boolean equalities. -/
theorem RTreeNode.beq_iff_and :
    (∀ a b : RTreeNode, (RTreeNode.beq a b = true ↔ a = b)) ∧
    (∀ l1 l2 : List RTreeNode, (RTreeNode.beqList l1 l2 = true ↔ l1 = l2)) := by
  apply RTreeNode.beq.mutual_induct
    (motive_1 := fun a b => RTreeNode.beq a b = true ↔ a = b)
    (motive_2 := fun l1 l2 => RTreeNode.beqList l1 l2 = true ↔ l1 = l2)
  case _ =>
    intro p q
    simp [RTreeNode.beq]
  case _ =>
    intro bb1 cs1 d1 bb2 cs2 d2 ih
    simp [RTreeNode.beq, ih, and_assoc]
  case _ =>
    intro a b h1 h2
    rcases a with p | ⟨bb1, cs1, d1⟩ <;> rcases b with q | ⟨bb2, cs2, d2⟩
    · exact absurd (h1 p q rfl rfl) not_false
    · simp [RTreeNode.beq]
    · simp [RTreeNode.beq]
    · exact absurd (h2 bb1 cs1 d1 bb2 cs2 d2 rfl rfl) not_false
  case _ =>
    simp [RTreeNode.beqList]
  case _ =>
    intro c cs e es ih1 ih2
    simp [RTreeNode.beqList, ih1, ih2]
  case _ =>
    intro l1 l2 h1 h2
    rcases l1 with _ | ⟨c, cs⟩ <;> rcases l2 with _ | ⟨e, es⟩
    · exact absurd (h1 rfl rfl) not_false
    · simp [RTreeNode.beqList]
    · simp [RTreeNode.beqList]
    · exact absurd (h2 c cs e es rfl rfl) not_false

instance : DecidableEq RTreeNode := fun a b =>
  decidable_of_iff (RTreeNode.beq a b = true) (RTreeNode.beq_iff_and.1 a b)

instance : DecidableEq DirectoryNodeData := fun a b =>
  decidable_of_iff
    (a.bounding_box = b.bounding_box ∧ a.children = b.children ∧ a.depth = b.depth)
    (by cases a; cases b; simp)

/-- InsertionState, lines 735 to 755.  The reinsertions vector is the list
of per-depth flags; oob records that did_reinsert or mark_reinsertion was
asked for an index outside the vector (in the source this is an index
out of bounds panic); badDescent records that choose_subtree reached its
leaf panic arm or indexed outside the child list.  Once either flag is
set the run of the source program has aborted, so later model behavior is
irrelevant; both flags are only ever set, never cleared. -/
structure InsertionState where
  reinsertions : List Bool
  oob : Bool
  badDescent : Bool
deriving DecidableEq

/-- InsertionState::new, lines 740 to 746: resize(max_depth, false) makes
the flag vector hold exactly max_depth entries. -/
def InsertionState.new (max_depth : Nat) : InsertionState :=
  ⟨List.replicate max_depth false, false, false⟩

/-- InsertionResult, lines 728 to 733, extended with Abort, which models a
panic unwinding out of the insertion (the source has no such variant
because the panic aborts the program). -/
inductive InsertionResult where
  | Complete
  | Split (node : RTreeNode)
  | Reinsert (nodes : List RTreeNode)
  | Abort

namespace RTreeNode

mutual
/-- All objects stored in the leaves below a node, in child order. -/
def objs (node : RTreeNode) : List Pt :=
  match node with
  | .Leaf t => [t]
  | .DirectoryNode _ cs _ => objsList cs

/-- All objects stored below a list of nodes, in order. -/
def objsList (cs : List RTreeNode) : List Pt :=
  match cs with
  | [] => []
  | c :: rest => objs c ++ objsList rest
end

mutual
/-- Checker for the exact MBR invariant: on every directory node of the
subtree the cached bounding box equals the componentwise union of the
cached MBRs of the children (none exactly when the child list is empty). -/
def mbrExactB (node : RTreeNode) : Bool :=
  match node with
  | .Leaf _ => true
  | .DirectoryNode bb cs _ =>
    decide (bb = DirectoryNodeData.mbrOfChildren cs) && mbrExactBList cs

def mbrExactBList (cs : List RTreeNode) : Bool :=
  match cs with
  | [] => true
  | c :: rest => mbrExactB c && mbrExactBList rest
end

mutual
/-- Checker for the child count invariant with an explicit lower bound for
the non-root nodes below the inspected node. -/
def childCountBelowOkB (lo hi : Nat) (node : RTreeNode) : Bool :=
  match node with
  | .Leaf _ => true
  | .DirectoryNode _ cs _ =>
    decide (lo ≤ cs.length ∧ cs.length ≤ hi) && childCountBelowOkBList lo hi cs

def childCountBelowOkBList (lo hi : Nat) (cs : List RTreeNode) : Bool :=
  match cs with
  | [] => true
  | c :: rest => childCountBelowOkB lo hi c && childCountBelowOkBList lo hi rest
end

mutual
/-- Checker: this node and every directory node below it has a nonempty
child list (used for the nodes inside child lists; the root of a tree may
be empty and is treated separately). -/
def nonemptyDirsB (node : RTreeNode) : Bool :=
  match node with
  | .Leaf _ => true
  | .DirectoryNode _ cs _ => !cs.isEmpty && nonemptyDirsBList cs

def nonemptyDirsBList (cs : List RTreeNode) : Bool :=
  match cs with
  | [] => true
  | c :: rest => nonemptyDirsB c && nonemptyDirsBList rest
end

mutual
/-- Checker for the depth invariant: every child of a directory node at
depth d is at depth d minus 1 (leaves count as depth 0). -/
def depthOkB (node : RTreeNode) : Bool :=
  match node with
  | .Leaf _ => true
  | .DirectoryNode _ cs d => depthOkBList d cs

def depthOkBList (d : Nat) (cs : List RTreeNode) : Bool :=
  match cs with
  | [] => true
  | c :: rest => (decide (c.depth + 1 = d) && depthOkB c) && depthOkBList d rest
end

end RTreeNode

/-- Child count invariant of the whole tree: the root has at most hi
children and every other directory node has between lo and hi children. -/
def rootChildCountOkB (lo hi : Nat) (root : DirectoryNodeData) : Bool :=
  decide (root.children.length ≤ hi) &&
    root.children.all (fun c => RTreeNode.childCountBelowOkB lo hi c)

/-- Stable sort by an integer key; Vec::sort_by with a key comparator is a
stable sort, and Mathlib insertionSort is stable with the same
orientation. -/
def sortByKey {α : Type} (key : α → Int) (l : List α) : List α :=
  List.insertionSort (fun a b => key a ≤ key b) l

/-- Lexicographic strict order on pairs, as derived for Rust tuples. -/
def lexLt2 (x y : Int × Int) : Bool :=
  decide (x.1 < y.1 ∨ (x.1 = y.1 ∧ x.2 < y.2))

/-- Lexicographic strict order on triples, as derived for Rust tuples. -/
def lexLt3 (x y : Int × Int × Int) : Bool :=
  decide (x.1 < y.1 ∨ (x.1 = y.1 ∧ (x.2.1 < y.2.1 ∨ (x.2.1 = y.2.1 ∧ x.2.2 < y.2.2))))

namespace DirectoryNodeData

/-- Coordinate of the lower corner of the cached MBR along an axis
(axis 0 is x, axis 1 is y); the sort key used by split and
get_split_axis. -/
def lowerNth (axis : Nat) (n : RTreeNode) : Int :=
  if axis = 0 then n.mbr.lx else n.mbr.ly

/-- Union of the cached MBRs of a nonempty slice.  The source seeds the
fold of each slice with children at index k minus 1 and k, which belong to
the left and right slice respectively; since add_rect is the componentwise
union (idempotent, commutative, associative), seeding with any member of
the slice produces the same rectangle, so the fold is seeded with the
head here. -/
def mbrOf1 : List RTreeNode → Rect
  | [] => default
  | c :: rest => rest.foldl (fun a ch => a.add_rect ch.mbr) c.mbr

/-- The partition indices scanned by split and get_split_axis: k from
min_size to len minus min_size, inclusive (empty when the node holds
fewer than twice min_size children). -/
def splitKs (min_size len : Nat) : List Nat :=
  List.range' min_size (len + 1 - 2 * min_size)

/-- DirectoryNodeData::get_split_axis, lines 308 to 334, at dimension 2.
The running best margin is seeded by zero but the axis == 0 disjunct makes
every axis 0 partition overwrite it; each axis first sorts the child list
in place, so the children leave this function sorted along the last axis,
and the mutated list is returned together with the chosen axis. -/
def get_split_axis (opts : RTreeOptions) (cs : List RTreeNode) : Nat × List RTreeNode :=
  let s0 := sortByKey (lowerNth 0) cs
  let st0 := (splitKs opts.min_size s0.length).foldl
    (fun (st : Int × Nat) k =>
      let margin_value := (mbrOf1 (s0.take k)).half_margin + (mbrOf1 (s0.drop k)).half_margin
      if st.1 > margin_value ∨ True then (margin_value, 0) else st)
    (0, 0)
  let s1 := sortByKey (lowerNth 1) s0
  let st1 := (splitKs opts.min_size s1.length).foldl
    (fun (st : Int × Nat) k =>
      let margin_value := (mbrOf1 (s1.take k)).half_margin + (mbrOf1 (s1.drop k)).half_margin
      if st.1 > margin_value then (margin_value, 1) else st)
    st0
  (st1.2, s1)

/-- DirectoryNodeData::split, lines 258 to 291.  Returns the shrunk node
and the detached sibling node.  The assertion that at least two children
exist always holds at the overflow call site, so it is not modelled. -/
def split (opts : RTreeOptions) (dd : DirectoryNodeData) : DirectoryNodeData × RTreeNode :=
  let axis_sorted := get_split_axis opts dd.children
  let sorted := sortByKey (lowerNth axis_sorted.1) axis_sorted.2
  let best := (splitKs opts.min_size sorted.length).foldl
    (fun (st : (Int × Int) × Nat) k =>
      let first_mbr := mbrOf1 (sorted.take k)
      let second_mbr := mbrOf1 (sorted.drop k)
      let overlap_value := (first_mbr.intersect second_mbr).area
      let area_value := first_mbr.area + second_mbr.area
      let new_best := (overlap_value, area_value)
      if lexLt2 new_best st.1 || decide (k = opts.min_size) then (new_best, k) else st)
    ((0, 0), opts.min_size)
  let best_index := best.2
  let offsplit := new_parent (sorted.drop best_index) dd.depth
  let self2 := update_mbr { dd with children := sorted.take best_index }
  (self2, offsplit.asNode)

/-- DirectoryNodeData::reinsert, lines 293 to 306.  Children are sorted by
increasing squared distance of their MBR center from the node MBR center
(the centers are represented doubled, which preserves the order), the
furthest reinsertion_count children are detached and returned, and the
MBR is recomputed. -/
def reinsert (opts : RTreeOptions) (dd : DirectoryNodeData) : DirectoryNodeData × List RTreeNode :=
  let center := (dd.bounding_box.getD default).center2
  let sorted := sortByKey (fun c => dist2 (RTreeNode.mbr c).center2 center) dd.children
  let num_children := sorted.length
  let result := sorted.drop (num_children - opts.reinsertion_count)
  (update_mbr { dd with children := sorted.take (num_children - opts.reinsertion_count) }, result)

/-- DirectoryNodeData::choose_subtree, lines 336 to 396, returning the
index of the chosen child.  The pointer inequality between child1 and
child2 of the source is the inequality of their indices.  The final
indexing of the children and the panic on a leaf child happen at the use
in insert. -/
def choose_subtree_index (depth : Nat) (cs : List RTreeNode) (insertion_mbr : Rect) : Nat :=
  let p1 := cs.enum.foldl
    (fun (st : Nat × Int × Nat × Bool) ic =>
      let mbr := ic.2.mbr
      if mbr.contains_rect insertion_mbr then
        let area := mbr.area
        if area < st.2.1 ∨ st.2.2.2 then (st.1 + 1, area, ic.1, false)
        else (st.1 + 1, st.2.1, st.2.2.1, st.2.2.2)
      else st)
    (0, 0, 0, true)
  if p1.1 = 0 then
    let p2 := cs.enum.foldl
      (fun (st : (Int × Int × Int) × Nat) ic =>
        let mbr := ic.2.mbr
        let new_mbr := mbr.add_rect insertion_mbr
        let overlap_increase : Int :=
          if depth ≤ 2 then
            let pair := cs.enum.foldl
              (fun (ov : Int × Int) jc =>
                if jc.1 ≠ ic.1 then
                  let child_mbr := jc.2.mbr
                  (ov.1 + (mbr.intersect child_mbr).area, ov.2 + (new_mbr.intersect child_mbr).area)
                else ov)
              (0, 0)
            pair.2 - pair.1
          else 0
        let area := new_mbr.area
        let area_increase := area - mbr.area
        let new_min := (overlap_increase, area_increase, area)
        if lexLt3 new_min st.1 || decide (ic.1 = 0) then (new_min, ic.1) else st)
      ((0, 0, 0), 0)
    p2.2
  else p1.2.2.1

/-- DirectoryNodeData::resolve_overflow, lines 241 to 256.  The flag
vector reads did_reinsert and mark_reinsertion are in bounds exactly when
the node depth indexes into the vector; an out of bounds read is the
source panic, modelled by the oob flag and the Abort outcome. -/
def resolve_overflow (opts : RTreeOptions) (dd : DirectoryNodeData) (st : InsertionState) :
    DirectoryNodeData × InsertionState × InsertionResult :=
  if dd.children.length > opts.max_size then
    match st.reinsertions[dd.depth]? with
    | none => (dd, { st with oob := true }, InsertionResult.Abort)
    | some flag =>
      if flag then
        let r := split opts dd
        (r.1, st, InsertionResult.Split r.2)
      else
        let st2 := { st with reinsertions := st.reinsertions.set dd.depth true }
        let r := reinsert opts dd
        (r.1, st2, InsertionResult.Reinsert r.2)
  else (dd, st, InsertionResult.Complete)

mutual
/-- DirectoryNodeData::insert, lines 214 to 239, phrased on the node form
of the directory payload so that the recursion is structural.  A Leaf
receiver cannot arise (the source method is only defined on directory
data); the arm is given the Abort outcome.  The choose_subtree panic (a
leaf at the chosen index, or an index outside the child list) is modelled
by the badDescent flag and the Abort outcome inside insertDescend. -/
def insertNode (opts : RTreeOptions) (node : RTreeNode) (t : RTreeNode)
    (st : InsertionState) : DirectoryNodeData × InsertionState × InsertionResult :=
  match node with
  | RTreeNode.Leaf _ =>
    (⟨none, [], 0⟩, { st with badDescent := true }, InsertionResult.Abort)
  | RTreeNode.DirectoryNode bb cs d =>
    let dd1 := update_mbr_with_element ⟨bb, cs, d⟩ t.mbr
    if t.depth + 1 = d then
      resolve_overflow opts (add_children dd1 [t]) st
    else
      match insertDescend opts cs (choose_subtree_index d cs t.mbr) t st with
      | some r =>
        let dd2 : DirectoryNodeData := { dd1 with children := r.1 }
        match r.2.2 with
        | InsertionResult.Split child =>
          resolve_overflow opts (add_children dd2 [child]) r.2.1
        | InsertionResult.Reinsert ns => (update_mbr dd2, r.2.1, InsertionResult.Reinsert ns)
        | InsertionResult.Complete => (dd2, r.2.1, InsertionResult.Complete)
        | InsertionResult.Abort => (dd2, r.2.1, InsertionResult.Abort)
      | none => (dd1, { st with badDescent := true }, InsertionResult.Abort)

/-- The mutable borrow of children[min_index] followed by follow.insert
of the source: walk to the chosen index, recurse into the directory child
there, and put the updated child back in place.  none models the source
panics (index outside the list, or a leaf at the chosen index). -/
def insertDescend (opts : RTreeOptions) (cs : List RTreeNode) (i : Nat) (t : RTreeNode)
    (st : InsertionState) :
    Option (List RTreeNode × InsertionState × InsertionResult) :=
  match cs, i with
  | [], _ => none
  | c :: rest, 0 =>
    match c with
    | RTreeNode.DirectoryNode _ _ _ =>
      let r := insertNode opts c t st
      some (r.1.asNode :: rest, r.2)
    | RTreeNode.Leaf _ => none
  | c :: rest, i + 1 =>
    match insertDescend opts rest i t st with
    | some r => some (c :: r.1, r.2)
    | none => none
end

/-- DirectoryNodeData::insert on the payload fields, the form the tree
level driver uses. -/
def insert (opts : RTreeOptions) (bb : Option Rect) (cs : List RTreeNode) (d : Nat)
    (t : RTreeNode) (st : InsertionState) :
    DirectoryNodeData × InsertionState × InsertionResult :=
  insertNode opts (RTreeNode.DirectoryNode bb cs d) t st

end DirectoryNodeData

/-- Number of unset reinsertion flags; the driver loop terminates because
every Reinsert outcome sets a previously unset flag. -/
def countFalse (l : List Bool) : Nat := l.count false

theorem countFalse_set_lt : ∀ (l : List Bool) (i : Nat), l[i]? = some false →
    countFalse (l.set i true) < countFalse l
  | [], i, h => by simp at h
  | b :: l, 0, h => by
    simp at h
    subst h
    simp [countFalse, List.count_cons]
  | b :: l, i + 1, h => by
    simp at h
    have ih := countFalse_set_lt l i h
    simp [countFalse, List.count_cons] at ih ⊢
    omega

namespace DirectoryNodeData

theorem resolve_overflow_state (opts : RTreeOptions) (dd : DirectoryNodeData)
    (st : InsertionState) :
    (resolve_overflow opts dd st).2.1.reinsertions.length = st.reinsertions.length ∧
    countFalse (resolve_overflow opts dd st).2.1.reinsertions ≤ countFalse st.reinsertions ∧
    (∀ ns, (resolve_overflow opts dd st).2.2 = InsertionResult.Reinsert ns →
      countFalse (resolve_overflow opts dd st).2.1.reinsertions < countFalse st.reinsertions) := by
  unfold resolve_overflow
  split
  · rcases hidx : st.reinsertions[dd.depth]? with _ | flag
    · simp
    · rcases flag with _ | _
      · have hlt := countFalse_set_lt st.reinsertions dd.depth hidx
        simp [List.length_set]
        omega
      · simp
  · simp

/-- State evolution of insertNode and insertDescend: the flag vector
keeps its length, the number of unset flags never grows, and a Reinsert
outcome has set a previously unset flag. -/
theorem insertNode_state_and (opts : RTreeOptions) :
    (∀ (node t : RTreeNode) (st : InsertionState),
      (insertNode opts node t st).2.1.reinsertions.length = st.reinsertions.length ∧
      countFalse (insertNode opts node t st).2.1.reinsertions ≤ countFalse st.reinsertions ∧
      (∀ ns, (insertNode opts node t st).2.2 = InsertionResult.Reinsert ns →
        countFalse (insertNode opts node t st).2.1.reinsertions < countFalse st.reinsertions)) ∧
    (∀ (cs : List RTreeNode) (i : Nat) (t : RTreeNode) (st : InsertionState),
      ∀ r, insertDescend opts cs i t st = some r →
        r.2.1.reinsertions.length = st.reinsertions.length ∧
        countFalse r.2.1.reinsertions ≤ countFalse st.reinsertions ∧
        (∀ ns, r.2.2 = InsertionResult.Reinsert ns →
          countFalse r.2.1.reinsertions < countFalse st.reinsertions)) := by
  apply DirectoryNodeData.insertNode.mutual_induct opts
    (motive_1 := fun node t st =>
      (insertNode opts node t st).2.1.reinsertions.length = st.reinsertions.length ∧
      countFalse (insertNode opts node t st).2.1.reinsertions ≤ countFalse st.reinsertions ∧
      (∀ ns, (insertNode opts node t st).2.2 = InsertionResult.Reinsert ns →
        countFalse (insertNode opts node t st).2.1.reinsertions < countFalse st.reinsertions))
    (motive_2 := fun cs i t st =>
      ∀ r, insertDescend opts cs i t st = some r →
        r.2.1.reinsertions.length = st.reinsertions.length ∧
        countFalse r.2.1.reinsertions ≤ countFalse st.reinsertions ∧
        (∀ ns, r.2.2 = InsertionResult.Reinsert ns →
          countFalse r.2.1.reinsertions < countFalse st.reinsertions))
  case _ =>
    intro t st a
    rw [insertNode]
    exact ⟨by trivial, le_refl _, by simp⟩
  case _ =>
    intro t st bb cs
    rw [insertNode]
    rw [if_pos rfl]
    exact resolve_overflow_state _ _ _
  case _ =>
    intro t st bb cs d hdep r hdes child harm ih
    rw [insertNode]
    simp only [if_neg hdep, hdes, harm]
    obtain ⟨l0, c0, _⟩ := ih r hdes
    obtain ⟨l1, c1, r1⟩ := resolve_overflow_state opts
      ({ update_mbr_with_element ⟨bb, cs, d⟩ t.mbr with children := r.1 }.add_children [child])
      r.2.1
    exact ⟨l1.trans l0, le_trans c1 c0, fun ns hns => lt_of_lt_of_le (r1 ns hns) c0⟩
  case _ =>
    intro t st bb cs d hdep r hdes ns harm ih
    rw [insertNode]
    simp only [if_neg hdep, hdes, harm]
    obtain ⟨l0, c0, r0⟩ := ih r hdes
    exact ⟨l0, c0, fun ns2 _ => r0 ns harm⟩
  case _ =>
    intro t st bb cs d hdep r hdes harm ih
    rw [insertNode]
    simp only [if_neg hdep, hdes, harm]
    obtain ⟨l0, c0, r0⟩ := ih r hdes
    exact ⟨l0, c0, by simp⟩
  case _ =>
    intro t st bb cs d hdep r hdes harm ih
    rw [insertNode]
    simp only [if_neg hdep, hdes, harm]
    obtain ⟨l0, c0, r0⟩ := ih r hdes
    exact ⟨l0, c0, by simp⟩
  case _ =>
    intro t st bb cs d hdep hdes ih
    rw [insertNode]
    simp only [if_neg hdep, hdes]
    exact ⟨by trivial, le_refl _, by simp⟩
  case _ =>
    intro i t st r hr
    simp only [insertDescend] at hr
    cases hr
  case _ =>
    intro t st rest bb cs d ih r hr
    simp only [insertDescend, Option.some.injEq] at hr
    subst hr
    exact ih
  case _ =>
    intro t st rest p r hr
    simp only [insertDescend] at hr
    cases hr
  case _ =>
    intro t st c rest i r0 hsome ih r hr
    simp only [insertDescend, hsome, Option.some.injEq] at hr
    subst hr
    exact ih r0 hsome
  case _ =>
    intro t st c rest i hnone ih r hr
    rw [insertDescend.eq_def] at hr
    simp only [hnone] at hr
    cases hr

/-- State evolution of one DirectoryNodeData::insert call, the form the
driver loop termination argument uses. -/
theorem insert_state (opts : RTreeOptions) (bb : Option Rect) (cs : List RTreeNode)
    (d : Nat) (t : RTreeNode) (st : InsertionState) :
    (insert opts bb cs d t st).2.1.reinsertions.length = st.reinsertions.length ∧
    countFalse (insert opts bb cs d t st).2.1.reinsertions ≤ countFalse st.reinsertions ∧
    (∀ ns, (insert opts bb cs d t st).2.2 = InsertionResult.Reinsert ns →
      countFalse (insert opts bb cs d t st).2.1.reinsertions < countFalse st.reinsertions) :=
  (insertNode_state_and opts).1 (RTreeNode.DirectoryNode bb cs d) t st

/-- Flag behavior of resolve_overflow: badDescent is untouched, oob only
ever rises, and an Abort outcome always raises oob. -/
theorem resolve_overflow_flags (opts : RTreeOptions) (dd : DirectoryNodeData)
    (st : InsertionState) :
    (resolve_overflow opts dd st).2.1.badDescent = st.badDescent ∧
    ((resolve_overflow opts dd st).2.1.oob = false → st.oob = false) ∧
    ((resolve_overflow opts dd st).2.2 = InsertionResult.Abort →
      (resolve_overflow opts dd st).2.1.oob = true) := by
  unfold resolve_overflow
  split
  · rcases h : st.reinsertions[dd.depth]? with _ | flag
    · simp
    · rcases flag with _ | _ <;> simp
  · simp

/-- Flag behavior of insertNode and insertDescend: the oob and badDescent
flags only ever rise, and an Abort outcome always leaves one of them
raised. -/
theorem insertNode_flags (opts : RTreeOptions) :
    (∀ (node t : RTreeNode) (st : InsertionState),
      ((insertNode opts node t st).2.1.oob = false → st.oob = false) ∧
      ((insertNode opts node t st).2.1.badDescent = false → st.badDescent = false) ∧
      ((insertNode opts node t st).2.2 = InsertionResult.Abort →
        (insertNode opts node t st).2.1.oob = true ∨
          (insertNode opts node t st).2.1.badDescent = true)) ∧
    (∀ (cs : List RTreeNode) (i : Nat) (t : RTreeNode) (st : InsertionState),
      ∀ r, insertDescend opts cs i t st = some r →
        (r.2.1.oob = false → st.oob = false) ∧
        (r.2.1.badDescent = false → st.badDescent = false) ∧
        (r.2.2 = InsertionResult.Abort →
          r.2.1.oob = true ∨ r.2.1.badDescent = true)) := by
  apply DirectoryNodeData.insertNode.mutual_induct opts
    (motive_1 := fun node t st =>
      ((insertNode opts node t st).2.1.oob = false → st.oob = false) ∧
      ((insertNode opts node t st).2.1.badDescent = false → st.badDescent = false) ∧
      ((insertNode opts node t st).2.2 = InsertionResult.Abort →
        (insertNode opts node t st).2.1.oob = true ∨
          (insertNode opts node t st).2.1.badDescent = true))
    (motive_2 := fun cs i t st =>
      ∀ r, insertDescend opts cs i t st = some r →
        (r.2.1.oob = false → st.oob = false) ∧
        (r.2.1.badDescent = false → st.badDescent = false) ∧
        (r.2.2 = InsertionResult.Abort →
          r.2.1.oob = true ∨ r.2.1.badDescent = true))
  case _ =>
    intro t st a
    rw [insertNode]
    exact ⟨fun h => h, by simp, fun _ => Or.inr rfl⟩
  case _ =>
    intro t st bb cs
    rw [insertNode]
    rw [if_pos rfl]
    obtain ⟨hb, ho, ha⟩ := resolve_overflow_flags opts
      ((update_mbr_with_element ⟨bb, cs, t.depth + 1⟩ t.mbr).add_children [t]) st
    exact ⟨ho, by rw [hb]; exact fun h => h, fun h => Or.inl (ha h)⟩
  case _ =>
    intro t st bb cs d hdep r hdes child harm ih
    rw [insertNode]
    simp only [if_neg hdep, hdes, harm]
    obtain ⟨io, ib, _⟩ := ih r hdes
    obtain ⟨hb, ho, ha⟩ := resolve_overflow_flags opts
      ({ update_mbr_with_element ⟨bb, cs, d⟩ t.mbr with children := r.1 }.add_children [child])
      r.2.1
    exact ⟨fun h => io (ho h), fun h => ib (by rw [hb] at h; exact h),
      fun h => Or.inl (ha h)⟩
  case _ =>
    intro t st bb cs d hdep r hdes ns harm ih
    rw [insertNode]
    simp only [if_neg hdep, hdes, harm]
    obtain ⟨io, ib, _⟩ := ih r hdes
    exact ⟨io, ib, by simp⟩
  case _ =>
    intro t st bb cs d hdep r hdes harm ih
    rw [insertNode]
    simp only [if_neg hdep, hdes, harm]
    obtain ⟨io, ib, _⟩ := ih r hdes
    exact ⟨io, ib, by simp⟩
  case _ =>
    intro t st bb cs d hdep r hdes harm ih
    rw [insertNode]
    simp only [if_neg hdep, hdes, harm]
    obtain ⟨io, ib, ia⟩ := ih r hdes
    exact ⟨io, ib, fun _ => ia harm⟩
  case _ =>
    intro t st bb cs d hdep hdes ih
    rw [insertNode]
    simp only [if_neg hdep, hdes]
    refine ⟨fun h => h, by simp, fun _ => Or.inr ?_⟩
    simp
  case _ =>
    intro i t st r hr
    simp only [insertDescend] at hr
    cases hr
  case _ =>
    intro t st rest bb cs d ih r hr
    simp only [insertDescend, Option.some.injEq] at hr
    subst hr
    exact ih
  case _ =>
    intro t st rest p r hr
    simp only [insertDescend] at hr
    cases hr
  case _ =>
    intro t st c rest i r0 hsome ih r hr
    simp only [insertDescend, hsome, Option.some.injEq] at hr
    subst hr
    exact ih r0 hsome
  case _ =>
    intro t st c rest i hnone ih r hr
    rw [insertDescend.eq_def] at hr
    simp only [hnone] at hr
    cases hr

/-- Flag behavior of one DirectoryNodeData::insert call. -/
theorem insert_flags (opts : RTreeOptions) (bb : Option Rect) (cs : List RTreeNode)
    (d : Nat) (t : RTreeNode) (st : InsertionState) :
    ((insert opts bb cs d t st).2.1.oob = false → st.oob = false) ∧
    ((insert opts bb cs d t st).2.1.badDescent = false → st.badDescent = false) ∧
    ((insert opts bb cs d t st).2.2 = InsertionResult.Abort →
      (insert opts bb cs d t st).2.1.oob = true ∨
        (insert opts bb cs d t st).2.1.badDescent = true) :=
  (insertNode_flags opts).1 (RTreeNode.DirectoryNode bb cs d) t st

end DirectoryNodeData

/-- Worklist loop of RTree::insert, lines 1040 to 1066.  The insertion
stack is a Vec popped from the back; extending it with the reinsertion
payload therefore makes the last payload element the next to be popped,
which the reversed prepend models with a head-popped list.  A Split
outcome builds a new root one level higher holding the old root and the
sibling; an Abort outcome (a panic in the source) stops the loop.
Termination: every Reinsert outcome sets a previously unset reinsertion
flag, and the other outcomes shrink the stack. -/
def insertLoop (opts : RTreeOptions) (root : DirectoryNodeData) (stack : List RTreeNode)
    (st : InsertionState) : DirectoryNodeData × InsertionState :=
  match stack with
  | [] => (root, st)
  | nxt :: rest =>
    match hres : DirectoryNodeData.insert opts root.bounding_box root.children root.depth nxt st with
    | (root2, st2, result) =>
      match result with
      | InsertionResult.Split node =>
        let new_root := DirectoryNodeData.add_children ⟨none, [], root2.depth + 1⟩
          [root2.asNode, node]
        insertLoop opts new_root rest st2
      | InsertionResult.Reinsert ns => insertLoop opts root2 (ns.reverse ++ rest) st2
      | InsertionResult.Complete => insertLoop opts root2 rest st2
      | InsertionResult.Abort => (root2, st2)
termination_by (countFalse st.reinsertions, stack.length)
decreasing_by
  · have h1 := (DirectoryNodeData.insert_state opts root.bounding_box root.children
      root.depth c st).2.1
    rw [hres] at h1
    rcases lt_or_eq_of_le h1 with hlt | heq2
    · exact Prod.Lex.left _ _ hlt
    · rw [heq2]
      exact Prod.Lex.right _ (by simp)
  · have h1 := (DirectoryNodeData.insert_state opts root.bounding_box root.children
      root.depth c st).2.2
    rw [hres] at h1
    exact Prod.Lex.left _ _ (h1 ns rfl)
  · have h1 := (DirectoryNodeData.insert_state opts root.bounding_box root.children
      root.depth c st).2.1
    rw [hres] at h1
    rcases lt_or_eq_of_le h1 with hlt | heq2
    · exact Prod.Lex.left _ _ hlt
    · rw [heq2]
      exact Prod.Lex.right _ (by simp)

/-- The length of a Reinsert payload never exceeds reinsertion_count
(reinsert detaches exactly the last reinsertion_count sorted children,
fewer only if the node somehow held fewer). -/
theorem resolve_overflow_reinsert_length (opts : RTreeOptions) (dd : DirectoryNodeData)
    (st : InsertionState) :
    ∀ ns, (DirectoryNodeData.resolve_overflow opts dd st).2.2 = InsertionResult.Reinsert ns →
      ns.length ≤ opts.reinsertion_count := by
  intro ns hns
  unfold DirectoryNodeData.resolve_overflow at hns
  split at hns
  · rcases hidx : st.reinsertions[dd.depth]? with _ | flag
    · rw [hidx] at hns
      cases hns
    · rw [hidx] at hns
      rcases flag with _ | _
      · simp only [Bool.false_eq_true, if_false] at hns
        injection hns with h
        subst h
        simp only [DirectoryNodeData.reinsert, List.length_drop]
        omega
      · simp only [if_true] at hns
        cases hns
  · cases hns

/-- The Reinsert payload length bound for insertNode and insertDescend. -/
theorem insertNode_reinsert_length (opts : RTreeOptions) :
    (∀ (node t : RTreeNode) (st : InsertionState) (ns : List RTreeNode),
      (DirectoryNodeData.insertNode opts node t st).2.2 = InsertionResult.Reinsert ns →
        ns.length ≤ opts.reinsertion_count) ∧
    (∀ (cs : List RTreeNode) (i : Nat) (t : RTreeNode) (st : InsertionState) r,
      DirectoryNodeData.insertDescend opts cs i t st = some r →
        ∀ ns, r.2.2 = InsertionResult.Reinsert ns → ns.length ≤ opts.reinsertion_count) := by
  apply DirectoryNodeData.insertNode.mutual_induct opts
    (motive_1 := fun node t st =>
      ∀ ns, (DirectoryNodeData.insertNode opts node t st).2.2 = InsertionResult.Reinsert ns →
        ns.length ≤ opts.reinsertion_count)
    (motive_2 := fun cs i t st =>
      ∀ r, DirectoryNodeData.insertDescend opts cs i t st = some r →
        ∀ ns, r.2.2 = InsertionResult.Reinsert ns → ns.length ≤ opts.reinsertion_count)
  case _ =>
    intro t st a ns hns
    rw [DirectoryNodeData.insertNode] at hns
    cases hns
  case _ =>
    intro t st bb cs ns hns
    rw [DirectoryNodeData.insertNode] at hns
    rw [if_pos rfl] at hns
    exact resolve_overflow_reinsert_length _ _ _ ns hns
  case _ =>
    intro t st bb cs d hdep r hdes child harm ih ns hns
    rw [DirectoryNodeData.insertNode] at hns
    simp only [if_neg hdep, hdes, harm] at hns
    exact resolve_overflow_reinsert_length _ _ _ ns hns
  case _ =>
    intro t st bb cs d hdep r hdes ns harm ih ns2 hns
    rw [DirectoryNodeData.insertNode] at hns
    simp only [if_neg hdep, hdes, harm] at hns
    cases hns
    exact ih r hdes ns harm
  case _ =>
    intro t st bb cs d hdep r hdes harm ih ns hns
    rw [DirectoryNodeData.insertNode] at hns
    simp only [if_neg hdep, hdes, harm] at hns
    cases hns
  case _ =>
    intro t st bb cs d hdep r hdes harm ih ns hns
    rw [DirectoryNodeData.insertNode] at hns
    simp only [if_neg hdep, hdes, harm] at hns
    cases hns
  case _ =>
    intro t st bb cs d hdep hdes ih ns hns
    rw [DirectoryNodeData.insertNode] at hns
    simp only [if_neg hdep, hdes] at hns
    cases hns
  case _ =>
    intro i t st r hr
    simp only [DirectoryNodeData.insertDescend] at hr
    cases hr
  case _ =>
    intro t st rest bb cs d ih r hr
    simp only [DirectoryNodeData.insertDescend, Option.some.injEq] at hr
    subst hr
    exact ih
  case _ =>
    intro t st rest p r hr
    simp only [DirectoryNodeData.insertDescend] at hr
    cases hr
  case _ =>
    intro t st c rest i r0 hsome ih r hr
    simp only [DirectoryNodeData.insertDescend, hsome, Option.some.injEq] at hr
    subst hr
    exact ih r0 hsome
  case _ =>
    intro t st c rest i hnone ih r hr
    rw [DirectoryNodeData.insertDescend.eq_def] at hr
    simp only [hnone] at hr
    cases hr

/-- The payload length bound at the payload field level. -/
theorem insert_reinsert_length (opts : RTreeOptions) (bb : Option Rect)
    (cs : List RTreeNode) (d : Nat) (t : RTreeNode) (st : InsertionState) :
    ∀ ns, (DirectoryNodeData.insert opts bb cs d t st).2.2 = InsertionResult.Reinsert ns →
      ns.length ≤ opts.reinsertion_count :=
  (insertNode_reinsert_length opts).1 (RTreeNode.DirectoryNode bb cs d) t st

/-- Fuel form of the driver loop: identical steps, recursion on a fuel
counter.  Every iteration pops one entry, and entries are pushed only by
a Reinsert that flips a previously unset flag (at most reinsertion_count
entries per flag), so any fuel of at least the stack length plus
reinsertion_count per unset flag makes the two forms agree. -/
def insertLoopF (opts : RTreeOptions) : Nat → DirectoryNodeData → List RTreeNode →
    InsertionState → DirectoryNodeData × InsertionState
  | _, root, [], st => (root, st)
  | 0, root, _ :: _, st => (root, st)
  | fuel + 1, root, nxt :: rest, st =>
    let r := DirectoryNodeData.insert opts root.bounding_box root.children root.depth nxt st
    match r.2.2 with
    | InsertionResult.Split node =>
      let new_root := DirectoryNodeData.add_children ⟨none, [], r.1.depth + 1⟩
        [r.1.asNode, node]
      insertLoopF opts fuel new_root rest r.2.1
    | InsertionResult.Reinsert ns => insertLoopF opts fuel r.1 (ns.reverse ++ rest) r.2.1
    | InsertionResult.Complete => insertLoopF opts fuel r.1 rest r.2.1
    | InsertionResult.Abort => (r.1, r.2.1)

/-- One-step unfolding of insertLoop when the insertion completes. -/
theorem insertLoop_cons_complete (opts : RTreeOptions) (root : DirectoryNodeData)
    (nxt : RTreeNode) (rest : List RTreeNode) (st : InsertionState)
    (root2 : DirectoryNodeData) (st2 : InsertionState)
    (hres : DirectoryNodeData.insert opts root.bounding_box root.children root.depth nxt st
      = (root2, st2, InsertionResult.Complete)) :
    insertLoop opts root (nxt :: rest) st = insertLoop opts root2 rest st2 := by
  rw [insertLoop]
  split
  next a b c heq =>
    rw [hres] at heq
    injection heq with h1 h2
    injection h2 with h2 h3
    subst h1
    subst h2
    subst h3
    rfl

/-- One-step unfolding of insertLoop when the insertion splits the root. -/
theorem insertLoop_cons_split (opts : RTreeOptions) (root : DirectoryNodeData)
    (nxt : RTreeNode) (rest : List RTreeNode) (st : InsertionState)
    (root2 : DirectoryNodeData) (st2 : InsertionState) (node : RTreeNode)
    (hres : DirectoryNodeData.insert opts root.bounding_box root.children root.depth nxt st
      = (root2, st2, InsertionResult.Split node)) :
    insertLoop opts root (nxt :: rest) st =
      insertLoop opts (DirectoryNodeData.add_children ⟨none, [], root2.depth + 1⟩
        [root2.asNode, node]) rest st2 := by
  rw [insertLoop]
  split
  next a b c heq =>
    rw [hres] at heq
    injection heq with h1 h2
    injection h2 with h2 h3
    subst h1
    subst h2
    subst h3
    rfl

/-- One-step unfolding of insertLoop when the insertion demands reinserts. -/
theorem insertLoop_cons_reinsert (opts : RTreeOptions) (root : DirectoryNodeData)
    (nxt : RTreeNode) (rest : List RTreeNode) (st : InsertionState)
    (root2 : DirectoryNodeData) (st2 : InsertionState) (ns : List RTreeNode)
    (hres : DirectoryNodeData.insert opts root.bounding_box root.children root.depth nxt st
      = (root2, st2, InsertionResult.Reinsert ns)) :
    insertLoop opts root (nxt :: rest) st = insertLoop opts root2 (ns.reverse ++ rest) st2 := by
  rw [insertLoop]
  split
  next a b c heq =>
    rw [hres] at heq
    injection heq with h1 h2
    injection h2 with h2 h3
    subst h1
    subst h2
    subst h3
    rfl

/-- One-step unfolding of insertLoop when the insertion aborts. -/
theorem insertLoop_cons_abort (opts : RTreeOptions) (root : DirectoryNodeData)
    (nxt : RTreeNode) (rest : List RTreeNode) (st : InsertionState)
    (root2 : DirectoryNodeData) (st2 : InsertionState)
    (hres : DirectoryNodeData.insert opts root.bounding_box root.children root.depth nxt st
      = (root2, st2, InsertionResult.Abort)) :
    insertLoop opts root (nxt :: rest) st = (root2, st2) := by
  rw [insertLoop]
  split
  next a b c heq =>
    rw [hres] at heq
    injection heq with h1 h2
    injection h2 with h2 h3
    subst h1
    subst h2
    subst h3
    rfl

theorem insertLoopF_eq (opts : RTreeOptions) : ∀ (fuel : Nat) (root : DirectoryNodeData)
    (stack : List RTreeNode) (st : InsertionState),
    stack.length + opts.reinsertion_count * countFalse st.reinsertions ≤ fuel →
    insertLoopF opts fuel root stack st = insertLoop opts root stack st := by
  intro fuel
  induction fuel with
  | zero =>
    intro root stack st hb
    match stack with
    | [] => rw [insertLoopF, insertLoop]
    | nxt :: rest => simp at hb
  | succ fuel ih =>
    intro root stack st hb
    match stack with
    | [] => rw [insertLoopF, insertLoop]
    | nxt :: rest =>
      rcases hres : DirectoryNodeData.insert opts root.bounding_box root.children
        root.depth nxt st with ⟨root2, st2, result⟩
      obtain ⟨hlen, hle, hstr⟩ := DirectoryNodeData.insert_state opts root.bounding_box
        root.children root.depth nxt st
      rw [hres] at hlen hle hstr
      simp only at hlen hle hstr
      have hml := Nat.mul_le_mul_left opts.reinsertion_count hle
      simp only [List.length_cons] at hb
      rcases result with _ | node | ns | _
      · rw [insertLoop_cons_complete opts root nxt rest st root2 st2 hres]
        simp only [insertLoopF, hres]
        apply ih
        omega
      · rw [insertLoop_cons_split opts root nxt rest st root2 st2 node hres]
        simp only [insertLoopF, hres]
        apply ih
        omega
      · rw [insertLoop_cons_reinsert opts root nxt rest st root2 st2 ns hres]
        simp only [insertLoopF, hres]
        apply ih
        have hlt := hstr ns rfl
        have hns := insert_reinsert_length opts root.bounding_box root.children
          root.depth nxt st ns (by rw [hres])
        simp only [List.length_append, List.length_reverse]
        have hkey : opts.reinsertion_count * countFalse st2.reinsertions
            + opts.reinsertion_count
            ≤ opts.reinsertion_count * countFalse st.reinsertions := by
          calc opts.reinsertion_count * countFalse st2.reinsertions + opts.reinsertion_count
              = opts.reinsertion_count * (countFalse st2.reinsertions + 1) := by ring
            _ ≤ opts.reinsertion_count * countFalse st.reinsertions :=
              Nat.mul_le_mul_left _ hlt
        omega
      · rw [insertLoop_cons_abort opts root nxt rest st root2 st2 hres]
        simp only [insertLoopF, hres]

/-- RTree, lines 896 to 900.  The options are carried beside the tree
rather than inside the nodes (they are immutable and shared). -/
structure RTree where
  root : DirectoryNodeData
  size : Nat

namespace RTree

instance : DecidableEq RTree := fun a b =>
  decidable_of_iff (a.root = b.root ∧ a.size = b.size) (by cases a; cases b; simp)

/-- RTree::new_with_options, lines 921 to 927 (and RTree::new with the
default options): an empty root directory at depth 1 and size 0. -/
def new_with_options : RTree := ⟨⟨none, [], 1⟩, 0⟩

/-- RTree::mbr, lines 916 to 918. -/
def mbr (tr : RTree) : Option Rect := tr.root.bounding_box

/-- RTree::insert, lines 1040 to 1066, also returning the final insertion
state so that the panic flags can be observed.  The insertion state is
sized by the root depth at the start of the call plus 1. -/
def insert_full (opts : RTreeOptions) (tr : RTree) (t : Pt) : RTree × InsertionState :=
  let st := InsertionState.new (tr.root.depth + 1)
  let r := insertLoop opts tr.root [RTreeNode.Leaf t] st
  (⟨r.1, tr.size + 1⟩, r.2)

/-- RTree::insert, result tree only. -/
def insert (opts : RTreeOptions) (tr : RTree) (t : Pt) : RTree :=
  (insert_full opts tr t).1

end RTree

/-- Conversion from the node form back to the directory payload (the
leaf arm is unreachable at every use). -/
def RTreeNode.toData : RTreeNode → DirectoryNodeData
  | .DirectoryNode bb cs d => ⟨bb, cs, d⟩
  | .Leaf _ => ⟨none, [], 0⟩

mutual
/-- DirectoryNodeData::remove, lines 668 to 703, on the node form.  A
matching leaf or an emptied directory child is deleted from the child
list, and only such a deletion triggers update_mbr (a directory child
that removed deeper but stays nonempty leaves the MBR of this node
untouched).  The Leaf arm is unreachable (the source method is defined on
directory data only). -/
def removeNode (node : RTreeNode) (to_remove : Pt) : RTreeNode × Bool :=
  match node with
  | RTreeNode.Leaf p => (RTreeNode.Leaf p, false)
  | RTreeNode.DirectoryNode bb cs d =>
    let contains := match bb with
      | some r => r.contains_rect (objMbr to_remove)
      | none => false
    if contains then
      match removeFromChildren cs to_remove with
      | (cs2, some dropped) =>
        if dropped then ((DirectoryNodeData.update_mbr ⟨bb, cs2, d⟩).asNode, true)
        else (RTreeNode.DirectoryNode bb cs2 d, true)
      | (cs2, none) => (RTreeNode.DirectoryNode bb cs2 d, false)
    else (RTreeNode.DirectoryNode bb cs d, false)

/-- The child loop of remove: the first child that succeeds breaks the
loop; the returned option records, once found, whether an entry of this
child list was deleted (the remove_index of the source). -/
def removeFromChildren : List RTreeNode → Pt → List RTreeNode × Option Bool
  | [], _ => ([], none)
  | c :: rest, to_remove =>
    match c with
    | RTreeNode.DirectoryNode _ _ _ =>
      let r := removeNode c to_remove
      if r.2 then
        match r.1 with
        | RTreeNode.DirectoryNode bb3 cs3 d3 =>
          if cs3.isEmpty then (rest, some true)
          else (RTreeNode.DirectoryNode bb3 cs3 d3 :: rest, some false)
        | RTreeNode.Leaf p3 => (RTreeNode.Leaf p3 :: rest, some false)
      else
        let rr := removeFromChildren rest to_remove
        (r.1 :: rr.1, rr.2)
    | RTreeNode.Leaf p =>
      if p = to_remove then (rest, some true)
      else
        let rr := removeFromChildren rest to_remove
        (RTreeNode.Leaf p :: rr.1, rr.2)
end

/-- DirectoryNodeData::remove on the payload form used by the tree
level. -/
def DirectoryNodeData.remove (dd : DirectoryNodeData) (to_remove : Pt) :
    DirectoryNodeData × Bool :=
  let r := removeNode dd.asNode to_remove
  (r.1.toData, r.2)

mutual
/-- DirectoryNodeData::lookup_and_remove, lines 548 to 580, on the node
form.  Every child is drained: directory children recurse unconditionally
(their own box test gates the work), emptied directory children are not
pushed back, every leaf containing the point is dropped with the last
one kept as the result, and update_mbr runs exactly when the result is
some.  The Leaf arm is unreachable. -/
def larNode (node : RTreeNode) (point : Pt) : RTreeNode × Option Pt :=
  match node with
  | RTreeNode.Leaf p => (RTreeNode.Leaf p, none)
  | RTreeNode.DirectoryNode bb cs d =>
    let contains := match bb with
      | some r => r.contains_point point
      | none => false
    if contains then
      match larChildren cs point with
      | (cs2, some v) => ((DirectoryNodeData.update_mbr ⟨bb, cs2, d⟩).asNode, some v)
      | (cs2, none) => (RTreeNode.DirectoryNode bb cs2 d, none)
    else (RTreeNode.DirectoryNode bb cs d, none)

/-- The drain loop of lookup_and_remove.  The source folds result =
new.or(result) while walking forward, so a match found by a later child
overrides an earlier one; in this head first recursion the tail result
therefore wins over the head result. -/
def larChildren : List RTreeNode → Pt → List RTreeNode × Option Pt
  | [], _ => ([], none)
  | c :: rest, point =>
    match c with
    | RTreeNode.DirectoryNode _ _ _ =>
      let r := larNode c point
      let tail := larChildren rest point
      let kept := match r.1 with
        | RTreeNode.DirectoryNode bb3 cs3 d3 =>
          if cs3.isEmpty then tail.1 else RTreeNode.DirectoryNode bb3 cs3 d3 :: tail.1
        | RTreeNode.Leaf p3 => RTreeNode.Leaf p3 :: tail.1
      (kept, match tail.2 with
        | some v => some v
        | none => r.2)
    | RTreeNode.Leaf b =>
      let tail := larChildren rest point
      if objContains b point then
        (tail.1, match tail.2 with
          | some v => some v
          | none => some b)
      else (RTreeNode.Leaf b :: tail.1, tail.2)
end

/-- DirectoryNodeData::lookup_and_remove on the payload form used by the
tree level. -/
def DirectoryNodeData.lookup_and_remove (dd : DirectoryNodeData) (point : Pt) :
    DirectoryNodeData × Option Pt :=
  let r := larNode dd.asNode point
  (r.1.toData, r.2)

mutual
/-- Executable size of a node, used to start the fuel of the sorted
nearest neighbor descents: every child is strictly smaller. -/
def RTreeNode.nsize : RTreeNode → Nat
  | .Leaf _ => 1
  | .DirectoryNode _ cs _ => 1 + RTreeNode.nsizeList cs

def RTreeNode.nsizeList : List RTreeNode → Nat
  | [] => 0
  | c :: rest => RTreeNode.nsize c + RTreeNode.nsizeList rest
end

/-- The tau bound of the nearest neighbor traversals: the smallest
min_max_dist2 over the cached child MBRs (zero for an empty child list),
lines 447 to 458 and 487 to 498. -/
def smallestMinMax (cs : List RTreeNode) (point : Pt) : Int :=
  match cs with
  | [] => 0
  | c :: rest =>
    rest.foldl (fun m ch => min m (ch.mbr.min_max_dist2 point)) (c.mbr.min_max_dist2 point)

namespace RTreeNode

/-- RTreeNode::nearest_neighbor, lines 774 to 787, together with
DirectoryNodeData::nearest_neighbor, lines 444 to 482, as the directory
arm.  The directory arm keeps the children whose min_dist2 is at most the
tau bound and walks them in ascending min_dist2 order (a stable sort of
the child and distance pairs by the distance, modelled as a stable sort
by key); the fold state is the running bound, the best object so far and
the break flag of the early exit.  The source recursion descends the
tree; because the walked children come from sorting a filtered copy of
the child list, the recursion is phrased on a fuel that is started at
sizeOf node by the wrapper below: every child is strictly smaller than
its parent, so the fuel never runs out and the fuel arm (none) is
unreachable. -/
def nearest_neighborF (fuel : Nat) (node : RTreeNode) (point : Pt)
    (nearest_distance : Option Int) : Option Pt :=
  match fuel with
  | 0 => none
  | fuel + 1 =>
    match node with
    | .Leaf t =>
      let distance := dist2 t point
      if (match nearest_distance with
          | some d => decide (distance < d)
          | none => true) then
        some t
      else none
    | .DirectoryNode _ cs _ =>
      let smm := smallestMinMax cs point
      let kept := cs.filter (fun c => c.mbr.min_dist2 point ≤ smm)
      let sorted := sortByKey (fun c => c.mbr.min_dist2 point) kept
      let fin := sorted.foldl
        (fun (st : Option Int × Option Pt × Bool) c =>
          if st.2.2 then st
          else if (match st.1 with
              | some d => decide (c.mbr.min_dist2 point > d)
              | none => false) then
            (st.1, st.2.1, true)
          else
            match nearest_neighborF fuel c point st.1 with
            | some t => (some (dist2 t point), some t, false)
            | none => st)
        (nearest_distance, none, false)
      fin.2.1

/-- RTreeNode::nearest_neighbor with the fuel instantiated at the size of
the node (sufficient for every descent). -/
def nearest_neighbor (node : RTreeNode) (point : Pt) (nearest_distance : Option Int) :
    Option Pt :=
  nearest_neighborF node.nsize node point nearest_distance

/-- RTreeNode::nearest_neighbors, lines 789 to 817, together with
DirectoryNodeData::nearest_neighbors, lines 484 to 516, as the directory
arm.  Returns the updated nearest distance and the updated result list;
in the directory arm all children are walked in ascending min_dist2 order
and a child is skipped when its min_dist2 exceeds the tau bound or the
running nearest distance.  Fueled like nearest_neighborF (the fuel arm is
unreachable from the wrapper). -/
def nearest_neighborsF (fuel : Nat) (node : RTreeNode) (point : Pt)
    (nearest_distance : Option Int) (result : List Pt) : Option Int × List Pt :=
  match fuel with
  | 0 => (nearest_distance, result)
  | fuel + 1 =>
    match node with
    | .Leaf t =>
      let distance := dist2 t point
      match nearest_distance with
      | some nearest =>
        if distance ≤ nearest then
          if distance < nearest then (some distance, [t])
          else (some distance, result ++ [t])
        else (none, result)
      | none => (some distance, result ++ [t])
    | .DirectoryNode _ cs _ =>
      let smm := smallestMinMax cs point
      let sorted := sortByKey (fun c : RTreeNode => c.mbr.min_dist2 point) cs
      sorted.foldl
        (fun (st : Option Int × List Pt) c =>
          let min_dist := c.mbr.min_dist2 point
          if decide (min_dist > smm) || (match st.1 with
              | some d => decide (min_dist > d)
              | none => false) then st
          else
            let r := nearest_neighborsF fuel c point st.1 st.2
            match r.1 with
            | some nearest => (some nearest, r.2)
            | none => (st.1, r.2))
        (nearest_distance, result)

/-- RTreeNode::nearest_neighbors with the fuel instantiated at the size
of the node. -/
def nearest_neighbors (node : RTreeNode) (point : Pt) (nearest_distance : Option Int)
    (result : List Pt) : Option Int × List Pt :=
  nearest_neighborsF node.nsize node point nearest_distance result

end RTreeNode

/-- Rust slice binary_search_by, used by nearest_n_neighbors to find the
insertion index: standard midpoint search returning the found index or
the insertion point (both are used the same way at the call site).  The
loop runs while lo < hi and every step strictly shrinks hi minus lo, so
starting the fuel at hi minus lo makes the fuel arm unreachable (when the
fuel is exhausted, lo is at least hi and the loop of the source would
also return lo). -/
def binSearchF (key : Pt → Int) (distance : Int) (arr : List Pt) :
    Nat → Nat → Nat → Nat
  | 0, lo, _ => lo
  | fuel + 1, lo, hi =>
    if lo < hi then
      let mid := (lo + hi) / 2
      match arr[mid]? with
      | none => mid
      | some e =>
        if key e < distance then binSearchF key distance arr fuel (mid + 1) hi
        else if key e > distance then binSearchF key distance arr fuel lo mid
        else mid
    else lo

/-- Rust slice binary_search_by over the whole list. -/
def binSearch (key : Pt → Int) (distance : Int) (arr : List Pt) (lo hi : Nat) : Nat :=
  binSearchF key distance arr (hi - lo) lo hi

mutual
/-- DirectoryNodeData::nearest_n_neighbors, lines 518 to 546, on the child
list.  The result list is kept sorted ascending by distance and capped at
n.  The source unwraps result.last() whenever the result already holds
exactly n entries; with n equal to 0 and a nonempty child list this
unwraps an empty Vec and panics, which is modelled by the none return. -/
def nearest_n_neighbors (cs : List RTreeNode) (point : Pt) (n : Nat)
    (result0 : List Pt) : Option (List Pt) :=
  match cs with
  | [] => some result0
  | c :: rest =>
    let step : Option (List Pt) :=
      if result0.length = n then
        match result0.getLast? with
        | none => none
        | some lastv =>
          if c.mbr.min_dist2 point ≥ dist2 lastv point then some result0
          else nnnDescend c point n result0
      else nnnDescend c point n result0
    match step with
    | none => none
    | some result1 => nearest_n_neighbors rest point n result1

/-- One child step of nearest_n_neighbors: recurse into a directory
child, or insert a leaf object into the sorted capped result list. -/
def nnnDescend (c : RTreeNode) (point : Pt) (n : Nat) (result : List Pt) :
    Option (List Pt) :=
  match c with
  | RTreeNode.DirectoryNode _ cs2 _ => nearest_n_neighbors cs2 point n result
  | RTreeNode.Leaf b =>
    let distance := dist2 b point
    if result.length ≠ n then
      let index := binSearch (fun e => dist2 e point) distance result 0 result.length
      some (result.take index ++ b :: result.drop index)
    else
      match result.getLast? with
      | none => none
      | some lastv =>
        if distance < dist2 lastv point then
          let popped := result.dropLast
          let index := binSearch (fun e => dist2 e point) distance popped 0 popped.length
          some (popped.take index ++ b :: popped.drop index)
        else some result
end

/-- DirectoryNodeData::lookup_in_circle, lines 604 to 622, on the child
list: recurse into every child whose cached MBR has min_dist2 at most the
squared radius; a leaf object is included when its distance2 is strictly
below the squared radius. -/
def lookup_in_circle (cs : List RTreeNode) (result0 : List Pt) (origin : Pt)
    (radius2 : Int) : List Pt :=
  match cs with
  | [] => result0
  | c :: rest =>
    let acc :=
      if c.mbr.min_dist2 origin ≤ radius2 then
        match c with
        | RTreeNode.DirectoryNode _ cs2 _ => lookup_in_circle cs2 result0 origin radius2
        | RTreeNode.Leaf t => if dist2 t origin < radius2 then result0 ++ [t] else result0
      else result0
    lookup_in_circle rest acc origin radius2

namespace RTree

/-- RTree::nearest_neighbor, lines 948 to 954. -/
def nearest_neighbor (tr : RTree) (query_point : Pt) : Option Pt :=
  if tr.size > 0 then tr.root.asNode.nearest_neighbor query_point none
  else none

/-- RTree::nearest_neighbors, lines 966 to 972. -/
def nearest_neighbors (tr : RTree) (query_point : Pt) : List Pt :=
  if tr.size > 0 then (tr.root.asNode.nearest_neighbors query_point none []).2
  else []

/-- RTree::nearest_n_neighbors, lines 975 to 984; none models the panic
inside the recursion. -/
def nearest_n_neighbors (tr : RTree) (query_point : Pt) (n : Nat) : Option (List Pt) :=
  if tr.size > 0 then Spade.nearest_n_neighbors tr.root.children query_point n []
  else some []

/-- RTree::lookup_in_circle, lines 999 to 1006. -/
def lookup_in_circle (tr : RTree) (circle_origin : Pt) (radius2 : Int) : List Pt :=
  if tr.size > 0 then Spade.lookup_in_circle tr.root.children [] circle_origin radius2
  else []

/-- RTree::remove, lines 1098 to 1110. -/
def remove (tr : RTree) (obj : Pt) : RTree × Bool :=
  if tr.size = 0 then (tr, false)
  else
    let r := DirectoryNodeData.remove tr.root obj
    let root2 := if r.1.children.isEmpty then { r.1 with depth := 1 } else r.1
    (⟨root2, if r.2 then tr.size - 1 else tr.size⟩, r.2)

/-- RTree::lookup_and_remove, lines 1073 to 1086. -/
def lookup_and_remove (tr : RTree) (query_point : Pt) : RTree × Option Pt :=
  if tr.size > 0 then
    let r := DirectoryNodeData.lookup_and_remove tr.root query_point
    match r.2 with
    | some v =>
      let root2 := if r.1.children.isEmpty then { r.1 with depth := 1 } else r.1
      (⟨root2, tr.size - 1⟩, some v)
    | none => (⟨r.1, tr.size⟩, none)
  else (tr, none)

end RTree

/-- A public mutation of the tree. -/
inductive Op where
  | ins (p : Pt)
  | rem (p : Pt)
  | lar (p : Pt)

/-- Apply one public mutation. -/
def RTree.applyOp (opts : RTreeOptions) (tr : RTree) : Op → RTree
  | .ins p => RTree.insert opts tr p
  | .rem p => (RTree.remove tr p).1
  | .lar p => (RTree.lookup_and_remove tr p).1

/-- Apply a program of public mutations to the empty tree. -/
def runOps (opts : RTreeOptions) (ops : List Op) : RTree :=
  ops.foldl (RTree.applyOp opts) RTree.new_with_options

/-- The tree built by inserting the given points in order into the empty
tree. -/
def buildTree (opts : RTreeOptions) (ps : List Pt) : RTree :=
  ps.foldl (RTree.insert opts) RTree.new_with_options

/-- Fuel form of RTree::insert: the driver is run with enough fuel to
cover the initial stack entry plus worst-case reinsertion work, so it is
equal to insert_full (insert_full_eq_fuel) while reducing inside the
kernel on concrete inputs. -/
def RTree.insert_fullF (opts : RTreeOptions) (tr : RTree) (t : Pt) : RTree × InsertionState :=
  let st := InsertionState.new (tr.root.depth + 1)
  let r := insertLoopF opts (1 + opts.reinsertion_count * countFalse st.reinsertions)
    tr.root [RTreeNode.Leaf t] st
  (⟨r.1, tr.size + 1⟩, r.2)

theorem RTree.insert_full_eq_fuel (opts : RTreeOptions) (tr : RTree) (t : Pt) :
    RTree.insert_full opts tr t = RTree.insert_fullF opts tr t := by
  simp only [RTree.insert_full, RTree.insert_fullF]
  rw [insertLoopF_eq]
  simp

/-- Fuel form of one public mutation. -/
def RTree.applyOpF (opts : RTreeOptions) (tr : RTree) : Op → RTree
  | .ins p => (RTree.insert_fullF opts tr p).1
  | .rem p => (RTree.remove tr p).1
  | .lar p => (RTree.lookup_and_remove tr p).1

theorem RTree.applyOp_eq_fuel (opts : RTreeOptions) (tr : RTree) (op : Op) :
    RTree.applyOp opts tr op = RTree.applyOpF opts tr op := by
  cases op <;>
    simp [RTree.applyOp, RTree.applyOpF, RTree.insert, RTree.insert_full_eq_fuel]

/-- Fuel form of runOps. -/
def runOpsF (opts : RTreeOptions) (ops : List Op) : RTree :=
  ops.foldl (RTree.applyOpF opts) RTree.new_with_options

theorem runOps_eq_fuel (opts : RTreeOptions) (ops : List Op) :
    runOps opts ops = runOpsF opts ops := by
  unfold runOps runOpsF
  congr 1
  funext tr op
  exact RTree.applyOp_eq_fuel opts tr op

/-- Fuel form of buildTree. -/
def buildTreeF (opts : RTreeOptions) (ps : List Pt) : RTree :=
  ps.foldl (fun tr p => (RTree.insert_fullF opts tr p).1) RTree.new_with_options

theorem buildTree_eq_fuel (opts : RTreeOptions) (ps : List Pt) :
    buildTree opts ps = buildTreeF opts ps := by
  unfold buildTree buildTreeF
  congr 1
  funext tr p
  simp only [RTree.insert, RTree.insert_full_eq_fuel]

/-! Helper development for claim C8 (options construction). -/

theorem builtOptions_invariant {o : RTreeOptions} (h : BuiltOptions o) :
    o.min_size < o.max_size ∧ 1 ≤ o.reinsertion_count := by
  induction h with
  | new => exact ⟨by decide, by decide⟩
  | max hb hs ih =>
    unfold RTreeOptions.set_max_size at hs
    split at hs
    · cases hs
      exact ⟨by simp_all, ih.2⟩
    · cases hs
  | min hb hs ih =>
    unfold RTreeOptions.set_min_size at hs
    split at hs
    · cases hs
      exact ⟨by simp_all, ih.2⟩
    · cases hs
  | reins hb hs ih =>
    unfold RTreeOptions.set_reinsertion_count at hs
    split at hs
    · cases hs
      simp_all
      omega
    · cases hs

/-! Helper development for claim C7 (split axis selection). -/

/-- Spec side definition for claim C7: the list of margin sums S(axis, k)
of one axis, with the children sorted along that axis as the spec words
describe (sorted from the given child list). -/
def specAxisMargins (min_size : Nat) (axis : Nat) (cs : List RTreeNode) : List Int :=
  let s := sortByKey (DirectoryNodeData.lowerNth axis) cs
  (DirectoryNodeData.splitKs min_size s.length).map (fun k =>
    (DirectoryNodeData.mbrOf1 (s.take k)).half_margin +
    (DirectoryNodeData.mbrOf1 (s.drop k)).half_margin)

/-- The margin sums the source computes for axis 0 (children sorted along
axis 0). -/
def axis0Margins (min_size : Nat) (cs : List RTreeNode) : List Int :=
  specAxisMargins min_size 0 cs

/-- The margin sums the source computes for axis 1: the children are
sorted along axis 1 starting from the axis 0 sorted state (the in place
sorts of the source compose). -/
def axis1Margins (min_size : Nat) (cs : List RTreeNode) : List Int :=
  let s0 := sortByKey (DirectoryNodeData.lowerNth 0) cs
  let s1 := sortByKey (DirectoryNodeData.lowerNth 1) s0
  (DirectoryNodeData.splitKs min_size s1.length).map (fun k =>
    (DirectoryNodeData.mbrOf1 (s1.take k)).half_margin +
    (DirectoryNodeData.mbrOf1 (s1.drop k)).half_margin)

/-- The seed the axis 1 scan starts from: the margin sum of the last axis 0
partition (not the smallest one), or zero when there is no legal
partition. -/
def axis0SeedMargin (min_size : Nat) (cs : List RTreeNode) : Int :=
  (axis0Margins min_size cs).getLastD 0

theorem foldl_overwrite_aux : ∀ (ks : List Nat) (g : Nat → Int) (a0 : Int),
    (ks.foldl (fun (_ : Int × Nat) k => (g k, 0)) (a0, 0)) = ((ks.map g).getLastD a0, 0)
  | [], _, _ => rfl
  | k :: ks, g, a0 => by
    simp only [List.foldl_cons, List.map_cons, List.getLastD_cons]
    exact foldl_overwrite_aux ks g (g k)

theorem foldl_overwrite_pair (ks : List Nat) (g : Nat → Int) (a0 : Int) :
    (ks.foldl (fun (st : Int × Nat) k => if st.1 > g k ∨ True then (g k, 0) else st) (a0, 0))
      = ((ks.map g).getLastD a0, 0) := by
  simp only [or_true, if_true]
  exact foldl_overwrite_aux ks g a0

theorem foldl_min_track_key : ∀ (ks : List Nat) (g : Nat → Int) (seed : Int) (a0 ax : Nat),
    (ks.foldl (fun (st : Int × Nat) k => if st.1 > g k then (g k, ax) else st) (seed, a0)).2
      = if (ks.map g).any (fun v => decide (v < seed)) then ax else a0 := by
  intro ks
  induction ks with
  | nil => intro g seed a0 ax; simp
  | cons k ks ih =>
    intro g seed a0 ax
    simp only [List.foldl_cons, List.map_cons, List.any_cons]
    by_cases hv : seed > g k
    · rw [if_pos hv]
      rw [ih g (g k) ax ax]
      have hvs : g k < seed := hv
      simp [hvs]
    · rw [if_neg hv]
      rw [ih g seed a0 ax]
      have : ¬ (g k < seed) := hv
      simp [this]

/-- Characterization of get_split_axis at dimension 2 used by the amended
claim C7: the scan is seeded by the margin sum of the last axis 0
partition, so axis 1 wins exactly when one of its margin sums is strictly
below that seed. -/
theorem get_split_axis_characterization (opts : RTreeOptions) (cs : List RTreeNode) :
    (DirectoryNodeData.get_split_axis opts cs).1 =
      if (axis1Margins opts.min_size cs).any
          (fun v => decide (v < axis0SeedMargin opts.min_size cs)) then 1 else 0 := by
  unfold DirectoryNodeData.get_split_axis axis1Margins axis0SeedMargin axis0Margins
    specAxisMargins
  simp only
  rw [foldl_overwrite_pair]
  rw [foldl_min_track_key]

/-! Geometry toolkit: containment order of rectangles, membership of
points, and the bounds provided by min_dist2 and min_max_dist2. -/

namespace Rect

/-- Rectangle s is contained in rectangle r (as point sets, for
well-formed rectangles). -/
def subset (s r : Rect) : Prop :=
  r.lx ≤ s.lx ∧ s.ux ≤ r.ux ∧ r.ly ≤ s.ly ∧ s.uy ≤ r.uy

/-- Point membership in a rectangle. -/
def memR (p : Pt) (r : Rect) : Prop :=
  r.lx ≤ p.1 ∧ p.1 ≤ r.ux ∧ r.ly ≤ p.2 ∧ p.2 ≤ r.uy

theorem subset_refl (r : Rect) : subset r r := ⟨le_refl _, le_refl _, le_refl _, le_refl _⟩

theorem subset_trans {a b c : Rect} (h1 : subset a b) (h2 : subset b c) : subset a c := by
  obtain ⟨x1, x2, x3, x4⟩ := h1
  obtain ⟨y1, y2, y3, y4⟩ := h2
  exact ⟨le_trans y1 x1, le_trans x2 y2, le_trans y3 x3, le_trans x4 y4⟩

theorem subset_add_left (r s : Rect) : subset r (r.add_rect s) := by
  unfold add_rect subset
  constructor
  · exact min_le_left _ _
  constructor
  · exact le_max_left _ _
  constructor
  · exact min_le_left _ _
  · exact le_max_left _ _

theorem subset_add_right (r s : Rect) : subset s (r.add_rect s) := by
  unfold add_rect subset
  constructor
  · exact min_le_right _ _
  constructor
  · exact le_max_right _ _
  constructor
  · exact min_le_right _ _
  · exact le_max_right _ _

theorem add_subset {r s u : Rect} (h1 : subset r u) (h2 : subset s u) :
    subset (r.add_rect s) u := by
  obtain ⟨x1, x2, x3, x4⟩ := h1
  obtain ⟨y1, y2, y3, y4⟩ := h2
  unfold add_rect subset
  constructor
  · exact le_min x1 y1
  constructor
  · exact max_le x2 y2
  constructor
  · exact le_min x3 y3
  · exact max_le x4 y4

theorem memR_mono {p : Pt} {s r : Rect} (hm : memR p s) (hs : subset s r) : memR p r := by
  obtain ⟨a1, a2, a3, a4⟩ := hm
  obtain ⟨b1, b2, b3, b4⟩ := hs
  exact ⟨le_trans b1 a1, le_trans a2 b2, le_trans b3 a3, le_trans a4 b4⟩

theorem memR_ofPoint (p : Pt) : memR p (ofPoint p) :=
  ⟨le_refl _, le_refl _, le_refl _, le_refl _⟩

theorem contains_rect_iff {r s : Rect} : r.contains_rect s = true ↔ subset s r := by
  unfold contains_rect subset
  simp

theorem contains_point_iff {r : Rect} {p : Pt} : r.contains_point p = true ↔ memR p r := by
  unfold contains_point memR
  simp

theorem memR_ofPoint_subset {p : Pt} {r : Rect} (h : memR p r) : subset (ofPoint p) r := by
  obtain ⟨a1, a2, a3, a4⟩ := h
  exact ⟨a1, a2, a3, a4⟩

/-- One axis of the min_dist2 bound: the axis distance to the interval is
at most the distance to any coordinate inside the interval. -/
theorem axdist_le {l u q t : Int} (h1 : l ≤ t) (h2 : t ≤ u) :
    axdist l u q * axdist l u q ≤ (q - t) * (q - t) := by
  unfold axdist
  rcases le_total q t with hq | hq
  · have hd : max (l - q) (max (q - u) 0) ≤ t - q := by
      apply max_le
      · omega
      · apply max_le <;> omega
    have hnn : 0 ≤ max (l - q) (max (q - u) 0) := le_max_of_le_right (le_max_right _ _)
    have := mul_le_mul hd hd hnn (by omega)
    nlinarith
  · have hd : max (l - q) (max (q - u) 0) ≤ q - t := by
      apply max_le
      · omega
      · apply max_le <;> omega
    have hnn : 0 ≤ max (l - q) (max (q - u) 0) := le_max_of_le_right (le_max_right _ _)
    have := mul_le_mul hd hd hnn (by omega)
    nlinarith

/-- Lower bound property of min_dist2: every point of the rectangle is at
least min_dist2 away (in squared distance) from the query point. -/
theorem min_dist2_le_dist2 {p : Pt} {r : Rect} (h : memR p r) (q : Pt) :
    r.min_dist2 q ≤ dist2 p q := by
  obtain ⟨a1, a2, a3, a4⟩ := h
  unfold min_dist2 dist2
  have hx := axdist_le (q := q.1) a1 a2
  have hy := axdist_le (q := q.2) a3 a4
  have : (q.1 - p.1) * (q.1 - p.1) = (p.1 - q.1) * (p.1 - q.1) := by ring
  rw [this] at hx
  have : (q.2 - p.2) * (q.2 - p.2) = (p.2 - q.2) * (p.2 - q.2) := by ring
  rw [this] at hy
  omega

/-- Any coordinate inside an interval is at most farSq away from the
query coordinate (in squared distance). -/
theorem farSq_bound {l u q t : Int} (h1 : l ≤ t) (h2 : t ≤ u) :
    (q - t) * (q - t) ≤ farSq l u q := by
  unfold farSq
  rcases le_total t q with hq | hq
  · apply le_max_of_le_left
    nlinarith
  · apply le_max_of_le_right
    nlinarith

end Rect

/-! Unfolding lemmas for the recursive checkers and the object list. -/

namespace RTreeNode

theorem objsList_eq : ∀ cs : List RTreeNode, objsList cs = (cs.map objs).flatten
  | [] => rfl
  | c :: rest => by
    rw [objsList]
    simp [objsList_eq rest]

theorem objs_dir (bb : Option Rect) (cs : List RTreeNode) (d : Nat) :
    objs (.DirectoryNode bb cs d) = (cs.map objs).flatten := by
  rw [objs]
  exact objsList_eq cs

theorem mbrExactBList_iff : ∀ cs : List RTreeNode,
    mbrExactBList cs = true ↔ ∀ c ∈ cs, mbrExactB c = true
  | [] => by simp [mbrExactBList]
  | c :: rest => by
    rw [mbrExactBList]
    simp [mbrExactBList_iff rest]

theorem mbrExactB_dir_iff (bb : Option Rect) (cs : List RTreeNode) (d : Nat) :
    mbrExactB (.DirectoryNode bb cs d) = true ↔
      (bb = DirectoryNodeData.mbrOfChildren cs ∧ ∀ c ∈ cs, mbrExactB c = true) := by
  rw [mbrExactB]
  simp [mbrExactBList_iff]

theorem depthOkBList_iff : ∀ (d : Nat) (cs : List RTreeNode),
    depthOkBList d cs = true ↔ ∀ c ∈ cs, c.depth + 1 = d ∧ depthOkB c = true
  | _, [] => by simp [depthOkBList]
  | d, c :: rest => by
    rw [depthOkBList]
    simp only [Bool.and_eq_true, decide_eq_true_eq, depthOkBList_iff d rest]
    constructor
    · rintro ⟨⟨h1, h2⟩, h3⟩
      intro x hx
      rcases List.mem_cons.mp hx with rfl | hx
      · exact ⟨h1, h2⟩
      · exact h3 x hx
    · intro h
      exact ⟨h c (List.mem_cons_self _ _), fun x hx => h x (List.mem_cons_of_mem _ hx)⟩

theorem depthOkB_dir_iff (bb : Option Rect) (cs : List RTreeNode) (d : Nat) :
    depthOkB (.DirectoryNode bb cs d) = true ↔
      (∀ c ∈ cs, c.depth + 1 = d ∧ depthOkB c = true) := by
  rw [depthOkB]
  exact depthOkBList_iff d cs

theorem nonemptyDirsBList_iff : ∀ cs : List RTreeNode,
    nonemptyDirsBList cs = true ↔ ∀ c ∈ cs, nonemptyDirsB c = true
  | [] => by simp [nonemptyDirsBList]
  | c :: rest => by
    rw [nonemptyDirsBList]
    simp [nonemptyDirsBList_iff rest]

theorem nonemptyDirsB_dir_iff (bb : Option Rect) (cs : List RTreeNode) (d : Nat) :
    nonemptyDirsB (.DirectoryNode bb cs d) = true ↔
      (cs ≠ [] ∧ ∀ c ∈ cs, nonemptyDirsB c = true) := by
  rw [nonemptyDirsB]
  simp [nonemptyDirsBList_iff, List.isEmpty_iff]

theorem childCountBelowOkBList_iff : ∀ (lo hi : Nat) (cs : List RTreeNode),
    childCountBelowOkBList lo hi cs = true ↔ ∀ c ∈ cs, childCountBelowOkB lo hi c = true
  | _, _, [] => by simp [childCountBelowOkBList]
  | lo, hi, c :: rest => by
    rw [childCountBelowOkBList]
    simp [childCountBelowOkBList_iff lo hi rest]

theorem childCountBelowOkB_dir_iff (lo hi : Nat) (bb : Option Rect) (cs : List RTreeNode)
    (d : Nat) :
    childCountBelowOkB lo hi (.DirectoryNode bb cs d) = true ↔
      ((lo ≤ cs.length ∧ cs.length ≤ hi) ∧ ∀ c ∈ cs, childCountBelowOkB lo hi c = true) := by
  rw [childCountBelowOkB]
  simp [childCountBelowOkBList_iff]

end RTreeNode

/-! Lattice facts about the child MBR union computed by update_mbr. -/

theorem foldl_add_rect_subset_seed : ∀ (rs : List Rect) (seed : Rect),
    Rect.subset seed (rs.foldl Rect.add_rect seed)
  | [], seed => Rect.subset_refl seed
  | r :: rs, seed => by
    simp only [List.foldl_cons]
    exact Rect.subset_trans (Rect.subset_add_left seed r) (foldl_add_rect_subset_seed rs _)

theorem foldl_add_rect_subset_mem : ∀ (rs : List Rect) (seed x : Rect), x ∈ rs →
    Rect.subset x (rs.foldl Rect.add_rect seed)
  | [], _, _, hx => absurd hx (List.not_mem_nil _)
  | r :: rs, seed, x, hx => by
    simp only [List.foldl_cons]
    rcases List.mem_cons.mp hx with rfl | hx
    · exact Rect.subset_trans (Rect.subset_add_right seed x) (foldl_add_rect_subset_seed rs _)
    · exact foldl_add_rect_subset_mem rs _ x hx

theorem foldl_add_rect_lub : ∀ (rs : List Rect) (seed u : Rect), Rect.subset seed u →
    (∀ x ∈ rs, Rect.subset x u) → Rect.subset (rs.foldl Rect.add_rect seed) u
  | [], _, _, hs, _ => hs
  | r :: rs, seed, u, hs, hall => by
    simp only [List.foldl_cons]
    exact foldl_add_rect_lub rs _ u (Rect.add_subset hs (hall r (List.mem_cons_self r rs)))
      (fun x hx => hall x (List.mem_cons_of_mem r hx))

/-- For each corner coordinate, the fold of add_rect attains it at the
seed or at one of the folded rectangles. -/
theorem foldl_add_rect_attain : ∀ (rs : List Rect) (seed : Rect),
    (∀ x ∈ seed :: rs, ((rs.foldl Rect.add_rect seed).lx = x.lx → True)) ∧
    ((∃ x ∈ seed :: rs, (rs.foldl Rect.add_rect seed).lx = x.lx) ∧
     (∃ x ∈ seed :: rs, (rs.foldl Rect.add_rect seed).ux = x.ux) ∧
     (∃ x ∈ seed :: rs, (rs.foldl Rect.add_rect seed).ly = x.ly) ∧
     (∃ x ∈ seed :: rs, (rs.foldl Rect.add_rect seed).uy = x.uy)) := by
  intro rs
  induction rs with
  | nil =>
    intro seed
    refine ⟨fun x hx h => trivial, ?_, ?_, ?_, ?_⟩ <;>
      exact ⟨seed, List.mem_cons_self _ _, rfl⟩
  | cons r rs ih =>
    intro seed
    refine ⟨fun x hx h => trivial, ?_⟩
    have h2 := (ih (seed.add_rect r)).2
    obtain ⟨⟨x1, hm1, he1⟩, ⟨x2, hm2, he2⟩, ⟨x3, hm3, he3⟩, ⟨x4, hm4, he4⟩⟩ := h2
    simp only [List.foldl_cons]
    have hsplit : ∀ y : Rect, y ∈ (seed.add_rect r) :: rs → y = seed.add_rect r ∨ y ∈ rs := by
      intro y hy
      exact List.mem_cons.mp hy
    constructor
    · rcases hsplit x1 hm1 with rfl | hmem
      · rcases le_total seed.lx r.lx with hle | hle
        · exact ⟨seed, List.mem_cons_self _ _, by
            rw [he1]; simp [Rect.add_rect]; omega⟩
        · exact ⟨r, List.mem_cons_of_mem _ (List.mem_cons_self _ _), by
            rw [he1]; simp [Rect.add_rect]; omega⟩
      · exact ⟨x1, List.mem_cons_of_mem _ (List.mem_cons_of_mem _ hmem), he1⟩
    constructor
    · rcases hsplit x2 hm2 with rfl | hmem
      · rcases le_total seed.ux r.ux with hle | hle
        · exact ⟨r, List.mem_cons_of_mem _ (List.mem_cons_self _ _), by
            rw [he2]; simp [Rect.add_rect]; omega⟩
        · exact ⟨seed, List.mem_cons_self _ _, by
            rw [he2]; simp [Rect.add_rect]; omega⟩
      · exact ⟨x2, List.mem_cons_of_mem _ (List.mem_cons_of_mem _ hmem), he2⟩
    constructor
    · rcases hsplit x3 hm3 with rfl | hmem
      · rcases le_total seed.ly r.ly with hle | hle
        · exact ⟨seed, List.mem_cons_self _ _, by
            rw [he3]; simp [Rect.add_rect]; omega⟩
        · exact ⟨r, List.mem_cons_of_mem _ (List.mem_cons_self _ _), by
            rw [he3]; simp [Rect.add_rect]; omega⟩
      · exact ⟨x3, List.mem_cons_of_mem _ (List.mem_cons_of_mem _ hmem), he3⟩
    · rcases hsplit x4 hm4 with rfl | hmem
      · rcases le_total seed.uy r.uy with hle | hle
        · exact ⟨r, List.mem_cons_of_mem _ (List.mem_cons_self _ _), by
            rw [he4]; simp [Rect.add_rect]; omega⟩
        · exact ⟨seed, List.mem_cons_self _ _, by
            rw [he4]; simp [Rect.add_rect]; omega⟩
      · exact ⟨x4, List.mem_cons_of_mem _ (List.mem_cons_of_mem _ hmem), he4⟩

namespace DirectoryNodeData

theorem mbrOfChildren_none_iff (cs : List RTreeNode) :
    mbrOfChildren cs = none ↔ cs = [] := by
  cases cs with
  | nil => simp [mbrOfChildren]
  | cons c rest => simp [mbrOfChildren]

theorem mbrOfChildren_mem_subset {cs : List RTreeNode} {c : RTreeNode} {r : Rect}
    (hc : c ∈ cs) (h : mbrOfChildren cs = some r) : Rect.subset c.mbr r := by
  cases cs with
  | nil => cases hc
  | cons c0 rest =>
    simp only [mbrOfChildren, Option.some.injEq] at h
    subst h
    rw [← List.foldl_map (f := RTreeNode.mbr) (g := Rect.add_rect)]
    rcases List.mem_cons.mp hc with rfl | hmem
    · exact foldl_add_rect_subset_seed _ _
    · exact foldl_add_rect_subset_mem _ _ _ (List.mem_map_of_mem RTreeNode.mbr hmem)

theorem mbrOfChildren_lub {cs : List RTreeNode} {r u : Rect}
    (h : mbrOfChildren cs = some r) (hall : ∀ c ∈ cs, Rect.subset c.mbr u) :
    Rect.subset r u := by
  cases cs with
  | nil => cases h
  | cons c0 rest =>
    simp only [mbrOfChildren, Option.some.injEq] at h
    subst h
    rw [← List.foldl_map (f := RTreeNode.mbr) (g := Rect.add_rect)]
    apply foldl_add_rect_lub
    · exact hall c0 (List.mem_cons_self _ _)
    · intro x hx
      obtain ⟨c, hc, rfl⟩ := List.mem_map.mp hx
      exact hall c (List.mem_cons_of_mem _ hc)

theorem mbrOfChildren_attain {cs : List RTreeNode} {r : Rect}
    (h : mbrOfChildren cs = some r) :
    (∃ c ∈ cs, r.lx = c.mbr.lx) ∧ (∃ c ∈ cs, r.ux = c.mbr.ux) ∧
    (∃ c ∈ cs, r.ly = c.mbr.ly) ∧ (∃ c ∈ cs, r.uy = c.mbr.uy) := by
  cases cs with
  | nil => cases h
  | cons c0 rest =>
    simp only [mbrOfChildren, Option.some.injEq] at h
    subst h
    rw [← List.foldl_map (f := RTreeNode.mbr) (g := Rect.add_rect)]
    have h2 := (foldl_add_rect_attain (rest.map RTreeNode.mbr) c0.mbr).2
    obtain ⟨⟨x1, hm1, he1⟩, ⟨x2, hm2, he2⟩, ⟨x3, hm3, he3⟩, ⟨x4, hm4, he4⟩⟩ := h2
    have conv : ∀ x : Rect, x ∈ c0.mbr :: rest.map RTreeNode.mbr →
        ∃ c ∈ c0 :: rest, x = c.mbr := by
      intro x hx
      rcases List.mem_cons.mp hx with rfl | hmem
      · exact ⟨c0, List.mem_cons_self _ _, rfl⟩
      · obtain ⟨c, hc, rfl⟩ := List.mem_map.mp hmem
        exact ⟨c, List.mem_cons_of_mem _ hc, rfl⟩
    obtain ⟨c1, hc1, rfl⟩ := conv x1 hm1
    obtain ⟨c2, hc2, rfl⟩ := conv x2 hm2
    obtain ⟨c3, hc3, rfl⟩ := conv x3 hm3
    obtain ⟨c4, hc4, rfl⟩ := conv x4 hm4
    exact ⟨⟨c1, hc1, he1⟩, ⟨c2, hc2, he2⟩, ⟨c3, hc3, he3⟩, ⟨c4, hc4, he4⟩⟩

end DirectoryNodeData


/-! Algebra of the componentwise union, and the cached box of composite
child lists. -/

namespace Rect

theorem add_rect_comm (r s : Rect) : r.add_rect s = s.add_rect r := by
  simp [add_rect, min_comm, max_comm]

theorem add_rect_assoc (r s u : Rect) :
    (r.add_rect s).add_rect u = r.add_rect (s.add_rect u) := by
  simp [add_rect, min_assoc, max_assoc]

theorem add_rect_idem (r : Rect) : r.add_rect r = r := by
  simp [add_rect]

theorem add_rect_right_comm (b r1 r2 : Rect) :
    (b.add_rect r1).add_rect r2 = (b.add_rect r2).add_rect r1 := by
  rw [add_rect_assoc, add_rect_assoc, add_rect_comm r1 r2]

end Rect

/-- Union on optional rectangles (none is the empty union). -/
def unionOpt : Option Rect → Option Rect → Option Rect
  | none, y => y
  | some a, none => some a
  | some a, some b => some (a.add_rect b)

theorem unionOpt_none_right (x : Option Rect) : unionOpt x none = x := by
  cases x <;> rfl

theorem unionOpt_assoc (x y z : Option Rect) :
    unionOpt (unionOpt x y) z = unionOpt x (unionOpt y z) := by
  cases x <;> cases y <;> cases z <;> simp [unionOpt, Rect.add_rect_assoc]

theorem unionOpt_comm (x y : Option Rect) : unionOpt x y = unionOpt y x := by
  cases x <;> cases y <;> simp [unionOpt, Rect.add_rect_comm]

namespace DirectoryNodeData

theorem foldl_mbr_hoist (l : List RTreeNode) (b c : Rect) :
    l.foldl (fun acc ch => acc.add_rect ch.mbr) (b.add_rect c)
      = b.add_rect (l.foldl (fun acc ch => acc.add_rect ch.mbr) c) := by
  induction l generalizing c with
  | nil => rfl
  | cons r rest ih =>
    simp only [List.foldl_cons, Rect.add_rect_assoc]
    exact ih (c.add_rect r.mbr)

/-- The seeded union fold with an optional accumulator, for reasoning
about mbrOfChildren uniformly. -/
def foldUnionN (cs : List RTreeNode) (acc : Option Rect) : Option Rect :=
  cs.foldl (fun a ch => some ((a.getD ch.mbr).add_rect ch.mbr)) acc

theorem foldUnionN_some (l : List RTreeNode) (b : Rect) :
    foldUnionN l (some b) = some (l.foldl (fun acc ch => acc.add_rect ch.mbr) b) := by
  induction l generalizing b with
  | nil => rfl
  | cons r rest ih =>
    simp only [foldUnionN, List.foldl_cons, Option.getD] at *
    rw [ih]

theorem mbrOfChildren_eq_foldUnionN (cs : List RTreeNode) :
    mbrOfChildren cs = foldUnionN cs none := by
  cases cs with
  | nil => rfl
  | cons c rest =>
    have h1 : foldUnionN (c :: rest) none
        = foldUnionN rest (some (c.mbr.add_rect c.mbr)) := rfl
    rw [h1, foldUnionN_some, Rect.add_rect_idem]
    rfl

theorem mbrOfChildren_perm {cs1 cs2 : List RTreeNode} (h : cs1.Perm cs2) :
    mbrOfChildren cs1 = mbrOfChildren cs2 := by
  rw [mbrOfChildren_eq_foldUnionN, mbrOfChildren_eq_foldUnionN]
  have rc : RightCommutative
      (fun (a : Option Rect) (ch : RTreeNode) =>
        some ((a.getD ch.mbr).add_rect ch.mbr)) := by
    constructor
    intro a c1 c2
    cases a <;>
      simp [Option.getD, Rect.add_rect_idem, Rect.add_rect_right_comm,
        Rect.add_rect_assoc, Rect.add_rect_comm c1.mbr c2.mbr]
  exact @List.Perm.foldl_eq _ _ _ _ _ rc h none

theorem mbrOfChildren_append2 (l1 l2 : List RTreeNode) :
    mbrOfChildren (l1 ++ l2) = unionOpt (mbrOfChildren l1) (mbrOfChildren l2) := by
  cases l1 with
  | nil => rfl
  | cons c rest =>
    simp only [List.cons_append, mbrOfChildren, List.foldl_append]
    cases l2 with
    | nil => simp [unionOpt]
    | cons d ds =>
      simp only [List.foldl_cons, unionOpt, Option.some.injEq]
      rw [← foldl_mbr_hoist]

end DirectoryNodeData

/-! Permutation and decomposition toolkit for child lists. -/

namespace RTreeNode

theorem objsList_append (l1 l2 : List RTreeNode) :
    objsList (l1 ++ l2) = objsList l1 ++ objsList l2 := by
  induction l1 with
  | nil => rfl
  | cons c rest ih =>
    simp only [List.cons_append, objsList, List.append_eq, ih, List.append_assoc]

theorem objsList_perm {l1 l2 : List RTreeNode} (h : l1.Perm l2) :
    (objsList l1).Perm (objsList l2) := by
  rw [objsList_eq, objsList_eq]
  exact ((h.map objs).flatten)

end RTreeNode

theorem sortByKey_perm {α : Type} (key : α → Int) (l : List α) :
    (sortByKey key l).Perm l :=
  List.perm_insertionSort _ l

/-- Nodes detached by an insertion outcome (the split sibling or the
reinsertion payload). -/
def resultNodes : InsertionResult → List RTreeNode
  | InsertionResult.Split c => [c]
  | InsertionResult.Reinsert ns => ns
  | InsertionResult.Complete => []
  | InsertionResult.Abort => []

theorem objsList_single (c : RTreeNode) :
    RTreeNode.objsList [c] = RTreeNode.objs c := by
  rw [RTreeNode.objsList, RTreeNode.objsList]
  simp

namespace DirectoryNodeData

theorem get_split_axis_perm (opts : RTreeOptions) (cs : List RTreeNode) :
    (get_split_axis opts cs).2.Perm cs := by
  unfold get_split_axis
  exact (sortByKey_perm _ _).trans (sortByKey_perm _ _)

theorem foldl_second_mem {α : Type} (f : (α × Nat) → Nat → (α × Nat))
    (hf : ∀ st k, (f st k).2 = st.2 ∨ (f st k).2 = k) :
    ∀ (l : List Nat) (st0 : α × Nat), (l.foldl f st0).2 = st0.2 ∨ (l.foldl f st0).2 ∈ l := by
  intro l
  induction l with
  | nil => intro st0; exact Or.inl rfl
  | cons k rest ih =>
    intro st0
    simp only [List.foldl_cons]
    rcases ih (f st0 k) with h | h
    · rcases hf st0 k with h2 | h2
      · exact Or.inl (h.trans h2)
      · exact Or.inr (by rw [h, h2]; exact List.mem_cons_self _ _)
    · exact Or.inr (List.mem_cons_of_mem _ h)

theorem splitKs_bounds {min_size len k : Nat} (h : k ∈ splitKs min_size len) :
    min_size ≤ k ∧ k + min_size ≤ len := by
  unfold splitKs at h
  rw [List.mem_range'] at h
  omega

/-- Shape of DirectoryNodeData::split: a permutation of the children is
cut at an index strictly between the ends (given at least min_size + 1
children and positive min_size); the first piece keeps the node, the
second piece becomes the returned sibling. -/
theorem split_shape (opts : RTreeOptions) (dd : DirectoryNodeData)
    (hmin : 1 ≤ opts.min_size) (hlen : opts.min_size < dd.children.length) :
    ∃ (sorted : List RTreeNode) (k : Nat), sorted.Perm dd.children ∧
      1 ≤ k ∧ k < sorted.length ∧
      (split opts dd).1 = update_mbr { dd with children := sorted.take k } ∧
      (split opts dd).2 = (new_parent (sorted.drop k) dd.depth).asNode := by
  unfold split
  set axis_sorted := get_split_axis opts dd.children with haxis
  set sorted := sortByKey (lowerNth axis_sorted.1) axis_sorted.2 with hsorted
  have hperm : sorted.Perm dd.children :=
    (sortByKey_perm _ _).trans (get_split_axis_perm opts dd.children)
  have hslen : sorted.length = dd.children.length := hperm.length_eq
  set best := (splitKs opts.min_size sorted.length).foldl
    (fun (st : (Int × Int) × Nat) k =>
      let first_mbr := mbrOf1 (sorted.take k)
      let second_mbr := mbrOf1 (sorted.drop k)
      let overlap_value := (first_mbr.intersect second_mbr).area
      let area_value := first_mbr.area + second_mbr.area
      let new_best := (overlap_value, area_value)
      if lexLt2 new_best st.1 || decide (k = opts.min_size) then (new_best, k) else st)
    ((0, 0), opts.min_size) with hbest
  have hk : best.2 = opts.min_size ∨ best.2 ∈ splitKs opts.min_size sorted.length := by
    rw [hbest]
    exact foldl_second_mem _ (fun st k => by dsimp only; split <;> simp) _ _
  refine ⟨sorted, best.2, hperm, ?_, ?_, rfl, rfl⟩
  · rcases hk with h | h
    · omega
    · exact le_trans hmin (splitKs_bounds h).1
  · rcases hk with h | h
    · omega
    · have := (splitKs_bounds h).2
      omega

theorem update_mbr_exact {dd : DirectoryNodeData}
    (h : RTreeNode.mbrExactBList dd.children = true) :
    RTreeNode.mbrExactB (update_mbr dd).asNode = true := by
  rw [asNode]
  rw [RTreeNode.mbrExactB_dir_iff]
  exact ⟨rfl, (RTreeNode.mbrExactBList_iff _).mp h⟩

theorem reinsert_shape (opts : RTreeOptions) (dd : DirectoryNodeData) :
    ∃ (sorted : List RTreeNode), sorted.Perm dd.children ∧
      (reinsert opts dd).1 =
        update_mbr { dd with children := sorted.take (sorted.length - opts.reinsertion_count) } ∧
      (reinsert opts dd).2 = sorted.drop (sorted.length - opts.reinsertion_count) :=
  ⟨_, sortByKey_perm _ _, rfl, rfl⟩

theorem mbrOfChildren_of_ne_nil {cs : List RTreeNode} (h : cs ≠ []) :
    ∃ u, mbrOfChildren cs = some u := by
  cases cs with
  | nil => exact absurd rfl h
  | cons c rest => exact ⟨_, rfl⟩

/-- Exactness, nonemptiness and object bookkeeping of resolve_overflow,
plus the bounding box identities its caller needs. -/
theorem resolve_overflow_exact (opts : RTreeOptions) (dd : DirectoryNodeData)
    (st : InsertionState)
    (hmin : 1 ≤ opts.min_size) (hminmax : opts.min_size ≤ opts.max_size)
    (hrc : opts.reinsertion_count ≤ opts.max_size)
    (hex : RTreeNode.mbrExactB dd.asNode = true)
    (hne : dd.children ≠ [])
    (hnel : RTreeNode.nonemptyDirsBList dd.children = true) :
    ((resolve_overflow opts dd st).2.1.oob = false →
      (resolve_overflow opts dd st).2.2 ≠ InsertionResult.Abort) ∧
    RTreeNode.mbrExactB (resolve_overflow opts dd st).1.asNode = true ∧
    (resolve_overflow opts dd st).1.children ≠ [] ∧
    RTreeNode.nonemptyDirsBList (resolve_overflow opts dd st).1.children = true ∧
    RTreeNode.mbrExactBList (resultNodes (resolve_overflow opts dd st).2.2) = true ∧
    RTreeNode.nonemptyDirsBList (resultNodes (resolve_overflow opts dd st).2.2) = true ∧
    (RTreeNode.objsList (resolve_overflow opts dd st).1.children ++
      RTreeNode.objsList (resultNodes (resolve_overflow opts dd st).2.2)).Perm
      (RTreeNode.objsList dd.children) ∧
    ((resolve_overflow opts dd st).2.2 = InsertionResult.Complete →
      (resolve_overflow opts dd st).1.bounding_box = dd.bounding_box) ∧
    (∀ c, (resolve_overflow opts dd st).2.2 = InsertionResult.Split c →
      unionOpt (resolve_overflow opts dd st).1.bounding_box (some (RTreeNode.mbr c))
        = dd.bounding_box) := by
  have hexd := hex
  rw [asNode, RTreeNode.mbrExactB_dir_iff] at hexd
  obtain ⟨hbb, hexm⟩ := hexd
  have hnem := (RTreeNode.nonemptyDirsBList_iff _).mp hnel
  unfold resolve_overflow
  split
  case isTrue hover =>
    rcases hidx : st.reinsertions[dd.depth]? with _ | flag
    · refine ⟨fun h => absurd h (by simp), hex, hne, hnel,
        by simp [resultNodes, RTreeNode.mbrExactBList],
        by simp [resultNodes, RTreeNode.nonemptyDirsBList],
        by simp [resultNodes, RTreeNode.objsList], by simp, by simp⟩
    · rcases flag with _ | _
      · -- reinsert branch
        obtain ⟨sorted, hperm, h1, h2⟩ := reinsert_shape opts dd
        simp only [Bool.false_eq_true, if_false, h1, h2]
        have hslen : sorted.length = dd.children.length := hperm.length_eq
        have hm1 : 1 ≤ sorted.length - opts.reinsertion_count := by omega
        have htknn : sorted.take (sorted.length - opts.reinsertion_count) ≠ [] := by
          apply List.ne_nil_of_length_pos
          rw [List.length_take]
          omega
        have hmemt : ∀ c ∈ sorted.take (sorted.length - opts.reinsertion_count),
            c ∈ dd.children := fun c hc => hperm.mem_iff.mp (List.mem_of_mem_take hc)
        have hmemd : ∀ c ∈ sorted.drop (sorted.length - opts.reinsertion_count),
            c ∈ dd.children := fun c hc => hperm.mem_iff.mp (List.mem_of_mem_drop hc)
        refine ⟨by simp, ?_, htknn, ?_, ?_, ?_, ?_, by simp, by simp⟩
        · exact update_mbr_exact ((RTreeNode.mbrExactBList_iff _).mpr
            (fun c hc => hexm c (hmemt c hc)))
        · exact (RTreeNode.nonemptyDirsBList_iff _).mpr (fun c hc => hnem c (hmemt c hc))
        · rw [resultNodes]
          exact (RTreeNode.mbrExactBList_iff _).mpr (fun c hc => hexm c (hmemd c hc))
        · rw [resultNodes]
          exact (RTreeNode.nonemptyDirsBList_iff _).mpr (fun c hc => hnem c (hmemd c hc))
        · rw [resultNodes, update_mbr]
          rw [← RTreeNode.objsList_append, List.take_append_drop]
          exact RTreeNode.objsList_perm hperm
      · -- split branch
        have hlen : opts.min_size < dd.children.length := by omega
        obtain ⟨sorted, k, hperm, hk1, hk2, h1, h2⟩ := split_shape opts dd hmin hlen
        simp only [if_true, h1, h2]
        have htknn : sorted.take k ≠ [] := by
          apply List.ne_nil_of_length_pos
          rw [List.length_take]
          omega
        have hdrnn : sorted.drop k ≠ [] := by
          apply List.ne_nil_of_length_pos
          rw [List.length_drop]
          omega
        have hmemt : ∀ c ∈ sorted.take k, c ∈ dd.children :=
          fun c hc => hperm.mem_iff.mp (List.mem_of_mem_take hc)
        have hmemd : ∀ c ∈ sorted.drop k, c ∈ dd.children :=
          fun c hc => hperm.mem_iff.mp (List.mem_of_mem_drop hc)
        refine ⟨by simp, ?_, htknn, ?_, ?_, ?_, ?_, by simp, ?_⟩
        · exact update_mbr_exact ((RTreeNode.mbrExactBList_iff _).mpr
            (fun c hc => hexm c (hmemt c hc)))
        · exact (RTreeNode.nonemptyDirsBList_iff _).mpr (fun c hc => hnem c (hmemt c hc))
        · rw [resultNodes, new_parent, asNode]
          rw [RTreeNode.mbrExactBList_iff]
          intro c hc
          rw [List.mem_singleton] at hc
          subst hc
          rw [RTreeNode.mbrExactB_dir_iff]
          exact ⟨rfl, fun c hc => hexm c (hmemd c hc)⟩
        · rw [resultNodes, new_parent, asNode]
          rw [RTreeNode.nonemptyDirsBList_iff]
          intro c hc
          rw [List.mem_singleton] at hc
          subst hc
          rw [RTreeNode.nonemptyDirsB_dir_iff]
          exact ⟨hdrnn, fun c hc => hnem c (hmemd c hc)⟩
        · dsimp only [resultNodes, update_mbr, new_parent, asNode]
          rw [objsList_single, RTreeNode.objs]
          have h3 : sorted.take k ++ sorted.drop k = sorted := List.take_append_drop k sorted
          rw [← RTreeNode.objsList_append, h3]
          exact RTreeNode.objsList_perm hperm
        · intro c hc
          rw [InsertionResult.Split.injEq] at hc
          subst hc
          dsimp only [update_mbr, new_parent, asNode]
          obtain ⟨u1, hu1⟩ := mbrOfChildren_of_ne_nil htknn
          obtain ⟨u2, hu2⟩ := mbrOfChildren_of_ne_nil hdrnn
          have hmbr : RTreeNode.mbr (RTreeNode.DirectoryNode
              (mbrOfChildren (sorted.drop k)) (sorted.drop k) dd.depth) = u2 := by
            rw [RTreeNode.mbr, hu2]
            rfl
          rw [hmbr]
          simp only [hu1, unionOpt]
          have hu : mbrOfChildren dd.children = some (u1.add_rect u2) := by
            rw [← mbrOfChildren_perm hperm, ← List.take_append_drop k sorted,
              mbrOfChildren_append2, hu1, hu2]
            rfl
          rw [hbb, hu]
  case isFalse hover =>
    refine ⟨by simp, hex, hne, hnel, by simp [resultNodes, RTreeNode.mbrExactBList],
      by simp [resultNodes, RTreeNode.nonemptyDirsBList],
      by simp [resultNodes, RTreeNode.objsList], fun _ => rfl, by simp⟩

end DirectoryNodeData

/-! Master preservation lemma of one insertion: exactness, nonemptiness
and object bookkeeping, conditioned on the run not panicking. -/

theorem unionOpt_absorb (x : Option Rect) (c : Rect) :
    unionOpt (unionOpt x (some c)) (some c) = unionOpt x (some c) := by
  cases x <;> simp [unionOpt, Rect.add_rect_assoc, Rect.add_rect_idem]

theorem unionOpt_some_right (x : Option Rect) (c : Rect) :
    ∃ v, unionOpt x (some c) = some v := by
  cases x <;> exact ⟨_, rfl⟩

namespace DirectoryNodeData

theorem mbrOfChildren_cons (c : RTreeNode) (l : List RTreeNode) :
    mbrOfChildren (c :: l) = unionOpt (some c.mbr) (mbrOfChildren l) := by
  have h : c :: l = [c] ++ l := rfl
  rw [h, mbrOfChildren_append2]
  rfl

theorem add_children_eq (dd : DirectoryNodeData) (new : List RTreeNode) :
    add_children dd new = { dd with
      bounding_box := unionOpt dd.bounding_box (mbrOfChildren new),
      children := dd.children ++ new } := by
  rw [add_children]
  rcases hbb : dd.bounding_box with _ | bb0
  · rw [unionOpt]
  · cases new with
    | nil => simp [unionOpt, mbrOfChildren]
    | cons d ds =>
      simp only [List.foldl_cons, mbrOfChildren, unionOpt, DirectoryNodeData.mk.injEq]
      refine ⟨?_, trivial, trivial⟩
      rw [← foldl_mbr_hoist]

theorem update_mbr_with_element_eq (dd : DirectoryNodeData) (e : Rect) :
    update_mbr_with_element dd e
      = { dd with bounding_box := unionOpt dd.bounding_box (some e) } := by
  rw [update_mbr_with_element]
  rcases hbb : dd.bounding_box with _ | bb0 <;> simp [unionOpt]

theorem exact_dir_mbr {bb : Option Rect} {cs : List RTreeNode} {d : Nat}
    (hex : RTreeNode.mbrExactB (RTreeNode.DirectoryNode bb cs d) = true)
    (hne : cs ≠ []) :
    ∃ u, bb = some u ∧ RTreeNode.mbr (RTreeNode.DirectoryNode bb cs d) = u := by
  rw [RTreeNode.mbrExactB_dir_iff] at hex
  obtain ⟨u, hu⟩ := mbrOfChildren_of_ne_nil hne
  refine ⟨u, hex.1.trans hu, ?_⟩
  rw [RTreeNode.mbr, hex.1, hu]
  rfl

theorem insertDescend_nil_none (opts : RTreeOptions) (i : Nat) (t : RTreeNode)
    (st : InsertionState) : insertDescend opts [] i t st = none := by
  rw [insertDescend.eq_def]

/-- One overflow resolution step after hanging exactly one extra node
into an exact directory whose cached box already covers it. -/
theorem resolve_overflow_add_one (opts : RTreeOptions) (st : InsertionState)
    (dd0 : DirectoryNodeData) (x : RTreeNode)
    (hmin : 1 ≤ opts.min_size) (hminmax : opts.min_size ≤ opts.max_size)
    (hrc : opts.reinsertion_count ≤ opts.max_size)
    (hbox : unionOpt (mbrOfChildren dd0.children) (some (RTreeNode.mbr x))
      = dd0.bounding_box)
    (hexl : RTreeNode.mbrExactBList dd0.children = true)
    (hexx : RTreeNode.mbrExactB x = true)
    (hnel : RTreeNode.nonemptyDirsBList dd0.children = true)
    (hnex : RTreeNode.nonemptyDirsB x = true) :
    ((resolve_overflow opts (add_children dd0 [x]) st).2.1.oob = false →
      (resolve_overflow opts (add_children dd0 [x]) st).2.2 ≠ InsertionResult.Abort) ∧
    RTreeNode.mbrExactB (resolve_overflow opts (add_children dd0 [x]) st).1.asNode = true ∧
    (resolve_overflow opts (add_children dd0 [x]) st).1.children ≠ [] ∧
    RTreeNode.nonemptyDirsBList
      (resolve_overflow opts (add_children dd0 [x]) st).1.children = true ∧
    RTreeNode.mbrExactBList
      (resultNodes (resolve_overflow opts (add_children dd0 [x]) st).2.2) = true ∧
    RTreeNode.nonemptyDirsBList
      (resultNodes (resolve_overflow opts (add_children dd0 [x]) st).2.2) = true ∧
    (RTreeNode.objsList (resolve_overflow opts (add_children dd0 [x]) st).1.children ++
      RTreeNode.objsList
        (resultNodes (resolve_overflow opts (add_children dd0 [x]) st).2.2)).Perm
      (RTreeNode.objsList dd0.children ++ RTreeNode.objs x) ∧
    ((resolve_overflow opts (add_children dd0 [x]) st).2.2 = InsertionResult.Complete →
      (resolve_overflow opts (add_children dd0 [x]) st).1.bounding_box
        = dd0.bounding_box) ∧
    (∀ c, (resolve_overflow opts (add_children dd0 [x]) st).2.2 = InsertionResult.Split c →
      unionOpt (resolve_overflow opts (add_children dd0 [x]) st).1.bounding_box
        (some (RTreeNode.mbr c)) = dd0.bounding_box) := by
  have hone : mbrOfChildren [x] = some (RTreeNode.mbr x) := rfl
  have hadd := add_children_eq dd0 [x]
  have hbox3 : (add_children dd0 [x]).bounding_box = dd0.bounding_box := by
    rw [hadd]
    show unionOpt dd0.bounding_box (mbrOfChildren [x]) = dd0.bounding_box
    rw [hone, ← hbox, unionOpt_absorb]
  have hch3 : (add_children dd0 [x]).children = dd0.children ++ [x] := by
    rw [hadd]
  have hex3 : RTreeNode.mbrExactB (add_children dd0 [x]).asNode = true := by
    rw [asNode, RTreeNode.mbrExactB_dir_iff, hch3, hbox3]
    constructor
    · rw [mbrOfChildren_append2, hone, hbox]
    · intro c hc
      rcases List.mem_append.mp hc with h | h
      · exact (RTreeNode.mbrExactBList_iff _).mp hexl c h
      · rw [List.mem_singleton] at h
        subst h
        exact hexx
  have hne3 : (add_children dd0 [x]).children ≠ [] := by
    rw [hch3]
    simp
  have hnel3 : RTreeNode.nonemptyDirsBList (add_children dd0 [x]).children = true := by
    rw [hch3, RTreeNode.nonemptyDirsBList_iff]
    intro c hc
    rcases List.mem_append.mp hc with h | h
    · exact (RTreeNode.nonemptyDirsBList_iff _).mp hnel c h
    · rw [List.mem_singleton] at h
      subst h
      exact hnex
  obtain ⟨b1, b2, b3, b4, b5, b6, b7, b8, b9⟩ :=
    resolve_overflow_exact opts (add_children dd0 [x]) st hmin hminmax hrc hex3 hne3 hnel3
  refine ⟨b1, b2, b3, b4, b5, b6, ?_, ?_, ?_⟩
  · refine b7.trans ?_
    rw [hch3, RTreeNode.objsList_append, objsList_single]
  · intro h
    rw [b8 h, hbox3]
  · intro c hc
    rw [b9 c hc, hbox3]

theorem mbr_dir_some (u : Rect) (cs : List RTreeNode) (d : Nat) :
    RTreeNode.mbr (RTreeNode.DirectoryNode (some u) cs d) = u := rfl

theorem unionOpt_pull (u tm : Rect) (M : Option Rect) :
    unionOpt (some (u.add_rect tm)) M = unionOpt (unionOpt (some u) M) (some tm) := by
  cases M with
  | none => rfl
  | some m =>
    simp only [unionOpt, Option.some.injEq]
    rw [Rect.add_rect_assoc, Rect.add_rect_comm tm m, ← Rect.add_rect_assoc]

theorem unionOpt_exchange {w z u tm : Rect} (M : Option Rect)
    (h : w.add_rect z = u.add_rect tm) :
    unionOpt (unionOpt (some w) M) (some z) = unionOpt (unionOpt (some u) M) (some tm) := by
  cases M with
  | none => simp [unionOpt, h]
  | some m =>
    simp only [unionOpt, Option.some.injEq]
    rw [Rect.add_rect_right_comm w m z, Rect.add_rect_right_comm u m tm, h]

end DirectoryNodeData

theorem perm_shuffle {α : Type} {A B P R T : List α} (h : (A ++ P).Perm (B ++ T)) :
    ((A ++ R) ++ P).Perm ((B ++ R) ++ T) := by
  have p1 : ((A ++ R) ++ P).Perm (A ++ (P ++ R)) := by
    rw [List.append_assoc]
    exact List.Perm.append_left _ List.perm_append_comm
  have p2 : (A ++ (P ++ R)).Perm ((B ++ T) ++ R) := by
    rw [← List.append_assoc]
    exact h.append_right _
  have p3 : ((B ++ T) ++ R).Perm ((B ++ R) ++ T) := by
    rw [List.append_assoc, List.append_assoc]
    exact List.Perm.append_left _ List.perm_append_comm
  exact (p1.trans p2).trans p3

theorem perm_shuffle_left {α : Type} {A B P T C : List α} (h : (A ++ P).Perm (B ++ T)) :
    ((C ++ A) ++ P).Perm ((C ++ B) ++ T) := by
  rw [List.append_assoc, List.append_assoc]
  exact List.Perm.append_left _ h

theorem perm_rot {α : Type} {R A B T : List α} (h : A.Perm (B ++ T)) :
    (R ++ A).Perm ((T ++ R) ++ B) := by
  refine (List.Perm.append_left R h).trans ?_
  have p1 : (R ++ (B ++ T)).Perm ((B ++ T) ++ R) := List.perm_append_comm
  have p2 : ((B ++ T) ++ R).Perm ((T ++ R) ++ B) := by
    rw [List.append_assoc]
    exact List.perm_append_comm
  exact p1.trans p2

namespace DirectoryNodeData

/-- Master preservation of insertNode and insertDescend: provided the
call did not panic, the result is not an Abort, the updated node and all
detached nodes stay exact and nonempty below, the multiset of stored
objects grows by exactly the inserted subtree, and the bounding boxes
satisfy the identities the caller needs. -/
theorem insertNode_exact_and (opts : RTreeOptions)
    (hmin : 1 ≤ opts.min_size) (hminmax : opts.min_size ≤ opts.max_size)
    (hrc : opts.reinsertion_count ≤ opts.max_size) :
    (∀ (node t : RTreeNode) (st : InsertionState),
      ∀ bb cs d, node = RTreeNode.DirectoryNode bb cs d →
      RTreeNode.mbrExactB node = true →
      RTreeNode.nonemptyDirsBList cs = true →
      RTreeNode.mbrExactB t = true →
      RTreeNode.nonemptyDirsB t = true →
      (insertNode opts node t st).2.1.oob = false →
      (insertNode opts node t st).2.1.badDescent = false →
      ((insertNode opts node t st).2.2 ≠ InsertionResult.Abort ∧
       RTreeNode.mbrExactB (insertNode opts node t st).1.asNode = true ∧
       (insertNode opts node t st).1.children ≠ [] ∧
       RTreeNode.nonemptyDirsBList (insertNode opts node t st).1.children = true ∧
       RTreeNode.mbrExactBList (resultNodes (insertNode opts node t st).2.2) = true ∧
       RTreeNode.nonemptyDirsBList (resultNodes (insertNode opts node t st).2.2) = true ∧
       (RTreeNode.objsList (insertNode opts node t st).1.children ++
         RTreeNode.objsList (resultNodes (insertNode opts node t st).2.2)).Perm
         (RTreeNode.objsList cs ++ RTreeNode.objs t) ∧
       ((insertNode opts node t st).2.2 = InsertionResult.Complete →
         (insertNode opts node t st).1.bounding_box = unionOpt bb (some (RTreeNode.mbr t))) ∧
       (∀ c, (insertNode opts node t st).2.2 = InsertionResult.Split c →
         unionOpt (insertNode opts node t st).1.bounding_box (some (RTreeNode.mbr c))
           = unionOpt bb (some (RTreeNode.mbr t))))) ∧
    (∀ (cs : List RTreeNode) (i : Nat) (t : RTreeNode) (st : InsertionState),
      ∀ r, insertDescend opts cs i t st = some r →
      RTreeNode.mbrExactBList cs = true →
      RTreeNode.nonemptyDirsBList cs = true →
      RTreeNode.mbrExactB t = true →
      RTreeNode.nonemptyDirsB t = true →
      r.2.1.oob = false →
      r.2.1.badDescent = false →
      (r.2.2 ≠ InsertionResult.Abort ∧
       RTreeNode.mbrExactBList r.1 = true ∧
       r.1.length = cs.length ∧
       RTreeNode.nonemptyDirsBList r.1 = true ∧
       RTreeNode.mbrExactBList (resultNodes r.2.2) = true ∧
       RTreeNode.nonemptyDirsBList (resultNodes r.2.2) = true ∧
       (RTreeNode.objsList r.1 ++ RTreeNode.objsList (resultNodes r.2.2)).Perm
         (RTreeNode.objsList cs ++ RTreeNode.objs t) ∧
       (r.2.2 = InsertionResult.Complete →
         mbrOfChildren r.1 = unionOpt (mbrOfChildren cs) (some (RTreeNode.mbr t))) ∧
       (∀ c, r.2.2 = InsertionResult.Split c →
         unionOpt (mbrOfChildren r.1) (some (RTreeNode.mbr c))
           = unionOpt (mbrOfChildren cs) (some (RTreeNode.mbr t))))) := by
  apply DirectoryNodeData.insertNode.mutual_induct opts
    (motive_1 := fun node t st =>
      ∀ bb cs d, node = RTreeNode.DirectoryNode bb cs d →
      RTreeNode.mbrExactB node = true →
      RTreeNode.nonemptyDirsBList cs = true →
      RTreeNode.mbrExactB t = true →
      RTreeNode.nonemptyDirsB t = true →
      (insertNode opts node t st).2.1.oob = false →
      (insertNode opts node t st).2.1.badDescent = false →
      ((insertNode opts node t st).2.2 ≠ InsertionResult.Abort ∧
       RTreeNode.mbrExactB (insertNode opts node t st).1.asNode = true ∧
       (insertNode opts node t st).1.children ≠ [] ∧
       RTreeNode.nonemptyDirsBList (insertNode opts node t st).1.children = true ∧
       RTreeNode.mbrExactBList (resultNodes (insertNode opts node t st).2.2) = true ∧
       RTreeNode.nonemptyDirsBList (resultNodes (insertNode opts node t st).2.2) = true ∧
       (RTreeNode.objsList (insertNode opts node t st).1.children ++
         RTreeNode.objsList (resultNodes (insertNode opts node t st).2.2)).Perm
         (RTreeNode.objsList cs ++ RTreeNode.objs t) ∧
       ((insertNode opts node t st).2.2 = InsertionResult.Complete →
         (insertNode opts node t st).1.bounding_box = unionOpt bb (some (RTreeNode.mbr t))) ∧
       (∀ c, (insertNode opts node t st).2.2 = InsertionResult.Split c →
         unionOpt (insertNode opts node t st).1.bounding_box (some (RTreeNode.mbr c))
           = unionOpt bb (some (RTreeNode.mbr t)))))
    (motive_2 := fun cs i t st =>
      ∀ r, insertDescend opts cs i t st = some r →
      RTreeNode.mbrExactBList cs = true →
      RTreeNode.nonemptyDirsBList cs = true →
      RTreeNode.mbrExactB t = true →
      RTreeNode.nonemptyDirsB t = true →
      r.2.1.oob = false →
      r.2.1.badDescent = false →
      (r.2.2 ≠ InsertionResult.Abort ∧
       RTreeNode.mbrExactBList r.1 = true ∧
       r.1.length = cs.length ∧
       RTreeNode.nonemptyDirsBList r.1 = true ∧
       RTreeNode.mbrExactBList (resultNodes r.2.2) = true ∧
       RTreeNode.nonemptyDirsBList (resultNodes r.2.2) = true ∧
       (RTreeNode.objsList r.1 ++ RTreeNode.objsList (resultNodes r.2.2)).Perm
         (RTreeNode.objsList cs ++ RTreeNode.objs t) ∧
       (r.2.2 = InsertionResult.Complete →
         mbrOfChildren r.1 = unionOpt (mbrOfChildren cs) (some (RTreeNode.mbr t))) ∧
       (∀ c, r.2.2 = InsertionResult.Split c →
         unionOpt (mbrOfChildren r.1) (some (RTreeNode.mbr c))
           = unionOpt (mbrOfChildren cs) (some (RTreeNode.mbr t)))))
  case _ =>
    intro t st a bb cs d hnode
    exact absurd hnode (by simp)
  case _ =>
    intro t st bb cs bb2 cs2 d2 hnode hex hnel hext hnet hoob hbad
    injection hnode with h1 h2 h3
    subst h1
    subst h2
    subst h3
    rw [insertNode] at hoob hbad ⊢
    rw [if_pos rfl] at hoob hbad ⊢
    have hexd := hex
    rw [RTreeNode.mbrExactB_dir_iff] at hexd
    have hch : (update_mbr_with_element ⟨bb, cs, t.depth + 1⟩ t.mbr).children = cs := by
      rw [update_mbr_with_element_eq]
    have hbbx : (update_mbr_with_element ⟨bb, cs, t.depth + 1⟩ t.mbr).bounding_box
        = unionOpt bb (some t.mbr) := by
      rw [update_mbr_with_element_eq]
    obtain ⟨b1, b2, b3, b4, b5, b6, b7, b8, b9⟩ :=
      resolve_overflow_add_one opts st (update_mbr_with_element ⟨bb, cs, t.depth + 1⟩ t.mbr) t
        hmin hminmax hrc
        (by rw [hch, hbbx, hexd.1])
        (by rw [hch]; exact (RTreeNode.mbrExactBList_iff _).mpr hexd.2)
        hext
        (by rw [hch]; exact hnel)
        hnet
    refine ⟨b1 hoob, b2, b3, b4, b5, b6, ?_, ?_, ?_⟩
    · refine b7.trans ?_
      rw [hch]
    · intro h
      rw [b8 h, hbbx]
    · intro c hc
      rw [b9 c hc, hbbx]
  case _ =>
    intro t st bb cs d hdep r hdes child harm ih bb2 cs2 d2 hnode hex hnel hext hnet hoob hbad
    injection hnode with h1 h2 h3
    subst h1
    subst h2
    subst h3
    rw [insertNode] at hoob hbad ⊢
    simp only [if_neg hdep, hdes, harm] at hoob hbad ⊢
    have hexd := hex
    rw [RTreeNode.mbrExactB_dir_iff] at hexd
    obtain ⟨hfb, hfo2, _⟩ := resolve_overflow_flags opts
      ({ update_mbr_with_element ⟨bb, cs, d⟩ t.mbr with children := r.1 }.add_children [child])
      r.2.1
    have hro : r.2.1.oob = false := hfo2 hoob
    have hrb : r.2.1.badDescent = false := by rw [hfb] at hbad; exact hbad
    obtain ⟨c1, c2, c3, c4, c5, c6, c7, c8, c9⟩ := ih r hdes
      ((RTreeNode.mbrExactBList_iff _).mpr hexd.2) hnel hext hnet hro hrb
    rw [harm] at c5 c6 c7
    rw [resultNodes] at c5 c6 c7
    have hexch : RTreeNode.mbrExactB child = true :=
      (RTreeNode.mbrExactBList_iff _).mp c5 child (List.mem_singleton_self _)
    have hnech : RTreeNode.nonemptyDirsB child = true :=
      (RTreeNode.nonemptyDirsBList_iff _).mp c6 child (List.mem_singleton_self _)
    have hc9 := c9 child harm
    have hch : ({ update_mbr_with_element ⟨bb, cs, d⟩ t.mbr with
        children := r.1 } : DirectoryNodeData).children = r.1 := rfl
    have hbbx : ({ update_mbr_with_element ⟨bb, cs, d⟩ t.mbr with
        children := r.1 } : DirectoryNodeData).bounding_box
        = unionOpt bb (some t.mbr) := by
      show (update_mbr_with_element ⟨bb, cs, d⟩ t.mbr).bounding_box = unionOpt bb (some t.mbr)
      rw [update_mbr_with_element_eq]
    obtain ⟨b1, b2, b3, b4, b5, b6, b7, b8, b9⟩ :=
      resolve_overflow_add_one opts r.2.1
        { update_mbr_with_element ⟨bb, cs, d⟩ t.mbr with children := r.1 } child
        hmin hminmax hrc
        (by rw [hch, hbbx, hc9, hexd.1])
        (by rw [hch]; exact c2)
        hexch
        (by rw [hch]; exact c4)
        hnech
    refine ⟨b1 hoob, b2, b3, b4, b5, b6, ?_, ?_, ?_⟩
    · refine b7.trans ?_
      rw [hch]
      rw [← objsList_single child]
      exact c7
    · intro h
      rw [b8 h, hbbx]
    · intro c hc
      rw [b9 c hc, hbbx]
  case _ =>
    intro t st bb cs d hdep r hdes ns harm ih bb2 cs2 d2 hnode hex hnel hext hnet hoob hbad
    injection hnode with h1 h2 h3
    subst h1
    subst h2
    subst h3
    rw [insertNode] at hoob hbad ⊢
    simp only [if_neg hdep, hdes, harm] at hoob hbad ⊢
    have hexd := hex
    rw [RTreeNode.mbrExactB_dir_iff] at hexd
    obtain ⟨c1, c2, c3, c4, c5, c6, c7, c8, c9⟩ := ih r hdes
      ((RTreeNode.mbrExactBList_iff _).mpr hexd.2) hnel hext hnet hoob hbad
    rw [harm] at c5 c6 c7
    rw [resultNodes] at c5 c6 c7
    have hcs : cs ≠ [] := by
      intro h
      subst h
      rw [insertDescend_nil_none] at hdes
      cases hdes
    have hr1 : r.1 ≠ [] := by
      apply List.ne_nil_of_length_pos
      rw [c3]
      exact List.length_pos_of_ne_nil hcs
    refine ⟨by simp, ?_, hr1, c4, ?_, ?_, ?_, by simp, by simp⟩
    · exact update_mbr_exact c2
    · rw [resultNodes]
      exact c5
    · rw [resultNodes]
      exact c6
    · rw [resultNodes]
      exact c7
  case _ =>
    intro t st bb cs d hdep r hdes harm ih bb2 cs2 d2 hnode hex hnel hext hnet hoob hbad
    injection hnode with h1 h2 h3
    subst h1
    subst h2
    subst h3
    rw [insertNode] at hoob hbad ⊢
    simp only [if_neg hdep, hdes, harm] at hoob hbad ⊢
    have hexd := hex
    rw [RTreeNode.mbrExactB_dir_iff] at hexd
    obtain ⟨c1, c2, c3, c4, c5, c6, c7, c8, c9⟩ := ih r hdes
      ((RTreeNode.mbrExactBList_iff _).mpr hexd.2) hnel hext hnet hoob hbad
    rw [harm] at c5 c6 c7
    rw [resultNodes] at c5 c6 c7
    have hcs : cs ≠ [] := by
      intro h
      subst h
      rw [insertDescend_nil_none] at hdes
      cases hdes
    have hr1 : r.1 ≠ [] := by
      apply List.ne_nil_of_length_pos
      rw [c3]
      exact List.length_pos_of_ne_nil hcs
    have hc8 := c8 harm
    have hbbx : ({ update_mbr_with_element ⟨bb, cs, d⟩ t.mbr with
        children := r.1 } : DirectoryNodeData).bounding_box
        = unionOpt bb (some t.mbr) := by
      show (update_mbr_with_element ⟨bb, cs, d⟩ t.mbr).bounding_box = unionOpt bb (some t.mbr)
      rw [update_mbr_with_element_eq]
    refine ⟨by simp, ?_, hr1, c4, ?_, ?_, ?_, ?_, by simp⟩
    · rw [asNode, RTreeNode.mbrExactB_dir_iff]
      constructor
      · show ({ update_mbr_with_element ⟨bb, cs, d⟩ t.mbr with
          children := r.1 } : DirectoryNodeData).bounding_box = mbrOfChildren r.1
        rw [hbbx, hc8, hexd.1]
      · exact (RTreeNode.mbrExactBList_iff _).mp c2
    · rw [resultNodes]
      exact c5
    · rw [resultNodes]
      exact c6
    · rw [resultNodes]
      exact c7
    · intro h
      rw [hbbx]
  case _ =>
    intro t st bb cs d hdep r hdes harm ih bb2 cs2 d2 hnode hex hnel hext hnet hoob hbad
    injection hnode with h1 h2 h3
    subst h1
    subst h2
    subst h3
    rw [insertNode] at hoob hbad
    simp only [if_neg hdep, hdes, harm] at hoob hbad
    have hexd := hex
    rw [RTreeNode.mbrExactB_dir_iff] at hexd
    obtain ⟨c1, c2, c3, c4, c5, c6, c7, c8, c9⟩ := ih r hdes
      ((RTreeNode.mbrExactBList_iff _).mpr hexd.2) hnel hext hnet hoob hbad
    exact absurd harm c1
  case _ =>
    intro t st bb cs d hdep hdes ih bb2 cs2 d2 hnode hex hnel hext hnet hoob hbad
    injection hnode with h1 h2 h3
    subst h1
    subst h2
    subst h3
    rw [insertNode] at hbad
    simp only [if_neg hdep, hdes] at hbad
    simp at hbad
  case _ =>
    intro i t st r hr
    simp only [insertDescend] at hr
    cases hr
  case _ =>
    intro t st rest bb cs d ih r hr hexl hnell hext hnet hoob hbad
    simp only [insertDescend, Option.some.injEq] at hr
    subst hr
    rw [RTreeNode.mbrExactBList] at hexl
    rw [Bool.and_eq_true] at hexl
    rw [RTreeNode.nonemptyDirsBList] at hnell
    rw [Bool.and_eq_true] at hnell
    have hnedir := hnell.1
    rw [RTreeNode.nonemptyDirsB_dir_iff] at hnedir
    obtain ⟨m1, m2, m3, m4, m5, m6, m7, m8, m9⟩ := ih bb cs d rfl hexl.1
      ((RTreeNode.nonemptyDirsBList_iff _).mpr hnedir.2) hext hnet hoob hbad
    have hxobjs : RTreeNode.objs (insertNode opts (RTreeNode.DirectoryNode bb cs d) t st).1.asNode
        = RTreeNode.objsList (insertNode opts (RTreeNode.DirectoryNode bb cs d) t st).1.children := by
      rw [asNode, RTreeNode.objs]
    refine ⟨m1, ?_, by simp, ?_, m5, m6, ?_, ?_, ?_⟩
    · rw [RTreeNode.mbrExactBList, Bool.and_eq_true]
      exact ⟨m2, hexl.2⟩
    · rw [RTreeNode.nonemptyDirsBList, Bool.and_eq_true]
      refine ⟨?_, hnell.2⟩
      rw [asNode, RTreeNode.nonemptyDirsB_dir_iff]
      exact ⟨m3, (RTreeNode.nonemptyDirsBList_iff _).mp m4⟩
    · rw [RTreeNode.objsList, hxobjs, RTreeNode.objsList, RTreeNode.objs]
      exact perm_shuffle m7
    · intro h
      obtain ⟨u, hu, hmu⟩ := exact_dir_mbr hexl.1 hnedir.1
      have m8h : (insertNode opts (RTreeNode.DirectoryNode bb cs d) t st).1.bounding_box
          = unionOpt (some u) (some t.mbr) := (m8 h).trans (by rw [hu])
      have hxm : RTreeNode.mbr (insertNode opts (RTreeNode.DirectoryNode bb cs d) t st).1.asNode
          = u.add_rect t.mbr := by
        rw [asNode, m8h]
        rfl
      rw [mbrOfChildren_cons, mbrOfChildren_cons, hxm, hmu]
      exact unionOpt_pull u t.mbr _
    · intro c2 hc
      obtain ⟨u, hu, hmu⟩ := exact_dir_mbr hexl.1 hnedir.1
      have m9h : unionOpt (insertNode opts (RTreeNode.DirectoryNode bb cs d) t st).1.bounding_box
          (some c2.mbr) = unionOpt (some u) (some t.mbr) := (m9 c2 hc).trans (by rw [hu])
      obtain ⟨w, hw⟩ := mbrOfChildren_of_ne_nil m3
      have hbw : (insertNode opts (RTreeNode.DirectoryNode bb cs d) t st).1.bounding_box
          = some w := by
        have h2 := m2
        rw [asNode, RTreeNode.mbrExactB_dir_iff] at h2
        rw [h2.1, hw]
      have hxw : RTreeNode.mbr
          (insertNode opts (RTreeNode.DirectoryNode bb cs d) t st).1.asNode = w := by
        rw [asNode, hbw, mbr_dir_some]
      rw [hbw] at m9h
      have hwz : w.add_rect c2.mbr = u.add_rect t.mbr := by
        have h3 : unionOpt (some w) (some c2.mbr) = unionOpt (some u) (some t.mbr) := m9h
        simpa [unionOpt] using h3
      rw [mbrOfChildren_cons, mbrOfChildren_cons, hxw, hmu]
      exact unionOpt_exchange _ hwz
  case _ =>
    intro t st rest p r hr
    simp only [insertDescend] at hr
    cases hr
  case _ =>
    intro t st c rest i r0 hsome ih r hr hexl hnell hext hnet hoob hbad
    simp only [insertDescend, hsome, Option.some.injEq] at hr
    subst hr
    rw [RTreeNode.mbrExactBList] at hexl
    rw [Bool.and_eq_true] at hexl
    rw [RTreeNode.nonemptyDirsBList] at hnell
    rw [Bool.and_eq_true] at hnell
    obtain ⟨m1, m2, m3, m4, m5, m6, m7, m8, m9⟩ := ih r0 hsome hexl.2 hnell.2 hext hnet hoob hbad
    refine ⟨m1, ?_, by simp [m3], ?_, m5, m6, ?_, ?_, ?_⟩
    · rw [RTreeNode.mbrExactBList, Bool.and_eq_true]
      exact ⟨hexl.1, m2⟩
    · rw [RTreeNode.nonemptyDirsBList, Bool.and_eq_true]
      exact ⟨hnell.1, m4⟩
    · rw [RTreeNode.objsList, RTreeNode.objsList]
      have hsplit : RTreeNode.objs c ++ RTreeNode.objsList r0.1
          = ([] ++ RTreeNode.objs c) ++ RTreeNode.objsList r0.1 := by simp
      rw [List.append_assoc, List.append_assoc]
      exact List.Perm.append_left _ m7
    · intro h
      rw [mbrOfChildren_cons, mbrOfChildren_cons, m8 h, ← unionOpt_assoc]
    · intro c2 hc
      rw [mbrOfChildren_cons, mbrOfChildren_cons, unionOpt_assoc, unionOpt_assoc]
      rw [← m9 c2 hc]
  case _ =>
    intro t st c rest i hnone ih r hr
    rw [insertDescend.eq_def] at hr
    simp only [hnone] at hr
    cases hr

/-- The master lemma at the insert entry point. -/
theorem insert_exact (opts : RTreeOptions)
    (hmin : 1 ≤ opts.min_size) (hminmax : opts.min_size ≤ opts.max_size)
    (hrc : opts.reinsertion_count ≤ opts.max_size)
    (bb : Option Rect) (cs : List RTreeNode) (d : Nat) (t : RTreeNode) (st : InsertionState)
    (hex : RTreeNode.mbrExactB (RTreeNode.DirectoryNode bb cs d) = true)
    (hnel : RTreeNode.nonemptyDirsBList cs = true)
    (hext : RTreeNode.mbrExactB t = true)
    (hnet : RTreeNode.nonemptyDirsB t = true)
    (hoob : (insert opts bb cs d t st).2.1.oob = false)
    (hbad : (insert opts bb cs d t st).2.1.badDescent = false) :
    (insert opts bb cs d t st).2.2 ≠ InsertionResult.Abort ∧
    RTreeNode.mbrExactB (insert opts bb cs d t st).1.asNode = true ∧
    (insert opts bb cs d t st).1.children ≠ [] ∧
    RTreeNode.nonemptyDirsBList (insert opts bb cs d t st).1.children = true ∧
    RTreeNode.mbrExactBList (resultNodes (insert opts bb cs d t st).2.2) = true ∧
    RTreeNode.nonemptyDirsBList (resultNodes (insert opts bb cs d t st).2.2) = true ∧
    (RTreeNode.objsList (insert opts bb cs d t st).1.children ++
      RTreeNode.objsList (resultNodes (insert opts bb cs d t st).2.2)).Perm
      (RTreeNode.objsList cs ++ RTreeNode.objs t) ∧
    ((insert opts bb cs d t st).2.2 = InsertionResult.Complete →
      (insert opts bb cs d t st).1.bounding_box = unionOpt bb (some (RTreeNode.mbr t))) ∧
    (∀ c, (insert opts bb cs d t st).2.2 = InsertionResult.Split c →
      unionOpt (insert opts bb cs d t st).1.bounding_box (some (RTreeNode.mbr c))
        = unionOpt bb (some (RTreeNode.mbr t))) :=
  (insertNode_exact_and opts hmin hminmax hrc).1 (RTreeNode.DirectoryNode bb cs d) t st
    bb cs d rfl hex hnel hext hnet hoob hbad

end DirectoryNodeData

/-! Driver loop preservation. -/

theorem insertLoopF_flags (opts : RTreeOptions) :
    ∀ (fuel : Nat) (root : DirectoryNodeData) (stack : List RTreeNode) (st : InsertionState),
    ((insertLoopF opts fuel root stack st).2.oob = false → st.oob = false) ∧
    ((insertLoopF opts fuel root stack st).2.badDescent = false → st.badDescent = false) := by
  intro fuel
  induction fuel with
  | zero =>
    intro root stack st
    match stack with
    | [] => exact ⟨fun h => h, fun h => h⟩
    | nxt :: rest => exact ⟨fun h => h, fun h => h⟩
  | succ fuel ih =>
    intro root stack st
    match stack with
    | [] => exact ⟨fun h => h, fun h => h⟩
    | nxt :: rest =>
      rcases hres : DirectoryNodeData.insert opts root.bounding_box root.children
        root.depth nxt st with ⟨root2, st2, result⟩
      have hf := DirectoryNodeData.insert_flags opts root.bounding_box root.children
        root.depth nxt st
      rw [hres] at hf
      simp only at hf
      rcases result with _ | node | ns | _ <;> simp only [insertLoopF, hres]
      · exact ⟨fun h => hf.1 ((ih _ _ _).1 h), fun h => hf.2.1 ((ih _ _ _).2 h)⟩
      · exact ⟨fun h => hf.1 ((ih _ _ _).1 h), fun h => hf.2.1 ((ih _ _ _).2 h)⟩
      · exact ⟨fun h => hf.1 ((ih _ _ _).1 h), fun h => hf.2.1 ((ih _ _ _).2 h)⟩
      · exact ⟨fun h => hf.1 h, fun h => hf.2.1 h⟩

/-- Exactness, nonemptiness and object bookkeeping through the whole
driver loop, given enough fuel and a panic free final state. -/
theorem insertLoopF_exact (opts : RTreeOptions)
    (hmin : 1 ≤ opts.min_size) (hminmax : opts.min_size ≤ opts.max_size)
    (hrc : opts.reinsertion_count ≤ opts.max_size) :
    ∀ (fuel : Nat) (root : DirectoryNodeData) (stack : List RTreeNode) (st : InsertionState),
    stack.length + opts.reinsertion_count * countFalse st.reinsertions ≤ fuel →
    RTreeNode.mbrExactB root.asNode = true →
    RTreeNode.nonemptyDirsBList root.children = true →
    RTreeNode.mbrExactBList stack = true →
    RTreeNode.nonemptyDirsBList stack = true →
    (insertLoopF opts fuel root stack st).2.oob = false →
    (insertLoopF opts fuel root stack st).2.badDescent = false →
    RTreeNode.mbrExactB (insertLoopF opts fuel root stack st).1.asNode = true ∧
    RTreeNode.nonemptyDirsBList (insertLoopF opts fuel root stack st).1.children = true ∧
    (RTreeNode.objsList (insertLoopF opts fuel root stack st).1.children).Perm
      (RTreeNode.objsList stack ++ RTreeNode.objsList root.children) := by
  intro fuel
  induction fuel with
  | zero =>
    intro root stack st hb hexr hner hexs hnes hoob hbad
    match stack with
    | [] =>
      simp only [insertLoopF]
      refine ⟨hexr, hner, ?_⟩
      rw [RTreeNode.objsList]
      simp
    | nxt :: rest => simp at hb
  | succ fuel ih =>
    intro root stack st hb hexr hner hexs hnes hoob hbad
    match stack, hexs, hnes with
    | [], _, _ =>
      simp only [insertLoopF]
      refine ⟨hexr, hner, ?_⟩
      rw [RTreeNode.objsList]
      simp
    | nxt :: rest, hexs, hnes =>
      rw [RTreeNode.mbrExactBList, Bool.and_eq_true] at hexs
      rw [RTreeNode.nonemptyDirsBList, Bool.and_eq_true] at hnes
      rcases hres : DirectoryNodeData.insert opts root.bounding_box root.children
        root.depth nxt st with ⟨root2, st2, result⟩
      obtain ⟨hlen, hle, hstr⟩ := DirectoryNodeData.insert_state opts root.bounding_box
        root.children root.depth nxt st
      rw [hres] at hlen hle hstr
      simp only at hlen hle hstr
      have hml := Nat.mul_le_mul_left opts.reinsertion_count hle
      simp only [List.length_cons] at hb
      have hfl := DirectoryNodeData.insert_flags opts root.bounding_box root.children
        root.depth nxt st
      rw [hres] at hfl
      simp only at hfl
      rcases result with _ | node | ns | _
      · -- Complete
        simp only [insertLoopF, hres] at hoob hbad ⊢
        have hstep2o := (insertLoopF_flags opts fuel root2 rest st2).1 hoob
        have hstep2b := (insertLoopF_flags opts fuel root2 rest st2).2 hbad
        obtain ⟨e1, e2, e3, e4, e5, e6, e7, e8, e9⟩ :=
          DirectoryNodeData.insert_exact opts hmin hminmax hrc root.bounding_box
            root.children root.depth nxt st hexr hner hexs.1 hnes.1
            (by rw [hres]; exact hstep2o) (by rw [hres]; exact hstep2b)
        rw [hres] at e2 e4 e7
        simp only at e2 e4 e7
        obtain ⟨f1, f2, f3⟩ := ih root2 rest st2 (by omega) e2 e4 hexs.2 hnes.2 hoob hbad
        refine ⟨f1, f2, ?_⟩
        refine f3.trans ?_
        rw [resultNodes] at e7
        rw [RTreeNode.objsList]
        have e7b : (RTreeNode.objsList root2.children).Perm
            (RTreeNode.objsList root.children ++ RTreeNode.objs nxt) := by
          refine List.Perm.trans ?_ e7
          rw [RTreeNode.objsList]
          simp
        exact perm_rot e7b
      · -- Split
        simp only [insertLoopF, hres] at hoob hbad ⊢
        have hstep2o := (insertLoopF_flags opts fuel _ rest st2).1 hoob
        have hstep2b := (insertLoopF_flags opts fuel _ rest st2).2 hbad
        obtain ⟨e1, e2, e3, e4, e5, e6, e7, e8, e9⟩ :=
          DirectoryNodeData.insert_exact opts hmin hminmax hrc root.bounding_box
            root.children root.depth nxt st hexr hner hexs.1 hnes.1
            (by rw [hres]; exact hstep2o) (by rw [hres]; exact hstep2b)
        rw [hres] at e2 e3 e4 e5 e6 e7
        simp only at e2 e3 e4 e5 e6 e7
        rw [resultNodes] at e5 e6 e7
        have hexnode : RTreeNode.mbrExactB node = true :=
          (RTreeNode.mbrExactBList_iff _).mp e5 node (List.mem_singleton_self _)
        have hnenode : RTreeNode.nonemptyDirsB node = true :=
          (RTreeNode.nonemptyDirsBList_iff _).mp e6 node (List.mem_singleton_self _)
        set nr := DirectoryNodeData.add_children ⟨none, [], root2.depth + 1⟩
          [root2.asNode, node] with hnr
        have hnrch : nr.children = [root2.asNode, node] := by
          rw [hnr, DirectoryNodeData.add_children_eq]
          simp
        have hnrbb : nr.bounding_box
            = DirectoryNodeData.mbrOfChildren [root2.asNode, node] := by
          rw [hnr, DirectoryNodeData.add_children_eq]
          show unionOpt none (DirectoryNodeData.mbrOfChildren [root2.asNode, node]) = _
          rw [unionOpt]
        have hexnr : RTreeNode.mbrExactB nr.asNode = true := by
          rw [DirectoryNodeData.asNode, RTreeNode.mbrExactB_dir_iff, hnrch, hnrbb]
          refine ⟨rfl, ?_⟩
          intro c hc
          simp only [List.mem_cons, List.not_mem_nil, or_false] at hc
          rcases hc with rfl | rfl
          · exact e2
          · exact hexnode
        have hnenr : RTreeNode.nonemptyDirsBList nr.children = true := by
          rw [hnrch, RTreeNode.nonemptyDirsBList_iff]
          intro c hc
          simp only [List.mem_cons, List.not_mem_nil, or_false] at hc
          rcases hc with rfl | rfl
          · rw [DirectoryNodeData.asNode, RTreeNode.nonemptyDirsB_dir_iff]
            exact ⟨e3, (RTreeNode.nonemptyDirsBList_iff _).mp e4⟩
          · exact hnenode
        obtain ⟨f1, f2, f3⟩ := ih nr rest st2 (by omega) hexnr hnenr hexs.2 hnes.2 hoob hbad
        refine ⟨f1, f2, ?_⟩
        refine f3.trans ?_
        have hobjnr : RTreeNode.objsList nr.children
            = RTreeNode.objsList root2.children ++ RTreeNode.objs node := by
          rw [hnrch, RTreeNode.objsList, RTreeNode.objsList, RTreeNode.objsList,
            DirectoryNodeData.asNode, RTreeNode.objs_dir, ← RTreeNode.objsList_eq]
          simp
        rw [hobjnr, RTreeNode.objsList]
        have e7b : (RTreeNode.objsList root2.children ++ RTreeNode.objs node).Perm
            (RTreeNode.objsList root.children ++ RTreeNode.objs nxt) := by
          refine List.Perm.trans ?_ e7
          refine List.Perm.append_left _ ?_
          rw [objsList_single]
        exact perm_rot e7b
      · -- Reinsert
        simp only [insertLoopF, hres] at hoob hbad ⊢
        have hstep2o := (insertLoopF_flags opts fuel root2 (ns.reverse ++ rest) st2).1 hoob
        have hstep2b := (insertLoopF_flags opts fuel root2 (ns.reverse ++ rest) st2).2 hbad
        obtain ⟨e1, e2, e3, e4, e5, e6, e7, e8, e9⟩ :=
          DirectoryNodeData.insert_exact opts hmin hminmax hrc root.bounding_box
            root.children root.depth nxt st hexr hner hexs.1 hnes.1
            (by rw [hres]; exact hstep2o) (by rw [hres]; exact hstep2b)
        rw [hres] at e2 e4 e5 e6 e7
        simp only at e2 e4 e5 e6 e7
        rw [resultNodes] at e5 e6 e7
        have hlt := hstr ns rfl
        have hnsl := insert_reinsert_length opts root.bounding_box
          root.children root.depth nxt st ns (by rw [hres])
        have hexstack : RTreeNode.mbrExactBList (ns.reverse ++ rest) = true := by
          rw [RTreeNode.mbrExactBList_iff]
          intro c hc
          rcases List.mem_append.mp hc with h | h
          · exact (RTreeNode.mbrExactBList_iff _).mp e5 c (List.mem_reverse.mp h)
          · exact (RTreeNode.mbrExactBList_iff _).mp hexs.2 c h
        have hnestack : RTreeNode.nonemptyDirsBList (ns.reverse ++ rest) = true := by
          rw [RTreeNode.nonemptyDirsBList_iff]
          intro c hc
          rcases List.mem_append.mp hc with h | h
          · exact (RTreeNode.nonemptyDirsBList_iff _).mp e6 c (List.mem_reverse.mp h)
          · exact (RTreeNode.nonemptyDirsBList_iff _).mp hnes.2 c h
        have hfb : (ns.reverse ++ rest).length +
            opts.reinsertion_count * countFalse st2.reinsertions ≤ fuel := by
          simp only [List.length_append, List.length_reverse]
          have hkey : opts.reinsertion_count * countFalse st2.reinsertions
              + opts.reinsertion_count
              ≤ opts.reinsertion_count * countFalse st.reinsertions := by
            calc opts.reinsertion_count * countFalse st2.reinsertions + opts.reinsertion_count
                = opts.reinsertion_count * (countFalse st2.reinsertions + 1) := by ring
              _ ≤ opts.reinsertion_count * countFalse st.reinsertions :=
                Nat.mul_le_mul_left _ hlt
          omega
        obtain ⟨f1, f2, f3⟩ := ih root2 (ns.reverse ++ rest) st2 hfb e2 e4
          hexstack hnestack hoob hbad
        refine ⟨f1, f2, ?_⟩
        refine f3.trans ?_
        rw [RTreeNode.objsList_append, RTreeNode.objsList]
        have hrev : (RTreeNode.objsList ns.reverse).Perm (RTreeNode.objsList ns) :=
          RTreeNode.objsList_perm (List.reverse_perm ns)
        have q1 : ((RTreeNode.objsList ns.reverse ++ RTreeNode.objsList rest) ++
            RTreeNode.objsList root2.children).Perm
            ((RTreeNode.objsList ns ++ RTreeNode.objsList rest) ++
            RTreeNode.objsList root2.children) :=
          List.Perm.append_right _ (List.Perm.append_right _ hrev)
        have q2 : ((RTreeNode.objsList ns ++ RTreeNode.objsList rest) ++
            RTreeNode.objsList root2.children).Perm
            ((RTreeNode.objsList root2.children ++ RTreeNode.objsList ns) ++
            RTreeNode.objsList rest) := by
          rw [List.append_assoc (RTreeNode.objsList root2.children)
            (RTreeNode.objsList ns) (RTreeNode.objsList rest)]
          exact List.perm_append_comm
        have q4 : ((RTreeNode.objsList root2.children ++ RTreeNode.objsList ns) ++
            RTreeNode.objsList rest).Perm
            ((RTreeNode.objsList root.children ++ RTreeNode.objs nxt) ++
            RTreeNode.objsList rest) := e7.append_right _
        have q5 : ((RTreeNode.objsList root.children ++ RTreeNode.objs nxt) ++
            RTreeNode.objsList rest).Perm
            ((RTreeNode.objs nxt ++ RTreeNode.objsList rest) ++
            RTreeNode.objsList root.children) := by
          rw [List.append_assoc]
          exact List.perm_append_comm
        exact q1.trans (q2.trans (q4.trans q5))
      · -- Abort
        simp only [insertLoopF, hres] at hoob hbad ⊢
        have habort := hfl.2.2 rfl
        rcases habort with h | h
        · rw [hoob] at h
          cases h
        · rw [hbad] at h
          cases h

/-! Tree level preservation and the panic checked run of inserts. -/

theorem insert_fullF_exact (opts : RTreeOptions)
    (hmin : 1 ≤ opts.min_size) (hminmax : opts.min_size ≤ opts.max_size)
    (hrc : opts.reinsertion_count ≤ opts.max_size) (tr : RTree) (t : Pt)
    (hex : RTreeNode.mbrExactB tr.root.asNode = true)
    (hnel : RTreeNode.nonemptyDirsBList tr.root.children = true)
    (hoob : (RTree.insert_fullF opts tr t).2.oob = false)
    (hbad : (RTree.insert_fullF opts tr t).2.badDescent = false) :
    RTreeNode.mbrExactB (RTree.insert_fullF opts tr t).1.root.asNode = true ∧
    RTreeNode.nonemptyDirsBList (RTree.insert_fullF opts tr t).1.root.children = true ∧
    (RTreeNode.objsList (RTree.insert_fullF opts tr t).1.root.children).Perm
      (t :: RTreeNode.objsList tr.root.children) := by
  have hstack1 : RTreeNode.mbrExactBList [RTreeNode.Leaf t] = true := by
    rw [RTreeNode.mbrExactBList, RTreeNode.mbrExactB]
    rw [RTreeNode.mbrExactBList]
    rfl
  have hstack2 : RTreeNode.nonemptyDirsBList [RTreeNode.Leaf t] = true := by
    rw [RTreeNode.nonemptyDirsBList, RTreeNode.nonemptyDirsB]
    rw [RTreeNode.nonemptyDirsBList]
    rfl
  obtain ⟨f1, f2, f3⟩ := insertLoopF_exact opts hmin hminmax hrc
    (1 + opts.reinsertion_count * countFalse
      (InsertionState.new (tr.root.depth + 1)).reinsertions)
    tr.root [RTreeNode.Leaf t] (InsertionState.new (tr.root.depth + 1))
    (by simp) hex hnel hstack1 hstack2 hoob hbad
  refine ⟨f1, f2, ?_⟩
  refine f3.trans ?_
  rw [RTreeNode.objsList, RTreeNode.objsList, RTreeNode.objs]
  simp

/-- One insertion step threading the panic flags (fuel form). -/
def insStepF (opts : RTreeOptions) (acc : RTree × Bool) (p : Pt) : RTree × Bool :=
  ((RTree.insert_fullF opts acc.1 p).1,
    acc.2 && !(RTree.insert_fullF opts acc.1 p).2.oob &&
      !(RTree.insert_fullF opts acc.1 p).2.badDescent)

/-- All inserts from the empty tree; the Bool records that no insert
panicked (fuel form). -/
def insertAllF (opts : RTreeOptions) (ps : List Pt) : RTree × Bool :=
  ps.foldl (insStepF opts) (RTree.new_with_options, true)

/-- All inserts from the empty tree; the Bool records that no insert
panicked (no reinsertion flag access out of bounds and no bad descent in
choose_subtree during any of the inserts). -/
def insertAll (opts : RTreeOptions) (ps : List Pt) : RTree × Bool :=
  ps.foldl (fun acc p =>
    ((RTree.insert_full opts acc.1 p).1,
      acc.2 && !(RTree.insert_full opts acc.1 p).2.oob &&
        !(RTree.insert_full opts acc.1 p).2.badDescent))
    (RTree.new_with_options, true)

theorem insertAll_eq_fuel (opts : RTreeOptions) (ps : List Pt) :
    insertAll opts ps = insertAllF opts ps := by
  unfold insertAll insertAllF insStepF
  congr 1
  funext acc p
  rw [RTree.insert_full_eq_fuel]

theorem foldl_insStepF_fst (opts : RTreeOptions) :
    ∀ (ps : List Pt) (tr : RTree) (b : Bool),
    (ps.foldl (insStepF opts) (tr, b)).1
      = ps.foldl (fun tr p => (RTree.insert_fullF opts tr p).1) tr := by
  intro ps
  induction ps with
  | nil => intro tr b; rfl
  | cons p rest ih =>
    intro tr b
    simp only [List.foldl_cons]
    exact ih _ _

theorem insertAllF_fst (opts : RTreeOptions) (ps : List Pt) :
    (insertAllF opts ps).1 = buildTreeF opts ps :=
  foldl_insStepF_fst opts ps _ _

theorem foldl_insStepF_bool (opts : RTreeOptions) :
    ∀ (ps : List Pt) (tr : RTree) (b : Bool),
    (ps.foldl (insStepF opts) (tr, b)).2 = true → b = true := by
  intro ps
  induction ps with
  | nil => intro tr b h; exact h
  | cons p rest ih =>
    intro tr b h
    simp only [List.foldl_cons] at h
    have h2 := ih _ _ h
    simp only [insStepF, Bool.and_eq_true] at h2
    exact h2.1.1

/-- Exactness, nonemptiness, object bookkeeping and size through a
whole panic free run of inserts. -/
theorem foldl_insStepF_exact (opts : RTreeOptions)
    (hmin : 1 ≤ opts.min_size) (hminmax : opts.min_size ≤ opts.max_size)
    (hrc : opts.reinsertion_count ≤ opts.max_size) :
    ∀ (ps : List Pt) (tr : RTree) (b : Bool),
    RTreeNode.mbrExactB tr.root.asNode = true →
    RTreeNode.nonemptyDirsBList tr.root.children = true →
    (ps.foldl (insStepF opts) (tr, b)).2 = true →
    RTreeNode.mbrExactB (ps.foldl (insStepF opts) (tr, b)).1.root.asNode = true ∧
    RTreeNode.nonemptyDirsBList
      (ps.foldl (insStepF opts) (tr, b)).1.root.children = true ∧
    (RTreeNode.objsList (ps.foldl (insStepF opts) (tr, b)).1.root.children).Perm
      (ps ++ RTreeNode.objsList tr.root.children) ∧
    (ps.foldl (insStepF opts) (tr, b)).1.size = tr.size + ps.length := by
  intro ps
  induction ps with
  | nil =>
    intro tr b hex hnel hok
    exact ⟨hex, hnel, by simp, rfl⟩
  | cons p rest ih =>
    intro tr b hex hnel hok
    simp only [List.foldl_cons] at hok ⊢
    have hb2 := foldl_insStepF_bool opts rest _ _ hok
    simp only [insStepF, Bool.and_eq_true, Bool.not_eq_true'] at hb2
    obtain ⟨⟨hb, hoo⟩, hbd⟩ := hb2
    obtain ⟨g1, g2, g3⟩ := insert_fullF_exact opts hmin hminmax hrc tr p hex hnel hoo hbd
    have hstep : insStepF opts (tr, b) p = ((RTree.insert_fullF opts tr p).1, true) := by
      rw [insStepF]
      simp [hb, hoo, hbd]
    rw [hstep] at hok ⊢
    obtain ⟨f1, f2, f3, f4⟩ := ih (RTree.insert_fullF opts tr p).1 true g1 g2 hok
    refine ⟨f1, f2, ?_, ?_⟩
    · refine f3.trans ?_
      refine (List.Perm.append_left _ g3).trans ?_
      exact List.perm_middle
    · rw [f4]
      have hsz : (RTree.insert_fullF opts tr p).1.size = tr.size + 1 := rfl
      rw [hsz]
      simp only [List.length_cons]
      omega

/-- Combined invariant of a panic free insert only run, phrased over the
source level definitions. -/
theorem buildTree_invariants (opts : RTreeOptions) (ps : List Pt)
    (hmin : 1 ≤ opts.min_size) (hminmax : opts.min_size ≤ opts.max_size)
    (hrc : opts.reinsertion_count ≤ opts.max_size)
    (hok : (insertAll opts ps).2 = true) :
    RTreeNode.mbrExactB (buildTree opts ps).root.asNode = true ∧
    RTreeNode.nonemptyDirsBList (buildTree opts ps).root.children = true ∧
    (RTreeNode.objsList (buildTree opts ps).root.children).Perm ps ∧
    (buildTree opts ps).size = ps.length := by
  rw [insertAll_eq_fuel] at hok
  rw [buildTree_eq_fuel]
  rw [insertAllF] at hok
  obtain ⟨f1, f2, f3, f4⟩ := foldl_insStepF_exact opts hmin hminmax hrc ps
    RTree.new_with_options true rfl rfl hok
  have hfst := foldl_insStepF_fst opts ps RTree.new_with_options true
  rw [hfst] at f1 f2 f3 f4
  rw [buildTreeF]
  refine ⟨f1, f2, ?_, ?_⟩
  · refine f3.trans ?_
    show (ps ++ RTreeNode.objsList []).Perm ps
    rw [RTreeNode.objsList]
    simp
  · rw [f4]
    simp [RTree.new_with_options]

/-! Preservation of exactness and nonemptiness by lookup_and_remove:
the source runs update_mbr at every node below which a removal happened
(result.is_some()), and an untouched subtree is returned unchanged. -/

/-- Children of a node (empty for a leaf). -/
def RTreeNode.childrenOf : RTreeNode → List RTreeNode
  | RTreeNode.Leaf _ => []
  | RTreeNode.DirectoryNode _ cs _ => cs

theorem larNode_dir_shape (bb : Option Rect) (cs : List RTreeNode) (d : Nat) (point : Pt) :
    ∃ bb2 cs2 d2, (larNode (RTreeNode.DirectoryNode bb cs d) point).1
      = RTreeNode.DirectoryNode bb2 cs2 d2 := by
  have heq : larNode (RTreeNode.DirectoryNode bb cs d) point =
      (if (match bb with | some r => r.contains_point point | none => false) then
        match larChildren cs point with
        | (cs2, some v) => ((DirectoryNodeData.update_mbr ⟨bb, cs2, d⟩).asNode, some v)
        | (cs2, none) => (RTreeNode.DirectoryNode bb cs2 d, none)
      else (RTreeNode.DirectoryNode bb cs d, none)) := rfl
  rw [heq]
  split
  · rcases h : larChildren cs point with ⟨cs2, v⟩
    rcases v with _ | v
    · simp only [h]
      exact ⟨_, _, _, rfl⟩
    · simp only [h]
      exact ⟨_, _, _, rfl⟩
  · exact ⟨_, _, _, rfl⟩

/-- lookup_and_remove keeps every cached box exact and every directory
below nonempty, and leaves the subtree untouched when it removed
nothing. -/
theorem larNode_preserves :
    (∀ (node : RTreeNode) (point : Pt),
      RTreeNode.mbrExactB node = true →
      RTreeNode.nonemptyDirsBList node.childrenOf = true →
      RTreeNode.mbrExactB (larNode node point).1 = true ∧
      RTreeNode.nonemptyDirsBList (larNode node point).1.childrenOf = true ∧
      ((larNode node point).2 = none → (larNode node point).1 = node)) ∧
    (∀ (cs : List RTreeNode) (point : Pt),
      RTreeNode.mbrExactBList cs = true →
      RTreeNode.nonemptyDirsBList cs = true →
      RTreeNode.mbrExactBList (larChildren cs point).1 = true ∧
      RTreeNode.nonemptyDirsBList (larChildren cs point).1 = true ∧
      ((larChildren cs point).2 = none → (larChildren cs point).1 = cs)) := by
  apply larNode.mutual_induct
    (motive_1 := fun node point2 =>
      RTreeNode.mbrExactB node = true →
      RTreeNode.nonemptyDirsBList node.childrenOf = true →
      RTreeNode.mbrExactB (larNode node point2).1 = true ∧
      RTreeNode.nonemptyDirsBList (larNode node point2).1.childrenOf = true ∧
      ((larNode node point2).2 = none → (larNode node point2).1 = node))
    (motive_2 := fun cs point2 =>
      RTreeNode.mbrExactBList cs = true →
      RTreeNode.nonemptyDirsBList cs = true →
      RTreeNode.mbrExactBList (larChildren cs point2).1 = true ∧
      RTreeNode.nonemptyDirsBList (larChildren cs point2).1 = true ∧
      ((larChildren cs point2).2 = none → (larChildren cs point2).1 = cs))
  case _ =>
    intro point a hex hne
    exact ⟨hex, hne, fun _ => rfl⟩
  case _ =>
    intro point bb cs d hcont hc cs2 v hlc ih
    have hc2 : (match bb with | some r => r.contains_point point | none => false) = true := hc
    intro hex hne
    have h0 : larNode (RTreeNode.DirectoryNode bb cs d) point =
        (if (match bb with | some r => r.contains_point point | none => false) then
          match larChildren cs point with
          | (cs3, some w) => ((DirectoryNodeData.update_mbr ⟨bb, cs3, d⟩).asNode, some w)
          | (cs3, none) => (RTreeNode.DirectoryNode bb cs3 d, none)
        else (RTreeNode.DirectoryNode bb cs d, none)) := rfl
    have heq : larNode (RTreeNode.DirectoryNode bb cs d) point
        = ((DirectoryNodeData.update_mbr ⟨bb, cs2, d⟩).asNode, some v) := by
      rw [h0, if_pos hc2, hlc]
    have hexd := hex
    rw [RTreeNode.mbrExactB_dir_iff] at hexd
    obtain ⟨i1, i2, i3⟩ := ih ((RTreeNode.mbrExactBList_iff _).mpr hexd.2) hne
    rw [hlc] at i1 i2
    rw [heq]
    exact ⟨DirectoryNodeData.update_mbr_exact i1, i2, fun h => absurd h (by simp)⟩
  case _ =>
    intro point bb cs d hcont hc cs2 hlc ih
    have hc2 : (match bb with | some r => r.contains_point point | none => false) = true := hc
    intro hex hne
    have h0 : larNode (RTreeNode.DirectoryNode bb cs d) point =
        (if (match bb with | some r => r.contains_point point | none => false) then
          match larChildren cs point with
          | (cs3, some w) => ((DirectoryNodeData.update_mbr ⟨bb, cs3, d⟩).asNode, some w)
          | (cs3, none) => (RTreeNode.DirectoryNode bb cs3 d, none)
        else (RTreeNode.DirectoryNode bb cs d, none)) := rfl
    have heq : larNode (RTreeNode.DirectoryNode bb cs d) point
        = (RTreeNode.DirectoryNode bb cs2 d, none) := by
      rw [h0, if_pos hc2, hlc]
    have hexd := hex
    rw [RTreeNode.mbrExactB_dir_iff] at hexd
    obtain ⟨i1, i2, i3⟩ := ih ((RTreeNode.mbrExactBList_iff _).mpr hexd.2) hne
    rw [hlc] at i3
    have hcs2 : cs2 = cs := i3 rfl
    subst hcs2
    rw [heq]
    exact ⟨hex, hne, fun _ => rfl⟩
  case _ =>
    intro point bb cs d hcont hc
    have hc2 : ¬ (match bb with | some r => r.contains_point point | none => false) = true := hc
    intro hex hne
    have h0 : larNode (RTreeNode.DirectoryNode bb cs d) point =
        (if (match bb with | some r => r.contains_point point | none => false) then
          match larChildren cs point with
          | (cs3, some w) => ((DirectoryNodeData.update_mbr ⟨bb, cs3, d⟩).asNode, some w)
          | (cs3, none) => (RTreeNode.DirectoryNode bb cs3 d, none)
        else (RTreeNode.DirectoryNode bb cs d, none)) := rfl
    have heq : larNode (RTreeNode.DirectoryNode bb cs d) point
        = (RTreeNode.DirectoryNode bb cs d, none) := by
      rw [h0, if_neg hc2]
    rw [heq]
    exact ⟨hex, hne, fun _ => rfl⟩
  case _ =>
    intro point hexl hnel
    exact ⟨hexl, hnel, fun _ => rfl⟩
  case _ =>
    intro rest point bb cs d ihn ihl hexl hnel
    have hexl2 := (RTreeNode.mbrExactBList_iff _).mp hexl
    have hnel2 := (RTreeNode.nonemptyDirsBList_iff _).mp hnel
    have hexh := hexl2 _ (List.mem_cons_self _ _)
    have hneh := hnel2 _ (List.mem_cons_self _ _)
    have hext : RTreeNode.mbrExactBList rest = true :=
      (RTreeNode.mbrExactBList_iff _).mpr fun c hc => hexl2 c (List.mem_cons_of_mem _ hc)
    have hnet : RTreeNode.nonemptyDirsBList rest = true :=
      (RTreeNode.nonemptyDirsBList_iff _).mpr fun c hc => hnel2 c (List.mem_cons_of_mem _ hc)
    have hnedir := hneh
    rw [RTreeNode.nonemptyDirsB_dir_iff] at hnedir
    obtain ⟨n1, n2, n3⟩ := ihn hexh
      ((RTreeNode.nonemptyDirsBList_iff _).mpr hnedir.2)
    obtain ⟨l1, l2, l3⟩ := ihl hext hnet
    obtain ⟨bb3, cs3, d3, hshape⟩ := larNode_dir_shape bb cs d point
    have heq : larChildren (RTreeNode.DirectoryNode bb cs d :: rest) point
        = (match (larNode (RTreeNode.DirectoryNode bb cs d) point).1 with
           | RTreeNode.DirectoryNode bb4 cs4 d4 =>
             if cs4.isEmpty then (larChildren rest point).1
             else RTreeNode.DirectoryNode bb4 cs4 d4 :: (larChildren rest point).1
           | RTreeNode.Leaf p4 => RTreeNode.Leaf p4 :: (larChildren rest point).1,
           match (larChildren rest point).2 with
           | some v => some v
           | none => (larNode (RTreeNode.DirectoryNode bb cs d) point).2) := rfl
    have heq2 : larChildren (RTreeNode.DirectoryNode bb cs d :: rest) point
        = (if cs3.isEmpty then (larChildren rest point).1
           else RTreeNode.DirectoryNode bb3 cs3 d3 :: (larChildren rest point).1,
           match (larChildren rest point).2 with
           | some v => some v
           | none => (larNode (RTreeNode.DirectoryNode bb cs d) point).2) := by
      rw [heq, hshape]
    rw [hshape] at n1 n2
    rcases hemp : cs3.isEmpty with _ | _
    · have hfst : (larChildren (RTreeNode.DirectoryNode bb cs d :: rest) point).1
          = RTreeNode.DirectoryNode bb3 cs3 d3 :: (larChildren rest point).1 := by
        rw [heq2, hemp]
        rfl
      refine ⟨?_, ?_, ?_⟩
      · rw [hfst]
        refine (RTreeNode.mbrExactBList_iff _).mpr ?_
        intro c hc
        rcases List.mem_cons.mp hc with rfl | hc
        · exact n1
        · exact (RTreeNode.mbrExactBList_iff _).mp l1 c hc
      · rw [hfst]
        refine (RTreeNode.nonemptyDirsBList_iff _).mpr ?_
        intro c hc
        rcases List.mem_cons.mp hc with rfl | hc
        · rw [RTreeNode.nonemptyDirsB_dir_iff]
          refine ⟨?_, (RTreeNode.nonemptyDirsBList_iff _).mp n2⟩
          intro h
          subst h
          simp at hemp
        · exact (RTreeNode.nonemptyDirsBList_iff _).mp l2 c hc
      · intro h
        rcases htail : (larChildren rest point).2 with _ | v
        · have hsnd : (larChildren (RTreeNode.DirectoryNode bb cs d :: rest) point).2
              = (larNode (RTreeNode.DirectoryNode bb cs d) point).2 := by
            rw [heq2, htail]
          rw [hsnd] at h
          have hunch := n3 h
          rw [hshape] at hunch
          injection hunch with e1 e2 e3
          subst e1
          subst e2
          subst e3
          rw [hfst, l3 htail]
        · have hsnd : (larChildren (RTreeNode.DirectoryNode bb cs d :: rest) point).2
              = some v := by
            rw [heq2, htail]
          rw [hsnd] at h
          cases h
    · have hfst : (larChildren (RTreeNode.DirectoryNode bb cs d :: rest) point).1
          = (larChildren rest point).1 := by
        rw [heq2, hemp]
        rfl
      refine ⟨?_, ?_, ?_⟩
      · rw [hfst]
        exact l1
      · rw [hfst]
        exact l2
      · intro h
        rcases htail : (larChildren rest point).2 with _ | v
        · have hsnd : (larChildren (RTreeNode.DirectoryNode bb cs d :: rest) point).2
              = (larNode (RTreeNode.DirectoryNode bb cs d) point).2 := by
            rw [heq2, htail]
          rw [hsnd] at h
          have hunch := n3 h
          rw [hshape] at hunch
          injection hunch with e1 e2 e3
          subst e2
          exact absurd (List.isEmpty_iff.mp hemp) hnedir.1
        · have hsnd : (larChildren (RTreeNode.DirectoryNode bb cs d :: rest) point).2
              = some v := by
            rw [heq2, htail]
          rw [hsnd] at h
          cases h
  case _ =>
    intro rest point t hobj ihl hexl hnel
    have hexl2 := (RTreeNode.mbrExactBList_iff _).mp hexl
    have hnel2 := (RTreeNode.nonemptyDirsBList_iff _).mp hnel
    have hext : RTreeNode.mbrExactBList rest = true :=
      (RTreeNode.mbrExactBList_iff _).mpr fun c hc => hexl2 c (List.mem_cons_of_mem _ hc)
    have hnet : RTreeNode.nonemptyDirsBList rest = true :=
      (RTreeNode.nonemptyDirsBList_iff _).mpr fun c hc => hnel2 c (List.mem_cons_of_mem _ hc)
    obtain ⟨l1, l2, l3⟩ := ihl hext hnet
    have heq : larChildren (RTreeNode.Leaf t :: rest) point
        = (if objContains t point then
            ((larChildren rest point).1, match (larChildren rest point).2 with
              | some v => some v
              | none => some t)
          else (RTreeNode.Leaf t :: (larChildren rest point).1,
            (larChildren rest point).2)) := rfl
    have heq2 : larChildren (RTreeNode.Leaf t :: rest) point
        = ((larChildren rest point).1, match (larChildren rest point).2 with
            | some v => some v
            | none => some t) := by
      rw [heq, if_pos hobj]
    refine ⟨?_, ?_, ?_⟩
    · rw [heq2]
      exact l1
    · rw [heq2]
      exact l2
    · intro h
      rcases htail : (larChildren rest point).2 with _ | v
      · have hsnd : (larChildren (RTreeNode.Leaf t :: rest) point).2 = some t := by
          rw [heq2, htail]
        rw [hsnd] at h
        cases h
      · have hsnd : (larChildren (RTreeNode.Leaf t :: rest) point).2 = some v := by
          rw [heq2, htail]
        rw [hsnd] at h
        cases h
  case _ =>
    intro rest point t hobj ihl hexl hnel
    have hexl2 := (RTreeNode.mbrExactBList_iff _).mp hexl
    have hnel2 := (RTreeNode.nonemptyDirsBList_iff _).mp hnel
    have hext : RTreeNode.mbrExactBList rest = true :=
      (RTreeNode.mbrExactBList_iff _).mpr fun c hc => hexl2 c (List.mem_cons_of_mem _ hc)
    have hnet : RTreeNode.nonemptyDirsBList rest = true :=
      (RTreeNode.nonemptyDirsBList_iff _).mpr fun c hc => hnel2 c (List.mem_cons_of_mem _ hc)
    obtain ⟨l1, l2, l3⟩ := ihl hext hnet
    have heq : larChildren (RTreeNode.Leaf t :: rest) point
        = (if objContains t point then
            ((larChildren rest point).1, match (larChildren rest point).2 with
              | some v => some v
              | none => some t)
          else (RTreeNode.Leaf t :: (larChildren rest point).1,
            (larChildren rest point).2)) := rfl
    have heq2 : larChildren (RTreeNode.Leaf t :: rest) point
        = (RTreeNode.Leaf t :: (larChildren rest point).1,
            (larChildren rest point).2) := by
      rw [heq, if_neg hobj]
    refine ⟨?_, ?_, ?_⟩
    · rw [heq2]
      refine (RTreeNode.mbrExactBList_iff _).mpr ?_
      intro c hc
      rcases List.mem_cons.mp hc with rfl | hc
      · exact hexl2 _ (List.mem_cons_self _ _)
      · exact (RTreeNode.mbrExactBList_iff _).mp l1 c hc
    · rw [heq2]
      refine (RTreeNode.nonemptyDirsBList_iff _).mpr ?_
      intro c hc
      rcases List.mem_cons.mp hc with rfl | hc
      · exact hnel2 _ (List.mem_cons_self _ _)
      · exact (RTreeNode.nonemptyDirsBList_iff _).mp l2 c hc
    · intro h
      have hsnd : (larChildren (RTreeNode.Leaf t :: rest) point).2
          = (larChildren rest point).2 := by
        rw [heq2]
      rw [hsnd] at h
      rw [heq2, l3 h]

/-- RTree::lookup_and_remove keeps every cached box exact and every
directory below the root nonempty: the drain runs update_mbr at each
node below which the removal happened and leaves every other subtree
untouched. -/
theorem RTree.lookup_and_remove_exact (tr : RTree) (q : Pt)
    (hex : RTreeNode.mbrExactB tr.root.asNode = true)
    (hnel : RTreeNode.nonemptyDirsBList tr.root.children = true) :
    RTreeNode.mbrExactB (RTree.lookup_and_remove tr q).1.root.asNode = true ∧
    RTreeNode.nonemptyDirsBList (RTree.lookup_and_remove tr q).1.root.children = true := by
  by_cases hsz : tr.size > 0
  · rcases tr with ⟨⟨bb, cs, d⟩, sz⟩
    obtain ⟨p1, p2, p3⟩ := larNode_preserves.1 (RTreeNode.DirectoryNode bb cs d) q hex hnel
    obtain ⟨bb2, cs2, d2, hshape⟩ := larNode_dir_shape bb cs d q
    rw [hshape] at p1 p2
    have htd : (larNode (RTreeNode.DirectoryNode bb cs d) q).1.toData
        = (⟨bb2, cs2, d2⟩ : DirectoryNodeData) := by
      rw [hshape]
      rfl
    have hw : RTree.lookup_and_remove ⟨⟨bb, cs, d⟩, sz⟩ q
        = (match (larNode (RTreeNode.DirectoryNode bb cs d) q).2 with
           | some v =>
             (⟨if ((larNode (RTreeNode.DirectoryNode bb cs d) q).1.toData.children.isEmpty)
                 then { (larNode (RTreeNode.DirectoryNode bb cs d) q).1.toData with depth := 1 }
                 else (larNode (RTreeNode.DirectoryNode bb cs d) q).1.toData, sz - 1⟩, some v)
           | none => (⟨(larNode (RTreeNode.DirectoryNode bb cs d) q).1.toData, sz⟩, none)) := by
      unfold RTree.lookup_and_remove
      rw [if_pos hsz]
      rfl
    rcases hres : (larNode (RTreeNode.DirectoryNode bb cs d) q).2 with _ | v
    · rw [hres] at hw
      rw [htd] at hw
      rw [hw]
      exact ⟨p1, p2⟩
    · rw [hres] at hw
      rw [htd] at hw
      rcases hemp2 : cs2.isEmpty with _ | _
      · have hcond : ((⟨bb2, cs2, d2⟩ : DirectoryNodeData).children.isEmpty) = false := hemp2
        rw [hcond] at hw
        rw [if_neg (by simp)] at hw
        rw [hw]
        exact ⟨p1, p2⟩
      · have hcond : ((⟨bb2, cs2, d2⟩ : DirectoryNodeData).children.isEmpty) = true := hemp2
        rw [hcond] at hw
        rw [if_pos rfl] at hw
        rw [hw]
        refine ⟨?_, ?_⟩
        · show RTreeNode.mbrExactB (RTreeNode.DirectoryNode bb2 cs2 1) = true
          rw [RTreeNode.mbrExactB_dir_iff] at p1 ⊢
          exact p1
        · show RTreeNode.nonemptyDirsBList cs2 = true
          exact p2
  · have hw : RTree.lookup_and_remove tr q = (tr, none) := by
      unfold RTree.lookup_and_remove
      rw [if_neg hsz]
    rw [hw]
    exact ⟨hex, hnel⟩

/-- True exactly on the remove operations of a program. -/
def Op.isRem : Op → Bool
  | .rem _ => true
  | _ => false

/-- One checked public mutation (fuel form): an insert records its panic
flags, a removal passes the flag through. -/
def opStepF (opts : RTreeOptions) (acc : RTree × Bool) (op : Op) : RTree × Bool :=
  match op with
  | .ins p => ((RTree.insert_fullF opts acc.1 p).1,
      acc.2 && !(RTree.insert_fullF opts acc.1 p).2.oob &&
        !(RTree.insert_fullF opts acc.1 p).2.badDescent)
  | .rem p => ((RTree.remove acc.1 p).1, acc.2)
  | .lar p => ((RTree.lookup_and_remove acc.1 p).1, acc.2)

/-- A program of public mutations from the empty tree together with the
record that none of its inserts panicked (fuel form). -/
def runOpsCheckedF (opts : RTreeOptions) (ops : List Op) : RTree × Bool :=
  ops.foldl (opStepF opts) (RTree.new_with_options, true)

/-- One checked public mutation at the source level driver. -/
def opStep (opts : RTreeOptions) (acc : RTree × Bool) (op : Op) : RTree × Bool :=
  match op with
  | .ins p => ((RTree.insert_full opts acc.1 p).1,
      acc.2 && !(RTree.insert_full opts acc.1 p).2.oob &&
        !(RTree.insert_full opts acc.1 p).2.badDescent)
  | .rem p => ((RTree.remove acc.1 p).1, acc.2)
  | .lar p => ((RTree.lookup_and_remove acc.1 p).1, acc.2)

/-- A program of public mutations from the empty tree together with the
record that none of its inserts panicked. -/
def runOpsChecked (opts : RTreeOptions) (ops : List Op) : RTree × Bool :=
  ops.foldl (opStep opts) (RTree.new_with_options, true)

theorem opStep_eq_fuel (opts : RTreeOptions) (acc : RTree × Bool) (op : Op) :
    opStep opts acc op = opStepF opts acc op := by
  cases op <;> simp [opStep, opStepF, RTree.insert_full_eq_fuel]

theorem runOpsChecked_eq_fuel (opts : RTreeOptions) (ops : List Op) :
    runOpsChecked opts ops = runOpsCheckedF opts ops := by
  unfold runOpsChecked runOpsCheckedF
  congr 1
  funext acc op
  exact opStep_eq_fuel opts acc op

theorem foldl_opStepF_fst (opts : RTreeOptions) :
    ∀ (ops : List Op) (tr : RTree) (b : Bool),
    (ops.foldl (opStepF opts) (tr, b)).1 = ops.foldl (RTree.applyOpF opts) tr := by
  intro ops
  induction ops with
  | nil => intro tr b; rfl
  | cons op rest ih =>
    intro tr b
    simp only [List.foldl_cons]
    cases op with
    | ins p => exact ih _ _
    | rem p => exact ih _ _
    | lar p => exact ih _ _

theorem foldl_opStepF_bool (opts : RTreeOptions) :
    ∀ (ops : List Op) (tr : RTree) (b : Bool),
    (ops.foldl (opStepF opts) (tr, b)).2 = true → b = true := by
  intro ops
  induction ops with
  | nil => intro tr b h; exact h
  | cons op rest ih =>
    intro tr b h
    simp only [List.foldl_cons] at h
    cases op with
    | ins p =>
      have h2 : (b && !(RTree.insert_fullF opts tr p).2.oob &&
          !(RTree.insert_fullF opts tr p).2.badDescent) = true := ih _ _ h
      simp only [Bool.and_eq_true] at h2
      exact h2.1.1
    | rem p => exact ih _ _ h
    | lar p => exact ih _ _ h

/-- Panic free programs without remove keep the root payload exact and
all directories below it nonempty. -/
theorem foldl_opStepF_exact (opts : RTreeOptions)
    (hmin : 1 ≤ opts.min_size) (hminmax : opts.min_size ≤ opts.max_size)
    (hrc : opts.reinsertion_count ≤ opts.max_size) :
    ∀ (ops : List Op) (tr : RTree) (b : Bool),
    (∀ op ∈ ops, Op.isRem op = false) →
    RTreeNode.mbrExactB tr.root.asNode = true →
    RTreeNode.nonemptyDirsBList tr.root.children = true →
    (ops.foldl (opStepF opts) (tr, b)).2 = true →
    RTreeNode.mbrExactB (ops.foldl (opStepF opts) (tr, b)).1.root.asNode = true ∧
    RTreeNode.nonemptyDirsBList
      (ops.foldl (opStepF opts) (tr, b)).1.root.children = true := by
  intro ops
  induction ops with
  | nil =>
    intro tr b hnr hex hnel hok
    exact ⟨hex, hnel⟩
  | cons op rest ih =>
    intro tr b hnr hex hnel hok
    have hnrr : ∀ op2 ∈ rest, Op.isRem op2 = false :=
      fun op2 h2 => hnr op2 (List.mem_cons_of_mem _ h2)
    simp only [List.foldl_cons] at hok ⊢
    cases op with
    | ins p =>
      have hb3 : (b && !(RTree.insert_fullF opts tr p).2.oob &&
          !(RTree.insert_fullF opts tr p).2.badDescent) = true :=
        foldl_opStepF_bool opts rest _ _ hok
      simp only [Bool.and_eq_true, Bool.not_eq_true'] at hb3
      obtain ⟨⟨hb, hoo⟩, hbd⟩ := hb3
      obtain ⟨g1, g2, g3⟩ := insert_fullF_exact opts hmin hminmax hrc tr p hex hnel hoo hbd
      have hstep : opStepF opts (tr, b) (Op.ins p)
          = ((RTree.insert_fullF opts tr p).1, true) := by
        simp only [opStepF, hb, hoo, hbd]
        rfl
      rw [hstep] at hok ⊢
      exact ih _ _ hnrr g1 g2 hok
    | rem p =>
      have hmem := hnr (Op.rem p) (List.mem_cons_self _ _)
      simp [Op.isRem] at hmem
    | lar p =>
      obtain ⟨g1, g2⟩ := RTree.lookup_and_remove_exact tr p hex hnel
      have hstep : opStepF opts (tr, b) (Op.lar p)
          = ((RTree.lookup_and_remove tr p).1, b) := rfl
      rw [hstep] at hok ⊢
      exact ih _ _ hnrr g1 g2 hok

/-! Containment soundness of the cached boxes: the weaker invariant that
survives every public mutation, including remove (whose stale boxes are
only ever oversized, never undersized). -/

namespace RTreeNode

mutual
/-- Checker for box soundness (containment only): every directory node
either has no children, or caches some box that contains every child
box. -/
def boxOkB (node : RTreeNode) : Bool :=
  match node with
  | .Leaf _ => true
  | .DirectoryNode bb cs _ =>
    (match bb with
     | some r => cs.all (fun c => r.contains_rect c.mbr)
     | none => cs.isEmpty) && boxOkBList cs

def boxOkBList (cs : List RTreeNode) : Bool :=
  match cs with
  | [] => true
  | c :: rest => boxOkB c && boxOkBList rest
end

theorem boxOkBList_iff : ∀ cs : List RTreeNode,
    boxOkBList cs = true ↔ ∀ c ∈ cs, boxOkB c = true
  | [] => by simp [boxOkBList]
  | c :: rest => by
    rw [boxOkBList]
    simp [boxOkBList_iff rest]

theorem boxOkB_dir_some_iff (r : Rect) (cs : List RTreeNode) (d : Nat) :
    boxOkB (.DirectoryNode (some r) cs d) = true ↔
      ((∀ c ∈ cs, Rect.subset c.mbr r) ∧ ∀ c ∈ cs, boxOkB c = true) := by
  rw [boxOkB]
  simp [boxOkBList_iff, List.all_eq_true, Rect.contains_rect_iff]

theorem boxOkB_dir_none_iff (cs : List RTreeNode) (d : Nat) :
    boxOkB (.DirectoryNode none cs d) = true ↔ cs = [] := by
  rw [boxOkB]
  simp [boxOkBList_iff, List.isEmpty_iff]
  intro h
  subst h
  simp

/-- Exact boxes are in particular containment sound. -/
theorem mbrExact_boxOk :
    (∀ node : RTreeNode, mbrExactB node = true → boxOkB node = true) ∧
    (∀ cs : List RTreeNode, mbrExactBList cs = true → boxOkBList cs = true) := by
  apply boxOkB.mutual_induct
    (motive_1 := fun node => mbrExactB node = true → boxOkB node = true)
    (motive_2 := fun cs => mbrExactBList cs = true → boxOkBList cs = true)
  case _ => intro _ _; rfl
  case _ =>
    intro bb cs d ih hex
    rw [mbrExactB_dir_iff] at hex
    have hlist := ih ((mbrExactBList_iff _).mpr hex.2)
    rcases hbb : bb with _ | r
    · rw [hbb] at hex
      have hcs := (DirectoryNodeData.mbrOfChildren_none_iff cs).mp hex.1.symm
      subst hcs
      rfl
    · rw [hbb] at hex
      rw [boxOkB_dir_some_iff]
      refine ⟨?_, (boxOkBList_iff _).mp hlist⟩
      intro c hc
      exact DirectoryNodeData.mbrOfChildren_mem_subset hc hex.1.symm
  case _ => intro _; rfl
  case _ =>
    intro c rest ihc ihl hex
    rw [mbrExactBList, Bool.and_eq_true] at hex
    rw [boxOkBList, Bool.and_eq_true]
    exact ⟨ihc hex.1, ihl hex.2⟩

/-- Containment soundness gives the coverage the query descents rely on:
every stored object lies inside the cached box of the node that holds
it. -/
theorem boxOk_covers :
    (∀ node : RTreeNode, boxOkB node = true →
      ∀ o ∈ objs node, Rect.subset (objMbr o) node.mbr) ∧
    (∀ cs : List RTreeNode, boxOkBList cs = true →
      ∀ o ∈ objsList cs, ∃ c ∈ cs, Rect.subset (objMbr o) c.mbr ∧ boxOkB c = true) := by
  apply boxOkB.mutual_induct
    (motive_1 := fun node => boxOkB node = true →
      ∀ o ∈ objs node, Rect.subset (objMbr o) node.mbr)
    (motive_2 := fun cs => boxOkBList cs = true →
      ∀ o ∈ objsList cs, ∃ c ∈ cs, Rect.subset (objMbr o) c.mbr ∧ boxOkB c = true)
  case _ =>
    intro p _ o ho
    rw [objs] at ho
    simp only [List.mem_singleton] at ho
    subst ho
    exact Rect.subset_refl _
  case _ =>
    intro bb cs d ih hok o ho
    rw [objs] at ho
    rcases hbb : bb with _ | r
    · rw [hbb] at hok
      rw [boxOkB_dir_none_iff] at hok
      subst hok
      rw [objsList] at ho
      cases ho
    · rw [hbb] at hok
      rw [boxOkB_dir_some_iff] at hok
      obtain ⟨c, hc, hsub, _⟩ := ih ((boxOkBList_iff _).mpr hok.2) o ho
      have hcr : Rect.subset c.mbr r := hok.1 c hc
      have hmbr : mbr (RTreeNode.DirectoryNode (some r) cs d) = r := rfl
      rw [hmbr]
      exact Rect.subset_trans hsub hcr
  case _ =>
    intro _ o ho
    rw [objsList] at ho
    cases ho
  case _ =>
    intro c rest ihc ihl hok o ho
    rw [boxOkBList, Bool.and_eq_true] at hok
    rw [objsList, List.mem_append] at ho
    rcases ho with ho | ho
    · exact ⟨c, List.mem_cons_self _ _, ihc hok.1 o ho, hok.1⟩
    · obtain ⟨c2, hc2, hs2, hb2⟩ := ihl hok.2 o ho
      exact ⟨c2, List.mem_cons_of_mem _ hc2, hs2, hb2⟩

/-- The children of a containment sound directory are containment
sound. -/
theorem boxOkB_children (bb : Option Rect) (cs : List RTreeNode) (d : Nat)
    (h : boxOkB (.DirectoryNode bb cs d) = true) : boxOkBList cs = true := by
  rcases bb with _ | r
  · rw [boxOkB_dir_none_iff] at h
    subst h
    rfl
  · rw [boxOkB_dir_some_iff] at h
    exact (boxOkBList_iff _).mpr h.2

end RTreeNode

/-- Characterization of lookup_in_circle on containment sound child
lists: exactly the accumulated objects and the stored objects strictly
inside the circle are returned.  The non strict descent test cannot drop
an object: any stored object strictly inside the circle pins the box of
the node between it and this list at min_dist2 below the squared
radius. -/
theorem lookup_in_circle_iff :
    ∀ (cs : List RTreeNode) (acc : List Pt) (origin : Pt) (radius2 : Int),
    RTreeNode.boxOkBList cs = true →
    ∀ o : Pt, o ∈ lookup_in_circle cs acc origin radius2 ↔
      (o ∈ acc ∨ (o ∈ RTreeNode.objsList cs ∧ dist2 o origin < radius2)) := by
  apply lookup_in_circle.induct (motive := fun cs acc origin radius2 =>
    RTreeNode.boxOkBList cs = true →
    ∀ o : Pt, o ∈ lookup_in_circle cs acc origin radius2 ↔
      (o ∈ acc ∨ (o ∈ RTreeNode.objsList cs ∧ dist2 o origin < radius2)))
  case _ =>
    intro acc origin radius2 hok o
    rw [lookup_in_circle]
    rw [RTreeNode.objsList]
    simp
  case _ =>
    intro acc origin radius2 c rest acc2 ihc ihr hok o
    rw [RTreeNode.boxOkBList, Bool.and_eq_true] at hok
    have hrest := ihr hok.2
    rcases c with t | ⟨bb2, cs2, d2⟩
    · have heq : lookup_in_circle (RTreeNode.Leaf t :: rest) acc origin radius2
          = lookup_in_circle rest
              (if (RTreeNode.Leaf t).mbr.min_dist2 origin ≤ radius2 then
                (if dist2 t origin < radius2 then acc ++ [t] else acc) else acc)
              origin radius2 := by
        rw [lookup_in_circle.eq_def]
      rw [heq]
      rw [RTreeNode.objsList, List.mem_append]
      by_cases hg : (RTreeNode.Leaf t).mbr.min_dist2 origin ≤ radius2
      · by_cases hd : dist2 t origin < radius2
        · have hacc : acc2 = acc ++ [t] := by
            unfold_let acc2
            simp [hg, hd]
          rw [hacc] at hrest
          rw [if_pos hg, if_pos hd]
          rw [hrest o]
          simp only [List.mem_append, List.mem_singleton, RTreeNode.objs]
          constructor
          · rintro ((h | rfl) | h)
            · exact Or.inl h
            · exact Or.inr ⟨Or.inl rfl, hd⟩
            · exact Or.inr ⟨Or.inr h.1, h.2⟩
          · rintro (h | ⟨(rfl | hr), hlt⟩)
            · exact Or.inl (Or.inl h)
            · exact Or.inl (Or.inr rfl)
            · exact Or.inr ⟨hr, hlt⟩
        · have hacc : acc2 = acc := by
            unfold_let acc2
            simp [hg, hd]
          rw [hacc] at hrest
          rw [if_pos hg, if_neg hd]
          rw [hrest o]
          simp only [RTreeNode.objs, List.mem_singleton]
          constructor
          · rintro (h | h)
            · exact Or.inl h
            · exact Or.inr ⟨Or.inr h.1, h.2⟩
          · rintro (h | ⟨(rfl | hr), hlt⟩)
            · exact Or.inl h
            · exact absurd hlt hd
            · exact Or.inr ⟨hr, hlt⟩
      · have hacc : acc2 = acc := by
          unfold_let acc2
          simp [hg]
        rw [hacc] at hrest
        rw [if_neg hg]
        rw [hrest o]
        have hle : (RTreeNode.Leaf t).mbr.min_dist2 origin ≤ dist2 t origin :=
          Rect.min_dist2_le_dist2 (Rect.memR_ofPoint t) origin
        constructor
        · rintro (h | h)
          · exact Or.inl h
          · exact Or.inr ⟨Or.inr h.1, h.2⟩
        · rintro (h | ⟨hm, hlt⟩)
          · exact Or.inl h
          · rcases hm with hm | hm
            · rw [RTreeNode.objs, List.mem_singleton] at hm
              subst hm
              exact absurd (lt_of_le_of_lt hle hlt) (by omega)
            · exact Or.inr ⟨hm, hlt⟩
    · have hcs2 : RTreeNode.boxOkBList cs2 = true :=
        RTreeNode.boxOkB_children bb2 cs2 d2 hok.1
      have heq : lookup_in_circle (RTreeNode.DirectoryNode bb2 cs2 d2 :: rest) acc origin radius2
          = lookup_in_circle rest
              (if (RTreeNode.DirectoryNode bb2 cs2 d2).mbr.min_dist2 origin ≤ radius2 then
                lookup_in_circle cs2 acc origin radius2 else acc)
              origin radius2 := by
        rw [lookup_in_circle.eq_def]
      rw [heq]
      rw [RTreeNode.objsList, List.mem_append]
      by_cases hg : (RTreeNode.DirectoryNode bb2 cs2 d2).mbr.min_dist2 origin ≤ radius2
      · have hacc : acc2 = lookup_in_circle cs2 acc origin radius2 := by
          unfold_let acc2
          simp [hg]
        rw [hacc] at hrest
        rw [if_pos hg]
        rw [hrest o]
        rw [ihc hcs2 o]
        have hobjs : RTreeNode.objs (RTreeNode.DirectoryNode bb2 cs2 d2)
            = RTreeNode.objsList cs2 := rfl
        rw [hobjs]
        constructor
        · rintro ((h | ⟨h1, h2⟩) | ⟨h1, h2⟩)
          · exact Or.inl h
          · exact Or.inr ⟨Or.inl h1, h2⟩
          · exact Or.inr ⟨Or.inr h1, h2⟩
        · rintro (h | ⟨(hm | hm), hlt⟩)
          · exact Or.inl (Or.inl h)
          · exact Or.inl (Or.inr ⟨hm, hlt⟩)
          · exact Or.inr ⟨hm, hlt⟩
      · have hacc : acc2 = acc := by
          unfold_let acc2
          simp [hg]
        rw [hacc] at hrest
        rw [if_neg hg]
        rw [hrest o]
        constructor
        · rintro (h | h)
          · exact Or.inl h
          · exact Or.inr ⟨Or.inr h.1, h.2⟩
        · rintro (h | ⟨hm, hlt⟩)
          · exact Or.inl h
          · rcases hm with hm | hm
            · have hcov := RTreeNode.boxOk_covers.1 _ hok.1 o hm
              have hmem : Rect.memR o (RTreeNode.mbr (RTreeNode.DirectoryNode bb2 cs2 d2)) :=
                Rect.memR_mono (Rect.memR_ofPoint o) hcov
              have hle := Rect.min_dist2_le_dist2 hmem origin
              exact absurd (lt_of_le_of_lt hle hlt) (by omega)
            · exact Or.inr ⟨hm, hlt⟩

/-! Correctness and preservation of DirectoryNodeData::remove on
containment sound trees. -/

/-- update_mbr keeps containment soundness: the recomputed box contains
every child box by construction. -/
theorem update_mbr_boxOk {dd : DirectoryNodeData}
    (h : RTreeNode.boxOkBList dd.children = true) :
    RTreeNode.boxOkB (DirectoryNodeData.update_mbr dd).asNode = true := by
  rcases hmoc : DirectoryNodeData.mbrOfChildren dd.children with _ | u
  · have hcs := (DirectoryNodeData.mbrOfChildren_none_iff _).mp hmoc
    show RTreeNode.boxOkB (RTreeNode.DirectoryNode
      (DirectoryNodeData.mbrOfChildren dd.children) dd.children dd.depth) = true
    rw [hmoc, hcs]
    rfl
  · show RTreeNode.boxOkB (RTreeNode.DirectoryNode
      (DirectoryNodeData.mbrOfChildren dd.children) dd.children dd.depth) = true
    rw [hmoc]
    rw [RTreeNode.boxOkB_dir_some_iff]
    exact ⟨fun c hc => DirectoryNodeData.mbrOfChildren_mem_subset hc hmoc,
      (RTreeNode.boxOkBList_iff _).mp h⟩

/-- The result node of removeNode on a directory node is a directory
node. -/
theorem removeNode_dir_shape (bb : Option Rect) (cs : List RTreeNode) (d : Nat) (p : Pt) :
    ∃ bb2 cs2 d2, (removeNode (RTreeNode.DirectoryNode bb cs d) p).1
      = RTreeNode.DirectoryNode bb2 cs2 d2 := by
  have heq : removeNode (RTreeNode.DirectoryNode bb cs d) p =
      (if (match bb with | some r => r.contains_rect (objMbr p) | none => false) then
        match removeFromChildren cs p with
        | (cs2, some dropped) =>
          if dropped then ((DirectoryNodeData.update_mbr ⟨bb, cs2, d⟩).asNode, true)
          else (RTreeNode.DirectoryNode bb cs2 d, true)
        | (cs2, none) => (RTreeNode.DirectoryNode bb cs2 d, false)
      else (RTreeNode.DirectoryNode bb cs d, false)) := rfl
  rw [heq]
  split
  · rcases h : removeFromChildren cs p with ⟨cs2, v⟩
    rcases v with _ | dropped
    · simp only [h]
      exact ⟨_, _, _, rfl⟩
    · simp only [h]
      rcases dropped with _ | _
      · simp only [Bool.false_eq_true, if_false]
        exact ⟨_, _, _, rfl⟩
      · simp only [if_true]
        exact ⟨_, _, _, rfl⟩
  · exact ⟨_, _, _, rfl⟩

/-- Master lemma for remove: on a containment sound subtree with
nonempty directories, remove succeeds exactly when the object is stored,
removes exactly one copy of it, leaves the subtree untouched on failure,
keeps containment soundness and nonemptiness, and never grows any box. -/
theorem removeNode_master :
    (∀ (node : RTreeNode) (p : Pt),
      ∀ bb cs d, node = RTreeNode.DirectoryNode bb cs d →
      RTreeNode.boxOkB node = true →
      RTreeNode.nonemptyDirsBList cs = true →
      RTreeNode.boxOkB (removeNode node p).1 = true ∧
      RTreeNode.nonemptyDirsBList (removeNode node p).1.childrenOf = true ∧
      ((removeNode node p).2 = true ↔ p ∈ RTreeNode.objs node) ∧
      ((removeNode node p).2 = true → ∃ l1 l2,
        RTreeNode.objs node = l1 ++ p :: l2 ∧
        RTreeNode.objs (removeNode node p).1 = l1 ++ l2) ∧
      ((removeNode node p).2 = false → (removeNode node p).1 = node) ∧
      ((removeNode node p).1.childrenOf ≠ [] →
        Rect.subset (removeNode node p).1.mbr node.mbr)) ∧
    (∀ (cs : List RTreeNode) (p : Pt),
      RTreeNode.boxOkBList cs = true →
      RTreeNode.nonemptyDirsBList cs = true →
      RTreeNode.boxOkBList (removeFromChildren cs p).1 = true ∧
      RTreeNode.nonemptyDirsBList (removeFromChildren cs p).1 = true ∧
      ((removeFromChildren cs p).2 ≠ none ↔ p ∈ RTreeNode.objsList cs) ∧
      ((removeFromChildren cs p).2 ≠ none → ∃ l1 l2,
        RTreeNode.objsList cs = l1 ++ p :: l2 ∧
        RTreeNode.objsList (removeFromChildren cs p).1 = l1 ++ l2) ∧
      ((removeFromChildren cs p).2 = none → (removeFromChildren cs p).1 = cs) ∧
      (∀ u : Rect, (∀ c ∈ cs, Rect.subset c.mbr u) →
        ∀ c2 ∈ (removeFromChildren cs p).1, Rect.subset c2.mbr u)) := by
  apply removeNode.mutual_induct
    (motive_1 := fun node p =>
      ∀ bb cs d, node = RTreeNode.DirectoryNode bb cs d →
      RTreeNode.boxOkB node = true →
      RTreeNode.nonemptyDirsBList cs = true →
      RTreeNode.boxOkB (removeNode node p).1 = true ∧
      RTreeNode.nonemptyDirsBList (removeNode node p).1.childrenOf = true ∧
      ((removeNode node p).2 = true ↔ p ∈ RTreeNode.objs node) ∧
      ((removeNode node p).2 = true → ∃ l1 l2,
        RTreeNode.objs node = l1 ++ p :: l2 ∧
        RTreeNode.objs (removeNode node p).1 = l1 ++ l2) ∧
      ((removeNode node p).2 = false → (removeNode node p).1 = node) ∧
      ((removeNode node p).1.childrenOf ≠ [] →
        Rect.subset (removeNode node p).1.mbr node.mbr))
    (motive_2 := fun cs p =>
      RTreeNode.boxOkBList cs = true →
      RTreeNode.nonemptyDirsBList cs = true →
      RTreeNode.boxOkBList (removeFromChildren cs p).1 = true ∧
      RTreeNode.nonemptyDirsBList (removeFromChildren cs p).1 = true ∧
      ((removeFromChildren cs p).2 ≠ none ↔ p ∈ RTreeNode.objsList cs) ∧
      ((removeFromChildren cs p).2 ≠ none → ∃ l1 l2,
        RTreeNode.objsList cs = l1 ++ p :: l2 ∧
        RTreeNode.objsList (removeFromChildren cs p).1 = l1 ++ l2) ∧
      ((removeFromChildren cs p).2 = none → (removeFromChildren cs p).1 = cs) ∧
      (∀ u : Rect, (∀ c ∈ cs, Rect.subset c.mbr u) →
        ∀ c2 ∈ (removeFromChildren cs p).1, Rect.subset c2.mbr u))
  case _ =>
    intro p a bb cs d hnode
    exact absurd hnode (by simp)
  case _ =>
    intro p bb cs d hcont hc cs2 hrfc ih
    have hc2 : (match bb with | some r => r.contains_rect (objMbr p) | none => false)
        = true := hc
    clear hc hcont
    intro bb0 cs0 d0 hnode hok hnel
    injection hnode with e1 e2 e3
    subst e1
    subst e2
    subst e3
    have h0 : removeNode (RTreeNode.DirectoryNode bb cs d) p =
        (if (match bb with | some r => r.contains_rect (objMbr p) | none => false) then
          match removeFromChildren cs p with
          | (cs3, some dropped) =>
            if dropped then ((DirectoryNodeData.update_mbr ⟨bb, cs3, d⟩).asNode, true)
            else (RTreeNode.DirectoryNode bb cs3 d, true)
          | (cs3, none) => (RTreeNode.DirectoryNode bb cs3 d, false)
        else (RTreeNode.DirectoryNode bb cs d, false)) := rfl
    have heq : removeNode (RTreeNode.DirectoryNode bb cs d) p
        = ((DirectoryNodeData.update_mbr ⟨bb, cs2, d⟩).asNode, true) := by
      rw [h0, if_pos hc2, hrfc]
      rfl
    rcases bb with _ | rb
    · exact Bool.noConfusion hc2
    rw [RTreeNode.boxOkB_dir_some_iff] at hok
    obtain ⟨j1, j2, j3, j4, j5, j6⟩ := ih ((RTreeNode.boxOkBList_iff _).mpr hok.2) hnel
    rw [hrfc] at j1 j2 j3 j4 j5 j6
    have hj1 : RTreeNode.boxOkBList cs2 = true := j1
    have hj2 : RTreeNode.nonemptyDirsBList cs2 = true := j2
    rw [heq]
    refine ⟨?_, ?_, ?_, ?_, ?_, ?_⟩
    · exact update_mbr_boxOk hj1
    · exact hj2
    · constructor
      · intro _
        exact j3.mp (by simp)
      · intro _
        rfl
    · intro _
      obtain ⟨l1, l2, e1, e2⟩ := j4 (by simp)
      exact ⟨l1, l2, e1, e2⟩
    · intro h
      exact Bool.noConfusion h
    · intro hne2
      have hcs2 : cs2 ≠ [] := hne2
      obtain ⟨u, hmoc⟩ := DirectoryNodeData.mbrOfChildren_of_ne_nil hcs2
      have hmbr : (DirectoryNodeData.update_mbr
          (⟨some rb, cs2, d⟩ : DirectoryNodeData)).asNode.mbr = u := by
        show (DirectoryNodeData.mbrOfChildren cs2).getD default = u
        rw [hmoc]
        rfl
      rw [hmbr]
      have hnode : RTreeNode.mbr (RTreeNode.DirectoryNode (some rb) cs d) = rb := rfl
      rw [hnode]
      exact DirectoryNodeData.mbrOfChildren_lub hmoc (j6 rb hok.1)
  case _ =>
    intro p bb cs d hcont hc cs2 dropped hrfc hdropped ih
    have hc2 : (match bb with | some r => r.contains_rect (objMbr p) | none => false)
        = true := hc
    clear hc hcont
    intro bb0 cs0 d0 hnode hok hnel
    injection hnode with e1 e2 e3
    subst e1
    subst e2
    subst e3
    have hdf : dropped = false := by
      cases h2 : dropped
      · rfl
      · exact absurd h2 hdropped
    subst hdf
    have h0 : removeNode (RTreeNode.DirectoryNode bb cs d) p =
        (if (match bb with | some r => r.contains_rect (objMbr p) | none => false) then
          match removeFromChildren cs p with
          | (cs3, some dropped) =>
            if dropped then ((DirectoryNodeData.update_mbr ⟨bb, cs3, d⟩).asNode, true)
            else (RTreeNode.DirectoryNode bb cs3 d, true)
          | (cs3, none) => (RTreeNode.DirectoryNode bb cs3 d, false)
        else (RTreeNode.DirectoryNode bb cs d, false)) := rfl
    have heq : removeNode (RTreeNode.DirectoryNode bb cs d) p
        = (RTreeNode.DirectoryNode bb cs2 d, true) := by
      rw [h0, if_pos hc2, hrfc]
      rfl
    rcases bb with _ | rb
    · exact Bool.noConfusion hc2
    rw [RTreeNode.boxOkB_dir_some_iff] at hok
    obtain ⟨j1, j2, j3, j4, j5, j6⟩ := ih ((RTreeNode.boxOkBList_iff _).mpr hok.2) hnel
    rw [hrfc] at j1 j2 j3 j4 j5 j6
    have hj1 : RTreeNode.boxOkBList cs2 = true := j1
    have hj2 : RTreeNode.nonemptyDirsBList cs2 = true := j2
    rw [heq]
    refine ⟨?_, ?_, ?_, ?_, ?_, ?_⟩
    · rw [RTreeNode.boxOkB_dir_some_iff]
      refine ⟨?_, (RTreeNode.boxOkBList_iff _).mp hj1⟩
      intro c hc3
      exact j6 rb hok.1 c hc3
    · exact hj2
    · constructor
      · intro _
        exact j3.mp (by simp)
      · intro _
        rfl
    · intro _
      obtain ⟨l1, l2, e1, e2⟩ := j4 (by simp)
      exact ⟨l1, l2, e1, e2⟩
    · intro h
      exact Bool.noConfusion h
    · intro _
      exact Rect.subset_refl _
  case _ =>
    intro p bb cs d hcont hc cs2 hrfc ih
    have hc2 : (match bb with | some r => r.contains_rect (objMbr p) | none => false)
        = true := hc
    clear hc hcont
    intro bb0 cs0 d0 hnode hok hnel
    injection hnode with e1 e2 e3
    subst e1
    subst e2
    subst e3
    have h0 : removeNode (RTreeNode.DirectoryNode bb cs d) p =
        (if (match bb with | some r => r.contains_rect (objMbr p) | none => false) then
          match removeFromChildren cs p with
          | (cs3, some dropped) =>
            if dropped then ((DirectoryNodeData.update_mbr ⟨bb, cs3, d⟩).asNode, true)
            else (RTreeNode.DirectoryNode bb cs3 d, true)
          | (cs3, none) => (RTreeNode.DirectoryNode bb cs3 d, false)
        else (RTreeNode.DirectoryNode bb cs d, false)) := rfl
    have heq : removeNode (RTreeNode.DirectoryNode bb cs d) p
        = (RTreeNode.DirectoryNode bb cs2 d, false) := by
      rw [h0, if_pos hc2, hrfc]
    obtain ⟨j1, j2, j3, j4, j5, j6⟩ := ih (RTreeNode.boxOkB_children bb cs d hok) hnel
    rw [hrfc] at j3 j5
    have hcs2 : cs2 = cs := j5 rfl
    subst hcs2
    rw [heq]
    refine ⟨?_, ?_, ?_, ?_, ?_, ?_⟩
    · exact hok
    · exact hnel
    · constructor
      · intro h
        exact Bool.noConfusion h
      · intro hmem
        have := j3.mpr hmem
        simp at this
    · intro h
      exact Bool.noConfusion h
    · intro _
      rfl
    · intro _
      exact Rect.subset_refl _
  case _ =>
    intro p bb cs d hcont hc
    have hc2 : ¬ (match bb with | some r => r.contains_rect (objMbr p) | none => false)
        = true := hc
    clear hc hcont
    intro bb0 cs0 d0 hnode hok hnel
    injection hnode with e1 e2 e3
    subst e1
    subst e2
    subst e3
    have h0 : removeNode (RTreeNode.DirectoryNode bb cs d) p =
        (if (match bb with | some r => r.contains_rect (objMbr p) | none => false) then
          match removeFromChildren cs p with
          | (cs3, some dropped) =>
            if dropped then ((DirectoryNodeData.update_mbr ⟨bb, cs3, d⟩).asNode, true)
            else (RTreeNode.DirectoryNode bb cs3 d, true)
          | (cs3, none) => (RTreeNode.DirectoryNode bb cs3 d, false)
        else (RTreeNode.DirectoryNode bb cs d, false)) := rfl
    have heq : removeNode (RTreeNode.DirectoryNode bb cs d) p
        = (RTreeNode.DirectoryNode bb cs d, false) := by
      rw [h0, if_neg hc2]
    rw [heq]
    refine ⟨hok, hnel, ?_, ?_, fun _ => rfl, fun _ => Rect.subset_refl _⟩
    · constructor
      · intro h
        exact Bool.noConfusion h
      · intro hmem
        exfalso
        apply hc2
        rcases bb with _ | rb
        · rw [RTreeNode.boxOkB_dir_none_iff] at hok
          subst hok
          rw [RTreeNode.objs] at hmem
          rw [RTreeNode.objsList] at hmem
          cases hmem
        · have hcov := RTreeNode.boxOk_covers.1 _ hok p hmem
          show rb.contains_rect (objMbr p) = true
          have hmbr : RTreeNode.mbr (RTreeNode.DirectoryNode (some rb) cs d) = rb := rfl
          rw [hmbr] at hcov
          exact Rect.contains_rect_iff.mpr hcov
    · intro h
      exact Bool.noConfusion h
  case _ =>
    intro p hok hnel
    refine ⟨rfl, rfl, ?_, ?_, fun _ => rfl, ?_⟩
    · constructor
      · intro h
        exact absurd rfl h
      · intro hmem
        rw [RTreeNode.objsList] at hmem
        cases hmem
    · intro h
      exact absurd rfl h
    · intro u hu c2 hc2
      cases hc2
  case _ =>
    intro rest p bb cs d1 bb3 cs3 d3 hemp r hr2 hr1 ihn hok hnel
    rw [RTreeNode.boxOkBList, Bool.and_eq_true] at hok
    rw [RTreeNode.nonemptyDirsBList, Bool.and_eq_true] at hnel
    have hnedir := hnel.1
    rw [RTreeNode.nonemptyDirsB_dir_iff] at hnedir
    obtain ⟨m1, m2, m3, m4, m5, m6⟩ := ihn bb cs d1 rfl hok.1
      ((RTreeNode.nonemptyDirsBList_iff _).mpr hnedir.2)
    have heq : removeFromChildren (RTreeNode.DirectoryNode bb cs d1 :: rest) p
        = (rest, some true) := by
      have h0 : removeFromChildren (RTreeNode.DirectoryNode bb cs d1 :: rest) p
          = (if (removeNode (RTreeNode.DirectoryNode bb cs d1) p).2 then
              match (removeNode (RTreeNode.DirectoryNode bb cs d1) p).1 with
              | RTreeNode.DirectoryNode bb4 cs4 d4 =>
                if cs4.isEmpty then (rest, some true)
                else (RTreeNode.DirectoryNode bb4 cs4 d4 :: rest, some false)
              | RTreeNode.Leaf p4 => (RTreeNode.Leaf p4 :: rest, some false)
            else ((removeNode (RTreeNode.DirectoryNode bb cs d1) p).1
                :: (removeFromChildren rest p).1, (removeFromChildren rest p).2)) := rfl
      rw [h0, hr2, hr1]
      simp only [if_true, hemp]
    have hpm : p ∈ RTreeNode.objs (RTreeNode.DirectoryNode bb cs d1) := m3.mp hr2
    obtain ⟨l1, l2, e1, e2⟩ := m4 hr2
    have hobjs1 : RTreeNode.objs (removeNode (RTreeNode.DirectoryNode bb cs d1) p).1
        = ([] : List Pt) := by
      rw [hr1]
      have : RTreeNode.objs (RTreeNode.DirectoryNode bb3 cs3 d3)
          = RTreeNode.objsList cs3 := rfl
      rw [this]
      have hcs3 : cs3 = [] := List.isEmpty_iff.mp hemp
      subst hcs3
      rfl
    rw [hobjs1] at e2
    obtain ⟨hl1, hl2⟩ := List.append_eq_nil.mp e2.symm
    subst hl1
    subst hl2
    rw [heq]
    refine ⟨hok.2, hnel.2, ?_, ?_, ?_, ?_⟩
    · constructor
      · intro _
        rw [RTreeNode.objsList, List.mem_append]
        exact Or.inl hpm
      · intro _
        simp
    · intro _
      refine ⟨[], RTreeNode.objsList rest, ?_, rfl⟩
      rw [RTreeNode.objsList]
      simp only [List.nil_append] at e1 ⊢
      rw [e1]
      rfl
    · intro h
      exact Option.noConfusion h
    · intro u hu c2 hc2
      exact hu c2 (List.mem_cons_of_mem _ hc2)
  case _ =>
    intro rest p bb cs d1 bb3 cs3 d3 hemp r hr2 hr1 ihn hok hnel
    rw [RTreeNode.boxOkBList, Bool.and_eq_true] at hok
    rw [RTreeNode.nonemptyDirsBList, Bool.and_eq_true] at hnel
    have hnedir := hnel.1
    rw [RTreeNode.nonemptyDirsB_dir_iff] at hnedir
    obtain ⟨m1, m2, m3, m4, m5, m6⟩ := ihn bb cs d1 rfl hok.1
      ((RTreeNode.nonemptyDirsBList_iff _).mpr hnedir.2)
    have hempf : cs3.isEmpty = false := by
      cases h2 : cs3.isEmpty
      · rfl
      · exact absurd h2 hemp
    have hcs3 : cs3 ≠ [] := by
      intro h2
      subst h2
      simp at hempf
    have heq : removeFromChildren (RTreeNode.DirectoryNode bb cs d1 :: rest) p
        = (RTreeNode.DirectoryNode bb3 cs3 d3 :: rest, some false) := by
      have h0 : removeFromChildren (RTreeNode.DirectoryNode bb cs d1 :: rest) p
          = (if (removeNode (RTreeNode.DirectoryNode bb cs d1) p).2 then
              match (removeNode (RTreeNode.DirectoryNode bb cs d1) p).1 with
              | RTreeNode.DirectoryNode bb4 cs4 d4 =>
                if cs4.isEmpty then (rest, some true)
                else (RTreeNode.DirectoryNode bb4 cs4 d4 :: rest, some false)
              | RTreeNode.Leaf p4 => (RTreeNode.Leaf p4 :: rest, some false)
            else ((removeNode (RTreeNode.DirectoryNode bb cs d1) p).1
                :: (removeFromChildren rest p).1, (removeFromChildren rest p).2)) := rfl
      rw [h0, hr2, hr1]
      simp only [if_true, hempf, Bool.false_eq_true, if_false]
    rw [hr1] at m1 m2 m6
    rw [heq]
    refine ⟨?_, ?_, ?_, ?_, ?_, ?_⟩
    · rw [RTreeNode.boxOkBList, Bool.and_eq_true]
      exact ⟨m1, hok.2⟩
    · rw [RTreeNode.nonemptyDirsBList, Bool.and_eq_true]
      refine ⟨?_, hnel.2⟩
      rw [RTreeNode.nonemptyDirsB_dir_iff]
      exact ⟨hcs3, (RTreeNode.nonemptyDirsBList_iff _).mp m2⟩
    · constructor
      · intro _
        rw [RTreeNode.objsList, List.mem_append]
        exact Or.inl (m3.mp hr2)
      · intro _
        simp
    · intro _
      obtain ⟨l1, l2, e1, e2⟩ := m4 hr2
      refine ⟨l1, l2 ++ RTreeNode.objsList rest, ?_, ?_⟩
      · rw [RTreeNode.objsList, e1]
        simp
      · have hobjs : RTreeNode.objsList (RTreeNode.DirectoryNode bb3 cs3 d3 :: rest)
            = RTreeNode.objs (RTreeNode.DirectoryNode bb3 cs3 d3)
              ++ RTreeNode.objsList rest := by
          rw [RTreeNode.objsList]
        rw [hobjs]
        rw [hr1] at e2
        rw [e2]
        simp
    · intro h
      exact Option.noConfusion h
    · intro u hu c2 hc2
      rcases List.mem_cons.mp hc2 with rfl | hc2
      · refine Rect.subset_trans (m6 hcs3) ?_
        exact hu _ (List.mem_cons_self _ _)
      · exact hu c2 (List.mem_cons_of_mem _ hc2)
  case _ =>
    intro rest p bb cs d1 t r hr2 hr1 ihn hok hnel
    obtain ⟨b2, c2, d2, hshape⟩ := removeNode_dir_shape bb cs d1 p
    have hr1c : (removeNode (RTreeNode.DirectoryNode bb cs d1) p).1 = RTreeNode.Leaf t := hr1
    rw [hshape] at hr1c
    exact RTreeNode.noConfusion hr1c
  case _ =>
    intro rest p bb cs d1 r hr2 ihn ihl hok hnel
    rw [RTreeNode.boxOkBList, Bool.and_eq_true] at hok
    rw [RTreeNode.nonemptyDirsBList, Bool.and_eq_true] at hnel
    have hnedir := hnel.1
    rw [RTreeNode.nonemptyDirsB_dir_iff] at hnedir
    obtain ⟨m1, m2, m3, m4, m5, m6⟩ := ihn bb cs d1 rfl hok.1
      ((RTreeNode.nonemptyDirsBList_iff _).mpr hnedir.2)
    obtain ⟨l1, l2, l3, l4, l5, l6⟩ := ihl hok.2 hnel.2
    have hr2n : ¬((removeNode (RTreeNode.DirectoryNode bb cs d1) p).2 = true) := hr2
    have hr2f : (removeNode (RTreeNode.DirectoryNode bb cs d1) p).2 = false := by
      cases h2 : (removeNode (RTreeNode.DirectoryNode bb cs d1) p).2
      · rfl
      · exact absurd h2 hr2n
    have hunch := m5 hr2f
    have heq : removeFromChildren (RTreeNode.DirectoryNode bb cs d1 :: rest) p
        = (RTreeNode.DirectoryNode bb cs d1 :: (removeFromChildren rest p).1,
            (removeFromChildren rest p).2) := by
      have h0 : removeFromChildren (RTreeNode.DirectoryNode bb cs d1 :: rest) p
          = (if (removeNode (RTreeNode.DirectoryNode bb cs d1) p).2 then
              match (removeNode (RTreeNode.DirectoryNode bb cs d1) p).1 with
              | RTreeNode.DirectoryNode bb4 cs4 d4 =>
                if cs4.isEmpty then (rest, some true)
                else (RTreeNode.DirectoryNode bb4 cs4 d4 :: rest, some false)
              | RTreeNode.Leaf p4 => (RTreeNode.Leaf p4 :: rest, some false)
            else ((removeNode (RTreeNode.DirectoryNode bb cs d1) p).1
                :: (removeFromChildren rest p).1, (removeFromChildren rest p).2)) := rfl
      rw [h0, if_neg hr2n, hunch]
    rw [heq]
    refine ⟨?_, ?_, ?_, ?_, ?_, ?_⟩
    · rw [RTreeNode.boxOkBList, Bool.and_eq_true]
      exact ⟨hok.1, l1⟩
    · rw [RTreeNode.nonemptyDirsBList, Bool.and_eq_true]
      exact ⟨hnel.1, l2⟩
    · constructor
      · intro h
        rw [RTreeNode.objsList, List.mem_append]
        exact Or.inr (l3.mp h)
      · intro hmem
        rw [RTreeNode.objsList, List.mem_append] at hmem
        rcases hmem with hmem | hmem
        · exact absurd (m3.mpr hmem) (by rw [hr2f]; simp)
        · exact l3.mpr hmem
    · intro h
      obtain ⟨l1x, l2x, e1, e2⟩ := l4 h
      refine ⟨RTreeNode.objs (RTreeNode.DirectoryNode bb cs d1) ++ l1x, l2x, ?_, ?_⟩
      · rw [RTreeNode.objsList, e1]
        simp
      · have hobjs : RTreeNode.objsList (RTreeNode.DirectoryNode bb cs d1
            :: (removeFromChildren rest p).1)
            = RTreeNode.objs (RTreeNode.DirectoryNode bb cs d1)
              ++ RTreeNode.objsList (removeFromChildren rest p).1 := by
          rw [RTreeNode.objsList]
        rw [hobjs, e2]
        simp
    · intro h
      rw [l5 h]
    · intro u hu c2 hc2
      rcases List.mem_cons.mp hc2 with rfl | hc2
      · exact hu _ (List.mem_cons_self _ _)
      · exact l6 u (fun c3 hc3 => hu c3 (List.mem_cons_of_mem _ hc3)) c2 hc2
  case _ =>
    intro rest t hok hnel
    rw [RTreeNode.boxOkBList, Bool.and_eq_true] at hok
    rw [RTreeNode.nonemptyDirsBList, Bool.and_eq_true] at hnel
    have heq : removeFromChildren (RTreeNode.Leaf t :: rest) t = (rest, some true) := by
      have h0 : removeFromChildren (RTreeNode.Leaf t :: rest) t
          = (if t = t then (rest, some true)
            else (RTreeNode.Leaf t :: (removeFromChildren rest t).1,
              (removeFromChildren rest t).2)) := rfl
      rw [h0, if_pos rfl]
    rw [heq]
    refine ⟨hok.2, hnel.2, ?_, ?_, ?_, ?_⟩
    · constructor
      · intro _
        rw [RTreeNode.objsList, List.mem_append]
        exact Or.inl (List.mem_singleton_self _)
      · intro _
        simp
    · intro _
      refine ⟨[], RTreeNode.objsList rest, ?_, rfl⟩
      rw [RTreeNode.objsList]
      rfl
    · intro h
      exact Option.noConfusion h
    · intro u hu c2 hc2
      exact hu c2 (List.mem_cons_of_mem _ hc2)
  case _ =>
    intro rest p t hne ihl hok hnel
    rw [RTreeNode.boxOkBList, Bool.and_eq_true] at hok
    rw [RTreeNode.nonemptyDirsBList, Bool.and_eq_true] at hnel
    obtain ⟨l1, l2, l3, l4, l5, l6⟩ := ihl hok.2 hnel.2
    have heq : removeFromChildren (RTreeNode.Leaf t :: rest) p
        = (RTreeNode.Leaf t :: (removeFromChildren rest p).1,
            (removeFromChildren rest p).2) := by
      have h0 : removeFromChildren (RTreeNode.Leaf t :: rest) p
          = (if t = p then (rest, some true)
            else (RTreeNode.Leaf t :: (removeFromChildren rest p).1,
              (removeFromChildren rest p).2)) := rfl
      rw [h0, if_neg hne]
    rw [heq]
    refine ⟨?_, ?_, ?_, ?_, ?_, ?_⟩
    · rw [RTreeNode.boxOkBList, Bool.and_eq_true]
      exact ⟨hok.1, l1⟩
    · rw [RTreeNode.nonemptyDirsBList, Bool.and_eq_true]
      exact ⟨hnel.1, l2⟩
    · constructor
      · intro h
        rw [RTreeNode.objsList, List.mem_append]
        exact Or.inr (l3.mp h)
      · intro hmem
        rw [RTreeNode.objsList, List.mem_append] at hmem
        rcases hmem with hmem | hmem
        · rw [RTreeNode.objs, List.mem_singleton] at hmem
          exact absurd hmem.symm hne
        · exact l3.mpr hmem
    · intro h
      obtain ⟨l1x, l2x, e1, e2⟩ := l4 h
      refine ⟨t :: l1x, l2x, ?_, ?_⟩
      · rw [RTreeNode.objsList, e1]
        rfl
      · have hobjs : RTreeNode.objsList (RTreeNode.Leaf t
            :: (removeFromChildren rest p).1)
            = RTreeNode.objs (RTreeNode.Leaf t)
              ++ RTreeNode.objsList (removeFromChildren rest p).1 := by
          rw [RTreeNode.objsList]
        rw [hobjs, e2]
        rfl
    · intro h
      rw [l5 h]
    · intro u hu c2 hc2
      rcases List.mem_cons.mp hc2 with rfl | hc2
      · exact hu _ (List.mem_cons_self _ _)
      · exact l6 u (fun c3 hc3 => hu c3 (List.mem_cons_of_mem _ hc3)) c2 hc2

/-- Covers analogue of the lookup_and_remove preservation: on a
containment sound subtree, the drain keeps containment soundness and
nonemptiness below, never grows any box, leaves the subtree untouched
when it removed nothing, and strictly shrinks the stored objects when it
removed something. -/
theorem larNode_covers :
    (∀ (node : RTreeNode) (point : Pt),
      RTreeNode.boxOkB node = true →
      RTreeNode.nonemptyDirsBList node.childrenOf = true →
      RTreeNode.boxOkB (larNode node point).1 = true ∧
      RTreeNode.nonemptyDirsBList (larNode node point).1.childrenOf = true ∧
      ((larNode node point).1.childrenOf ≠ [] →
        Rect.subset (larNode node point).1.mbr node.mbr) ∧
      ((larNode node point).2 = none → (larNode node point).1 = node) ∧
      (RTreeNode.objs (larNode node point).1).length ≤ (RTreeNode.objs node).length ∧
      (∀ v, (larNode node point).2 = some v →
        (RTreeNode.objs (larNode node point).1).length < (RTreeNode.objs node).length)) ∧
    (∀ (cs : List RTreeNode) (point : Pt),
      RTreeNode.boxOkBList cs = true →
      RTreeNode.nonemptyDirsBList cs = true →
      RTreeNode.boxOkBList (larChildren cs point).1 = true ∧
      RTreeNode.nonemptyDirsBList (larChildren cs point).1 = true ∧
      (∀ u : Rect, (∀ c ∈ cs, Rect.subset c.mbr u) →
        ∀ c2 ∈ (larChildren cs point).1, Rect.subset c2.mbr u) ∧
      ((larChildren cs point).2 = none → (larChildren cs point).1 = cs) ∧
      (RTreeNode.objsList (larChildren cs point).1).length
        ≤ (RTreeNode.objsList cs).length ∧
      (∀ v, (larChildren cs point).2 = some v →
        (RTreeNode.objsList (larChildren cs point).1).length
          < (RTreeNode.objsList cs).length)) := by
  apply larNode.mutual_induct
    (motive_1 := fun node point2 =>
      RTreeNode.boxOkB node = true →
      RTreeNode.nonemptyDirsBList node.childrenOf = true →
      RTreeNode.boxOkB (larNode node point2).1 = true ∧
      RTreeNode.nonemptyDirsBList (larNode node point2).1.childrenOf = true ∧
      ((larNode node point2).1.childrenOf ≠ [] →
        Rect.subset (larNode node point2).1.mbr node.mbr) ∧
      ((larNode node point2).2 = none → (larNode node point2).1 = node) ∧
      (RTreeNode.objs (larNode node point2).1).length ≤ (RTreeNode.objs node).length ∧
      (∀ v, (larNode node point2).2 = some v →
        (RTreeNode.objs (larNode node point2).1).length < (RTreeNode.objs node).length))
    (motive_2 := fun cs point2 =>
      RTreeNode.boxOkBList cs = true →
      RTreeNode.nonemptyDirsBList cs = true →
      RTreeNode.boxOkBList (larChildren cs point2).1 = true ∧
      RTreeNode.nonemptyDirsBList (larChildren cs point2).1 = true ∧
      (∀ u : Rect, (∀ c ∈ cs, Rect.subset c.mbr u) →
        ∀ c2 ∈ (larChildren cs point2).1, Rect.subset c2.mbr u) ∧
      ((larChildren cs point2).2 = none → (larChildren cs point2).1 = cs) ∧
      (RTreeNode.objsList (larChildren cs point2).1).length
        ≤ (RTreeNode.objsList cs).length ∧
      (∀ v, (larChildren cs point2).2 = some v →
        (RTreeNode.objsList (larChildren cs point2).1).length
          < (RTreeNode.objsList cs).length))
  case _ =>
    intro point a hok hne
    exact ⟨hok, hne, fun _ => Rect.subset_refl _, fun _ => rfl, le_refl _,
      fun v hv => absurd hv (by simp [larNode])⟩
  case _ =>
    intro point bb cs d hcont hc cs2 v hlc ih
    have hc2 : (match bb with | some r => r.contains_point point | none => false)
        = true := hc
    clear hc hcont
    intro hok hne
    have h0 : larNode (RTreeNode.DirectoryNode bb cs d) point =
        (if (match bb with | some r => r.contains_point point | none => false) then
          match larChildren cs point with
          | (cs3, some w) => ((DirectoryNodeData.update_mbr ⟨bb, cs3, d⟩).asNode, some w)
          | (cs3, none) => (RTreeNode.DirectoryNode bb cs3 d, none)
        else (RTreeNode.DirectoryNode bb cs d, none)) := rfl
    have heq : larNode (RTreeNode.DirectoryNode bb cs d) point
        = ((DirectoryNodeData.update_mbr ⟨bb, cs2, d⟩).asNode, some v) := by
      rw [h0, if_pos hc2, hlc]
    rcases bb with _ | rb
    · exact Bool.noConfusion hc2
    rw [RTreeNode.boxOkB_dir_some_iff] at hok
    obtain ⟨c1, c2, c3, c4, c5, c6⟩ := ih ((RTreeNode.boxOkBList_iff _).mpr hok.2) hne
    rw [hlc] at c1 c2 c3 c5 c6
    have hj1 : RTreeNode.boxOkBList cs2 = true := c1
    have hj2 : RTreeNode.nonemptyDirsBList cs2 = true := c2
    rw [heq]
    refine ⟨update_mbr_boxOk hj1, hj2, ?_, ?_, ?_, ?_⟩
    · intro hne2
      have hcs2 : cs2 ≠ [] := hne2
      obtain ⟨u, hmoc⟩ := DirectoryNodeData.mbrOfChildren_of_ne_nil hcs2
      have hmbr : (DirectoryNodeData.update_mbr
          (⟨some rb, cs2, d⟩ : DirectoryNodeData)).asNode.mbr = u := by
        show (DirectoryNodeData.mbrOfChildren cs2).getD default = u
        rw [hmoc]
        rfl
      rw [hmbr]
      have hnmbr : RTreeNode.mbr (RTreeNode.DirectoryNode (some rb) cs d) = rb := rfl
      rw [hnmbr]
      exact DirectoryNodeData.mbrOfChildren_lub hmoc (c3 rb hok.1)
    · intro h
      exact absurd h (by simp)
    · exact le_of_lt (c6 v rfl)
    · intro v2 hv2
      exact c6 v rfl
  case _ =>
    intro point bb cs d hcont hc cs2 hlc ih
    have hc2 : (match bb with | some r => r.contains_point point | none => false)
        = true := hc
    clear hc hcont
    intro hok hne
    have h0 : larNode (RTreeNode.DirectoryNode bb cs d) point =
        (if (match bb with | some r => r.contains_point point | none => false) then
          match larChildren cs point with
          | (cs3, some w) => ((DirectoryNodeData.update_mbr ⟨bb, cs3, d⟩).asNode, some w)
          | (cs3, none) => (RTreeNode.DirectoryNode bb cs3 d, none)
        else (RTreeNode.DirectoryNode bb cs d, none)) := rfl
    have heq : larNode (RTreeNode.DirectoryNode bb cs d) point
        = (RTreeNode.DirectoryNode bb cs2 d, none) := by
      rw [h0, if_pos hc2, hlc]
    rcases bb with _ | rb
    · exact Bool.noConfusion hc2
    rw [RTreeNode.boxOkB_dir_some_iff] at hok
    obtain ⟨c1, c2, c3, c4, c5, c6⟩ := ih ((RTreeNode.boxOkBList_iff _).mpr hok.2) hne
    rw [hlc] at c4
    have hcs2 : cs2 = cs := c4 rfl
    subst hcs2
    rw [heq]
    refine ⟨?_, hne, fun _ => Rect.subset_refl _, fun _ => rfl, le_refl _, ?_⟩
    · rw [RTreeNode.boxOkB_dir_some_iff]
      exact ⟨hok.1, hok.2⟩
    · intro v2 hv2
      exact absurd hv2 (by simp)
  case _ =>
    intro point bb cs d hcont hc
    have hc2 : ¬ (match bb with | some r => r.contains_point point | none => false)
        = true := hc
    clear hc hcont
    intro hok hne
    have h0 : larNode (RTreeNode.DirectoryNode bb cs d) point =
        (if (match bb with | some r => r.contains_point point | none => false) then
          match larChildren cs point with
          | (cs3, some w) => ((DirectoryNodeData.update_mbr ⟨bb, cs3, d⟩).asNode, some w)
          | (cs3, none) => (RTreeNode.DirectoryNode bb cs3 d, none)
        else (RTreeNode.DirectoryNode bb cs d, none)) := rfl
    have heq : larNode (RTreeNode.DirectoryNode bb cs d) point
        = (RTreeNode.DirectoryNode bb cs d, none) := by
      rw [h0, if_neg hc2]
    rw [heq]
    refine ⟨hok, hne, fun _ => Rect.subset_refl _, fun _ => rfl, le_refl _, ?_⟩
    intro v2 hv2
    exact absurd hv2 (by simp)
  case _ =>
    intro point hok hne
    refine ⟨hok, hne, ?_, fun _ => rfl, le_refl _, ?_⟩
    · intro u hu c2 hc2
      have hnil : (larChildren ([] : List RTreeNode) point).1 = [] := rfl
      rw [hnil] at hc2
      cases hc2
    · intro v hv
      have hnil2 : (larChildren ([] : List RTreeNode) point).2 = none := rfl
      rw [hnil2] at hv
      cases hv
  case _ =>
    intro rest point bb cs d ihn ihl hok hnel
    rw [RTreeNode.boxOkBList, Bool.and_eq_true] at hok
    rw [RTreeNode.nonemptyDirsBList, Bool.and_eq_true] at hnel
    have hnedir := hnel.1
    rw [RTreeNode.nonemptyDirsB_dir_iff] at hnedir
    obtain ⟨n1, n2, n3, n4, n5, n6⟩ := ihn hok.1
      ((RTreeNode.nonemptyDirsBList_iff _).mpr hnedir.2)
    obtain ⟨l1, l2, l3, l4, l5, l6⟩ := ihl hok.2 hnel.2
    obtain ⟨bb3, cs3, d3, hshape⟩ := larNode_dir_shape bb cs d point
    have heq : larChildren (RTreeNode.DirectoryNode bb cs d :: rest) point
        = (match (larNode (RTreeNode.DirectoryNode bb cs d) point).1 with
           | RTreeNode.DirectoryNode bb4 cs4 d4 =>
             if cs4.isEmpty then (larChildren rest point).1
             else RTreeNode.DirectoryNode bb4 cs4 d4 :: (larChildren rest point).1
           | RTreeNode.Leaf p4 => RTreeNode.Leaf p4 :: (larChildren rest point).1,
           match (larChildren rest point).2 with
           | some v => some v
           | none => (larNode (RTreeNode.DirectoryNode bb cs d) point).2) := rfl
    have heq2 : larChildren (RTreeNode.DirectoryNode bb cs d :: rest) point
        = (if cs3.isEmpty then (larChildren rest point).1
           else RTreeNode.DirectoryNode bb3 cs3 d3 :: (larChildren rest point).1,
           match (larChildren rest point).2 with
           | some v => some v
           | none => (larNode (RTreeNode.DirectoryNode bb cs d) point).2) := by
      rw [heq, hshape]
    have hobjres : RTreeNode.objs (larNode (RTreeNode.DirectoryNode bb cs d) point).1
        = RTreeNode.objsList cs3 := by
      rw [hshape]
      rfl
    have hobjc : RTreeNode.objs (RTreeNode.DirectoryNode bb cs d)
        = RTreeNode.objsList cs := rfl
    rw [hshape] at n1 n2 n3 n4
    rw [hobjres, hobjc] at n5 n6
    have hcons : RTreeNode.objsList (RTreeNode.DirectoryNode bb cs d :: rest)
        = RTreeNode.objsList cs ++ RTreeNode.objsList rest := by
      rw [RTreeNode.objsList]
      rfl
    rcases hemp : cs3.isEmpty with _ | _
    · have hfst : (larChildren (RTreeNode.DirectoryNode bb cs d :: rest) point).1
          = RTreeNode.DirectoryNode bb3 cs3 d3 :: (larChildren rest point).1 := by
        rw [heq2, hemp]
        rfl
      have hcs3 : cs3 ≠ [] := by
        intro h2
        subst h2
        simp at hemp
      have hobjf : RTreeNode.objsList
          (larChildren (RTreeNode.DirectoryNode bb cs d :: rest) point).1
          = RTreeNode.objsList cs3
            ++ RTreeNode.objsList (larChildren rest point).1 := by
        rw [hfst, RTreeNode.objsList]
        rfl
      refine ⟨?_, ?_, ?_, ?_, ?_, ?_⟩
      · rw [hfst, RTreeNode.boxOkBList, Bool.and_eq_true]
        exact ⟨n1, l1⟩
      · rw [hfst, RTreeNode.nonemptyDirsBList, Bool.and_eq_true]
        refine ⟨?_, l2⟩
        rw [RTreeNode.nonemptyDirsB_dir_iff]
        exact ⟨hcs3, (RTreeNode.nonemptyDirsBList_iff _).mp n2⟩
      · intro u hu c2 hc2
        rw [hfst] at hc2
        rcases List.mem_cons.mp hc2 with rfl | hc2
        · refine Rect.subset_trans (n3 hcs3) ?_
          exact hu _ (List.mem_cons_self _ _)
        · exact l3 u (fun c3x hc3x => hu c3x (List.mem_cons_of_mem _ hc3x)) c2 hc2
      · intro h
        rcases htail : (larChildren rest point).2 with _ | v
        · have hsnd : (larChildren (RTreeNode.DirectoryNode bb cs d :: rest) point).2
              = (larNode (RTreeNode.DirectoryNode bb cs d) point).2 := by
            rw [heq2, htail]
          rw [hsnd] at h
          have hunch := n4 h
          injection hunch with e1 e2 e3
          subst e1
          subst e2
          subst e3
          rw [hfst, l4 htail]
        · have hsnd : (larChildren (RTreeNode.DirectoryNode bb cs d :: rest) point).2
              = some v := by
            rw [heq2, htail]
          rw [hsnd] at h
          cases h
      · rw [hobjf, hcons]
        simp only [List.length_append]
        omega
      · intro v hv
        rw [hobjf, hcons]
        simp only [List.length_append]
        rcases htail : (larChildren rest point).2 with _ | v2
        · have hsnd : (larChildren (RTreeNode.DirectoryNode bb cs d :: rest) point).2
              = (larNode (RTreeNode.DirectoryNode bb cs d) point).2 := by
            rw [heq2, htail]
          rw [hsnd] at hv
          have hhead := n6 v hv
          have htl := l5
          omega
        · have hhd := n5
          have htl := l6 v2 htail
          omega
    · have hfst : (larChildren (RTreeNode.DirectoryNode bb cs d :: rest) point).1
          = (larChildren rest point).1 := by
        rw [heq2, hemp]
        rfl
      have hcs3 : cs3 = [] := List.isEmpty_iff.mp hemp
      refine ⟨?_, ?_, ?_, ?_, ?_, ?_⟩
      · rw [hfst]
        exact l1
      · rw [hfst]
        exact l2
      · intro u hu c2 hc2
        rw [hfst] at hc2
        exact l3 u (fun c3x hc3x => hu c3x (List.mem_cons_of_mem _ hc3x)) c2 hc2
      · intro h
        rcases htail : (larChildren rest point).2 with _ | v
        · have hsnd : (larChildren (RTreeNode.DirectoryNode bb cs d :: rest) point).2
              = (larNode (RTreeNode.DirectoryNode bb cs d) point).2 := by
            rw [heq2, htail]
          rw [hsnd] at h
          have hunch := n4 h
          injection hunch with e1 e2 e3
          subst e2
          exact absurd hcs3 hnedir.1
        · have hsnd : (larChildren (RTreeNode.DirectoryNode bb cs d :: rest) point).2
              = some v := by
            rw [heq2, htail]
          rw [hsnd] at h
          cases h
      · rw [hfst, hcons]
        simp only [List.length_append]
        have htl := l5
        omega
      · intro v hv
        rw [hfst, hcons]
        simp only [List.length_append]
        have hstrict : 0 < (RTreeNode.objsList cs).length := by
          have hdrop : (RTreeNode.objsList cs3).length
              < (RTreeNode.objsList cs).length := by
            rcases hhd : (larNode (RTreeNode.DirectoryNode bb cs d) point).2 with _ | v2
            · have hunch := n4 hhd
              injection hunch with e1 e2 e3
              subst e2
              exact absurd hcs3 hnedir.1
            · exact n6 v2 hhd
          subst hcs3
          simpa using hdrop
        have htl := l5
        omega
  case _ =>
    intro rest point t hobj ihl hok hnel
    rw [RTreeNode.boxOkBList, Bool.and_eq_true] at hok
    rw [RTreeNode.nonemptyDirsBList, Bool.and_eq_true] at hnel
    obtain ⟨l1, l2, l3, l4, l5, l6⟩ := ihl hok.2 hnel.2
    have heq : larChildren (RTreeNode.Leaf t :: rest) point
        = (if objContains t point then
            ((larChildren rest point).1, match (larChildren rest point).2 with
              | some v => some v
              | none => some t)
          else (RTreeNode.Leaf t :: (larChildren rest point).1,
            (larChildren rest point).2)) := rfl
    have hfst : (larChildren (RTreeNode.Leaf t :: rest) point).1
        = (larChildren rest point).1 := by
      rw [heq, if_pos hobj]
    have hcons : RTreeNode.objsList (RTreeNode.Leaf t :: rest)
        = t :: RTreeNode.objsList rest := rfl
    refine ⟨?_, ?_, ?_, ?_, ?_, ?_⟩
    · rw [hfst]
      exact l1
    · rw [hfst]
      exact l2
    · intro u hu c2 hc2
      rw [hfst] at hc2
      exact l3 u (fun c3x hc3x => hu c3x (List.mem_cons_of_mem _ hc3x)) c2 hc2
    · intro h
      rcases htail : (larChildren rest point).2 with _ | v
      · have hsnd : (larChildren (RTreeNode.Leaf t :: rest) point).2 = some t := by
          rw [heq, if_pos hobj, htail]
        rw [hsnd] at h
        cases h
      · have hsnd : (larChildren (RTreeNode.Leaf t :: rest) point).2 = some v := by
          rw [heq, if_pos hobj, htail]
        rw [hsnd] at h
        cases h
    · rw [hfst, hcons]
      simp only [List.length_cons]
      omega
    · intro v hv
      rw [hfst, hcons]
      simp only [List.length_cons]
      have htl := l5
      omega
  case _ =>
    intro rest point t hobj ihl hok hnel
    rw [RTreeNode.boxOkBList, Bool.and_eq_true] at hok
    rw [RTreeNode.nonemptyDirsBList, Bool.and_eq_true] at hnel
    obtain ⟨l1, l2, l3, l4, l5, l6⟩ := ihl hok.2 hnel.2
    have heq : larChildren (RTreeNode.Leaf t :: rest) point
        = (if objContains t point then
            ((larChildren rest point).1, match (larChildren rest point).2 with
              | some v => some v
              | none => some t)
          else (RTreeNode.Leaf t :: (larChildren rest point).1,
            (larChildren rest point).2)) := rfl
    have hfst : (larChildren (RTreeNode.Leaf t :: rest) point).1
        = RTreeNode.Leaf t :: (larChildren rest point).1 := by
      rw [heq, if_neg hobj]
    have hsnd : (larChildren (RTreeNode.Leaf t :: rest) point).2
        = (larChildren rest point).2 := by
      rw [heq, if_neg hobj]
    have hcons : RTreeNode.objsList (RTreeNode.Leaf t :: rest)
        = t :: RTreeNode.objsList rest := rfl
    have hobjf : RTreeNode.objsList (RTreeNode.Leaf t :: (larChildren rest point).1)
        = t :: RTreeNode.objsList (larChildren rest point).1 := rfl
    refine ⟨?_, ?_, ?_, ?_, ?_, ?_⟩
    · rw [hfst, RTreeNode.boxOkBList, Bool.and_eq_true]
      exact ⟨hok.1, l1⟩
    · rw [hfst, RTreeNode.nonemptyDirsBList, Bool.and_eq_true]
      exact ⟨hnel.1, l2⟩
    · intro u hu c2 hc2
      rw [hfst] at hc2
      rcases List.mem_cons.mp hc2 with rfl | hc2
      · exact hu _ (List.mem_cons_self _ _)
      · exact l3 u (fun c3x hc3x => hu c3x (List.mem_cons_of_mem _ hc3x)) c2 hc2
    · intro h
      rw [hsnd] at h
      rw [hfst, l4 h]
    · rw [hfst, hobjf, hcons]
      simp only [List.length_cons]
      omega
    · intro v hv
      rw [hsnd] at hv
      rw [hfst, hobjf, hcons]
      simp only [List.length_cons]
      have htl := l6 v hv
      omega

/-! Containment soundness through one insertion.  The insertion machinery
recomputes boxes only from cached child boxes, so containment survives
on trees whose boxes are merely sound (oversized), as they are after
public remove. -/

theorem Rect.add_eq_of_subset {r s : Rect} (h : Rect.subset s r) : r.add_rect s = r := by
  obtain ⟨h1, h2, h3, h4⟩ := h
  unfold Rect.add_rect
  rcases r with ⟨a1, a2, a3, a4⟩
  simp only [Rect.mk.injEq]
  refine ⟨min_eq_left h1, min_eq_left h3, max_eq_left h2, max_eq_left h4⟩

namespace DirectoryNodeData

/-- Containment soundness, nonemptiness and object bookkeeping of
resolve_overflow, with the subset bounds its caller needs. -/
theorem resolve_overflow_covers (opts : RTreeOptions) (dd : DirectoryNodeData)
    (st : InsertionState) (u : Rect)
    (hmin : 1 ≤ opts.min_size) (hminmax : opts.min_size ≤ opts.max_size)
    (hrc : opts.reinsertion_count ≤ opts.max_size)
    (hbb : dd.bounding_box = some u)
    (hcov : ∀ c ∈ dd.children, Rect.subset c.mbr u)
    (hokl : RTreeNode.boxOkBList dd.children = true)
    (hne : dd.children ≠ [])
    (hnel : RTreeNode.nonemptyDirsBList dd.children = true) :
    RTreeNode.boxOkB (resolve_overflow opts dd st).1.asNode = true ∧
    (resolve_overflow opts dd st).1.children ≠ [] ∧
    RTreeNode.nonemptyDirsBList (resolve_overflow opts dd st).1.children = true ∧
    RTreeNode.boxOkBList (resultNodes (resolve_overflow opts dd st).2.2) = true ∧
    RTreeNode.nonemptyDirsBList (resultNodes (resolve_overflow opts dd st).2.2) = true ∧
    (RTreeNode.objsList (resolve_overflow opts dd st).1.children ++
      RTreeNode.objsList (resultNodes (resolve_overflow opts dd st).2.2)).Perm
      (RTreeNode.objsList dd.children) ∧
    (∃ u2, (resolve_overflow opts dd st).1.bounding_box = some u2 ∧ Rect.subset u2 u) ∧
    (∀ c, (resolve_overflow opts dd st).2.2 = InsertionResult.Split c →
      Rect.subset (RTreeNode.mbr c) u) := by
  have hokm := (RTreeNode.boxOkBList_iff _).mp hokl
  have hnem := (RTreeNode.nonemptyDirsBList_iff _).mp hnel
  have hself : RTreeNode.boxOkB dd.asNode = true := by
    show RTreeNode.boxOkB (RTreeNode.DirectoryNode dd.bounding_box dd.children dd.depth) = true
    rw [hbb, RTreeNode.boxOkB_dir_some_iff]
    exact ⟨hcov, hokm⟩
  unfold resolve_overflow
  split
  case isTrue hover =>
    rcases hidx : st.reinsertions[dd.depth]? with _ | flag
    · refine ⟨hself, hne, hnel, by simp [resultNodes, RTreeNode.boxOkBList],
        by simp [resultNodes, RTreeNode.nonemptyDirsBList],
        by simp [resultNodes, RTreeNode.objsList], ⟨u, hbb, Rect.subset_refl u⟩, by simp⟩
    · rcases flag with _ | _
      · obtain ⟨sorted, hperm, h1, h2⟩ := reinsert_shape opts dd
        simp only [Bool.false_eq_true, if_false, h1, h2]
        have hslen : sorted.length = dd.children.length := hperm.length_eq
        have hm1 : 1 ≤ sorted.length - opts.reinsertion_count := by omega
        have htknn : sorted.take (sorted.length - opts.reinsertion_count) ≠ [] := by
          apply List.ne_nil_of_length_pos
          rw [List.length_take]
          omega
        have hmemt : ∀ c ∈ sorted.take (sorted.length - opts.reinsertion_count),
            c ∈ dd.children := fun c hc => hperm.mem_iff.mp (List.mem_of_mem_take hc)
        have hmemd : ∀ c ∈ sorted.drop (sorted.length - opts.reinsertion_count),
            c ∈ dd.children := fun c hc => hperm.mem_iff.mp (List.mem_of_mem_drop hc)
        obtain ⟨u2, hu2⟩ := mbrOfChildren_of_ne_nil htknn
        refine ⟨?_, htknn, ?_, ?_, ?_, ?_, ?_, by simp⟩
        · exact update_mbr_boxOk ((RTreeNode.boxOkBList_iff _).mpr
            (fun c hc => hokm c (hmemt c hc)))
        · exact (RTreeNode.nonemptyDirsBList_iff _).mpr (fun c hc => hnem c (hmemt c hc))
        · rw [resultNodes]
          exact (RTreeNode.boxOkBList_iff _).mpr (fun c hc => hokm c (hmemd c hc))
        · rw [resultNodes]
          exact (RTreeNode.nonemptyDirsBList_iff _).mpr (fun c hc => hnem c (hmemd c hc))
        · rw [resultNodes, update_mbr]
          rw [← RTreeNode.objsList_append, List.take_append_drop]
          exact RTreeNode.objsList_perm hperm
        · refine ⟨u2, ?_, ?_⟩
          · show mbrOfChildren (sorted.take (sorted.length - opts.reinsertion_count))
              = some u2
            exact hu2
          · exact mbrOfChildren_lub hu2 (fun c hc => hcov c (hmemt c hc))
      · have hlen : opts.min_size < dd.children.length := by omega
        obtain ⟨sorted, k, hperm, hk1, hk2, h1, h2⟩ := split_shape opts dd hmin hlen
        simp only [if_true, h1, h2]
        have htknn : sorted.take k ≠ [] := by
          apply List.ne_nil_of_length_pos
          rw [List.length_take]
          omega
        have hdrnn : sorted.drop k ≠ [] := by
          apply List.ne_nil_of_length_pos
          rw [List.length_drop]
          omega
        have hmemt : ∀ c ∈ sorted.take k, c ∈ dd.children :=
          fun c hc => hperm.mem_iff.mp (List.mem_of_mem_take hc)
        have hmemd : ∀ c ∈ sorted.drop k, c ∈ dd.children :=
          fun c hc => hperm.mem_iff.mp (List.mem_of_mem_drop hc)
        obtain ⟨u1, hu1⟩ := mbrOfChildren_of_ne_nil htknn
        obtain ⟨u2, hu2⟩ := mbrOfChildren_of_ne_nil hdrnn
        refine ⟨?_, htknn, ?_, ?_, ?_, ?_, ?_, ?_⟩
        · exact update_mbr_boxOk ((RTreeNode.boxOkBList_iff _).mpr
            (fun c hc => hokm c (hmemt c hc)))
        · exact (RTreeNode.nonemptyDirsBList_iff _).mpr (fun c hc => hnem c (hmemt c hc))
        · rw [resultNodes, new_parent, asNode]
          rw [RTreeNode.boxOkBList_iff]
          intro c hc
          rw [List.mem_singleton] at hc
          subst hc
          show RTreeNode.boxOkB (RTreeNode.DirectoryNode
            (mbrOfChildren (sorted.drop k)) (sorted.drop k) dd.depth) = true
          rw [hu2, RTreeNode.boxOkB_dir_some_iff]
          exact ⟨fun c hc => mbrOfChildren_mem_subset hc hu2,
            fun c hc => hokm c (hmemd c hc)⟩
        · rw [resultNodes, new_parent, asNode]
          rw [RTreeNode.nonemptyDirsBList_iff]
          intro c hc
          rw [List.mem_singleton] at hc
          subst hc
          rw [RTreeNode.nonemptyDirsB_dir_iff]
          exact ⟨hdrnn, fun c hc => hnem c (hmemd c hc)⟩
        · dsimp only [resultNodes, update_mbr, new_parent, asNode]
          rw [objsList_single, RTreeNode.objs]
          have h3 : sorted.take k ++ sorted.drop k = sorted := List.take_append_drop k sorted
          rw [← RTreeNode.objsList_append, h3]
          exact RTreeNode.objsList_perm hperm
        · refine ⟨u1, ?_, ?_⟩
          · show mbrOfChildren (sorted.take k) = some u1
            exact hu1
          · exact mbrOfChildren_lub hu1 (fun c hc => hcov c (hmemt c hc))
        · intro c hc
          rw [InsertionResult.Split.injEq] at hc
          subst hc
          dsimp only [update_mbr, new_parent, asNode]
          have hmbr : RTreeNode.mbr (RTreeNode.DirectoryNode
              (mbrOfChildren (sorted.drop k)) (sorted.drop k) dd.depth) = u2 := by
            rw [RTreeNode.mbr, hu2]
            rfl
          rw [hmbr]
          exact mbrOfChildren_lub hu2 (fun c hc => hcov c (hmemd c hc))
  case isFalse hover =>
    refine ⟨hself, hne, hnel, by simp [resultNodes, RTreeNode.boxOkBList],
      by simp [resultNodes, RTreeNode.nonemptyDirsBList],
      by simp [resultNodes, RTreeNode.objsList], ⟨u, hbb, Rect.subset_refl u⟩, by simp⟩

/-- resolve_overflow after hanging one extra covered node into a
containment sound directory. -/
theorem resolve_overflow_add_one_covers (opts : RTreeOptions) (st : InsertionState)
    (dd0 : DirectoryNodeData) (x : RTreeNode) (w : Rect)
    (hmin : 1 ≤ opts.min_size) (hminmax : opts.min_size ≤ opts.max_size)
    (hrc : opts.reinsertion_count ≤ opts.max_size)
    (hbbw : dd0.bounding_box = some w)
    (hcovw : ∀ c ∈ dd0.children, Rect.subset c.mbr w)
    (hxw : Rect.subset (RTreeNode.mbr x) w)
    (hokl : RTreeNode.boxOkBList dd0.children = true)
    (hokx : RTreeNode.boxOkB x = true)
    (hnel : RTreeNode.nonemptyDirsBList dd0.children = true)
    (hnex : RTreeNode.nonemptyDirsB x = true) :
    RTreeNode.boxOkB (resolve_overflow opts (add_children dd0 [x]) st).1.asNode = true ∧
    (resolve_overflow opts (add_children dd0 [x]) st).1.children ≠ [] ∧
    RTreeNode.nonemptyDirsBList
      (resolve_overflow opts (add_children dd0 [x]) st).1.children = true ∧
    RTreeNode.boxOkBList
      (resultNodes (resolve_overflow opts (add_children dd0 [x]) st).2.2) = true ∧
    RTreeNode.nonemptyDirsBList
      (resultNodes (resolve_overflow opts (add_children dd0 [x]) st).2.2) = true ∧
    (RTreeNode.objsList (resolve_overflow opts (add_children dd0 [x]) st).1.children ++
      RTreeNode.objsList
        (resultNodes (resolve_overflow opts (add_children dd0 [x]) st).2.2)).Perm
      (RTreeNode.objsList dd0.children ++ RTreeNode.objs x) ∧
    (∃ u2, (resolve_overflow opts (add_children dd0 [x]) st).1.bounding_box = some u2 ∧
      Rect.subset u2 w) ∧
    (∀ c, (resolve_overflow opts (add_children dd0 [x]) st).2.2 = InsertionResult.Split c →
      Rect.subset (RTreeNode.mbr c) w) := by
  have hone : mbrOfChildren [x] = some (RTreeNode.mbr x) := rfl
  have hadd := add_children_eq dd0 [x]
  have hbox3 : (add_children dd0 [x]).bounding_box = some w := by
    rw [hadd]
    show unionOpt dd0.bounding_box (mbrOfChildren [x]) = some w
    rw [hone, hbbw]
    show some (w.add_rect (RTreeNode.mbr x)) = some w
    rw [Rect.add_eq_of_subset hxw]
  have hch3 : (add_children dd0 [x]).children = dd0.children ++ [x] := by
    rw [hadd]
  have hcov3 : ∀ c ∈ (add_children dd0 [x]).children, Rect.subset c.mbr w := by
    rw [hch3]
    intro c hc
    rcases List.mem_append.mp hc with h | h
    · exact hcovw c h
    · rw [List.mem_singleton] at h
      subst h
      exact hxw
  have hok3 : RTreeNode.boxOkBList (add_children dd0 [x]).children = true := by
    rw [hch3, RTreeNode.boxOkBList_iff]
    intro c hc
    rcases List.mem_append.mp hc with h | h
    · exact (RTreeNode.boxOkBList_iff _).mp hokl c h
    · rw [List.mem_singleton] at h
      subst h
      exact hokx
  have hne3 : (add_children dd0 [x]).children ≠ [] := by
    rw [hch3]
    simp
  have hnel3 : RTreeNode.nonemptyDirsBList (add_children dd0 [x]).children = true := by
    rw [hch3, RTreeNode.nonemptyDirsBList_iff]
    intro c hc
    rcases List.mem_append.mp hc with h | h
    · exact (RTreeNode.nonemptyDirsBList_iff _).mp hnel c h
    · rw [List.mem_singleton] at h
      subst h
      exact hnex
  obtain ⟨b1, b2, b3, b4, b5, b6, b7, b8⟩ :=
    resolve_overflow_covers opts (add_children dd0 [x]) st w hmin hminmax hrc
      hbox3 hcov3 hok3 hne3 hnel3
  refine ⟨b1, b2, b3, b4, b5, ?_, b7, b8⟩
  refine b6.trans ?_
  rw [hch3, RTreeNode.objsList_append, objsList_single]

end DirectoryNodeData

theorem Rect.add_rect_subset_mono {a b c : Rect} (h : Rect.subset a b) :
    Rect.subset (a.add_rect c) (b.add_rect c) := by
  obtain ⟨h1, h2, h3, h4⟩ := h
  exact ⟨min_le_min h1 (le_refl _), max_le_max h2 (le_refl _),
    min_le_min h3 (le_refl _), max_le_max h4 (le_refl _)⟩

theorem unionOpt_some_exists (bb : Option Rect) (tm : Rect) :
    ∃ w, unionOpt bb (some tm) = some w := by
  cases bb <;> exact ⟨_, rfl⟩

/-- A containment sound directory with children caches some box covering
them. -/
theorem RTreeNode.boxOk_dir_some_of_ne_nil {bb : Option Rect} {cs : List RTreeNode}
    {d : Nat} (hok : RTreeNode.boxOkB (RTreeNode.DirectoryNode bb cs d) = true)
    (hne : cs ≠ []) :
    ∃ u0, bb = some u0 ∧ ∀ c ∈ cs, Rect.subset c.mbr u0 := by
  rcases bb with _ | u0
  · rw [RTreeNode.boxOkB_dir_none_iff] at hok
    exact absurd hok hne
  · rw [RTreeNode.boxOkB_dir_some_iff] at hok
    exact ⟨u0, rfl, hok.1⟩

/-- Coverage of the original children and of the inserted subtree by the
grown box of update_mbr_with_element. -/
theorem boxOk_cover_after_union {bb : Option Rect} {cs : List RTreeNode} {d : Nat}
    {tm w : Rect}
    (hok : RTreeNode.boxOkB (RTreeNode.DirectoryNode bb cs d) = true)
    (hw : unionOpt bb (some tm) = some w) :
    (∀ c ∈ cs, Rect.subset c.mbr w) ∧ Rect.subset tm w := by
  rcases bb with _ | u0
  · rw [RTreeNode.boxOkB_dir_none_iff] at hok
    subst hok
    have hwv : tm = w := by
      have h2 : unionOpt none (some tm) = some tm := rfl
      rw [h2] at hw
      exact Option.some.inj hw
    subst hwv
    exact ⟨fun c hc => absurd hc (List.not_mem_nil c), Rect.subset_refl _⟩
  · rw [RTreeNode.boxOkB_dir_some_iff] at hok
    have hwv : u0.add_rect tm = w := by
      have h2 : unionOpt (some u0) (some tm) = some (u0.add_rect tm) := rfl
      rw [h2] at hw
      exact Option.some.inj hw
    subst hwv
    exact ⟨fun c hc => Rect.subset_trans (hok.1 c hc) (Rect.subset_add_left u0 tm),
      Rect.subset_add_right u0 tm⟩

namespace DirectoryNodeData

/-- Master containment preservation of insertNode and insertDescend:
provided the call did not panic, the updated node and all detached nodes
stay containment sound and nonempty below, the multiset of stored objects
grows by exactly the inserted subtree, and no box escapes the union of
the old box with the inserted box. -/
theorem insertNode_covers (opts : RTreeOptions)
    (hmin : 1 ≤ opts.min_size) (hminmax : opts.min_size ≤ opts.max_size)
    (hrc : opts.reinsertion_count ≤ opts.max_size) :
    (∀ (node t : RTreeNode) (st : InsertionState),
      ∀ bb cs d, node = RTreeNode.DirectoryNode bb cs d →
      RTreeNode.boxOkB node = true →
      RTreeNode.nonemptyDirsBList cs = true →
      RTreeNode.boxOkB t = true →
      RTreeNode.nonemptyDirsB t = true →
      (insertNode opts node t st).2.1.oob = false →
      (insertNode opts node t st).2.1.badDescent = false →
      (RTreeNode.boxOkB (insertNode opts node t st).1.asNode = true ∧
       (insertNode opts node t st).1.children ≠ [] ∧
       RTreeNode.nonemptyDirsBList (insertNode opts node t st).1.children = true ∧
       RTreeNode.boxOkBList (resultNodes (insertNode opts node t st).2.2) = true ∧
       RTreeNode.nonemptyDirsBList (resultNodes (insertNode opts node t st).2.2) = true ∧
       (RTreeNode.objsList (insertNode opts node t st).1.children ++
         RTreeNode.objsList (resultNodes (insertNode opts node t st).2.2)).Perm
         (RTreeNode.objsList cs ++ RTreeNode.objs t) ∧
       (∀ w, unionOpt bb (some (RTreeNode.mbr t)) = some w →
         (∃ u2, (insertNode opts node t st).1.bounding_box = some u2 ∧
           Rect.subset u2 w) ∧
         (∀ c, (insertNode opts node t st).2.2 = InsertionResult.Split c →
           Rect.subset (RTreeNode.mbr c) w)))) ∧
    (∀ (cs : List RTreeNode) (i : Nat) (t : RTreeNode) (st : InsertionState),
      ∀ r, insertDescend opts cs i t st = some r →
      RTreeNode.boxOkBList cs = true →
      RTreeNode.nonemptyDirsBList cs = true →
      RTreeNode.boxOkB t = true →
      RTreeNode.nonemptyDirsB t = true →
      r.2.1.oob = false →
      r.2.1.badDescent = false →
      (RTreeNode.boxOkBList r.1 = true ∧
       r.1.length = cs.length ∧
       RTreeNode.nonemptyDirsBList r.1 = true ∧
       RTreeNode.boxOkBList (resultNodes r.2.2) = true ∧
       RTreeNode.nonemptyDirsBList (resultNodes r.2.2) = true ∧
       (RTreeNode.objsList r.1 ++ RTreeNode.objsList (resultNodes r.2.2)).Perm
         (RTreeNode.objsList cs ++ RTreeNode.objs t) ∧
       (∀ u, (∀ c ∈ cs, Rect.subset c.mbr u) →
         (∀ c2 ∈ r.1, Rect.subset c2.mbr (u.add_rect (RTreeNode.mbr t))) ∧
         (∀ c, r.2.2 = InsertionResult.Split c →
           Rect.subset (RTreeNode.mbr c) (u.add_rect (RTreeNode.mbr t)))))) := by
  apply DirectoryNodeData.insertNode.mutual_induct opts
    (motive_1 := fun node t st =>
      ∀ bb cs d, node = RTreeNode.DirectoryNode bb cs d →
      RTreeNode.boxOkB node = true →
      RTreeNode.nonemptyDirsBList cs = true →
      RTreeNode.boxOkB t = true →
      RTreeNode.nonemptyDirsB t = true →
      (insertNode opts node t st).2.1.oob = false →
      (insertNode opts node t st).2.1.badDescent = false →
      (RTreeNode.boxOkB (insertNode opts node t st).1.asNode = true ∧
       (insertNode opts node t st).1.children ≠ [] ∧
       RTreeNode.nonemptyDirsBList (insertNode opts node t st).1.children = true ∧
       RTreeNode.boxOkBList (resultNodes (insertNode opts node t st).2.2) = true ∧
       RTreeNode.nonemptyDirsBList (resultNodes (insertNode opts node t st).2.2) = true ∧
       (RTreeNode.objsList (insertNode opts node t st).1.children ++
         RTreeNode.objsList (resultNodes (insertNode opts node t st).2.2)).Perm
         (RTreeNode.objsList cs ++ RTreeNode.objs t) ∧
       (∀ w, unionOpt bb (some (RTreeNode.mbr t)) = some w →
         (∃ u2, (insertNode opts node t st).1.bounding_box = some u2 ∧
           Rect.subset u2 w) ∧
         (∀ c, (insertNode opts node t st).2.2 = InsertionResult.Split c →
           Rect.subset (RTreeNode.mbr c) w))))
    (motive_2 := fun cs i t st =>
      ∀ r, insertDescend opts cs i t st = some r →
      RTreeNode.boxOkBList cs = true →
      RTreeNode.nonemptyDirsBList cs = true →
      RTreeNode.boxOkB t = true →
      RTreeNode.nonemptyDirsB t = true →
      r.2.1.oob = false →
      r.2.1.badDescent = false →
      (RTreeNode.boxOkBList r.1 = true ∧
       r.1.length = cs.length ∧
       RTreeNode.nonemptyDirsBList r.1 = true ∧
       RTreeNode.boxOkBList (resultNodes r.2.2) = true ∧
       RTreeNode.nonemptyDirsBList (resultNodes r.2.2) = true ∧
       (RTreeNode.objsList r.1 ++ RTreeNode.objsList (resultNodes r.2.2)).Perm
         (RTreeNode.objsList cs ++ RTreeNode.objs t) ∧
       (∀ u, (∀ c ∈ cs, Rect.subset c.mbr u) →
         (∀ c2 ∈ r.1, Rect.subset c2.mbr (u.add_rect (RTreeNode.mbr t))) ∧
         (∀ c, r.2.2 = InsertionResult.Split c →
           Rect.subset (RTreeNode.mbr c) (u.add_rect (RTreeNode.mbr t))))))
  case _ =>
    intro t st a bb cs d hnode
    exact absurd hnode (by simp)
  case _ =>
    intro t st bb cs bb2 cs2 d2 hnode hok hnel hokt hnet hoob hbad
    injection hnode with h1 h2 h3
    subst h1
    subst h2
    subst h3
    rw [insertNode] at hoob hbad ⊢
    rw [if_pos rfl] at hoob hbad ⊢
    have hch : (update_mbr_with_element ⟨bb, cs, t.depth + 1⟩ t.mbr).children = cs := by
      rw [update_mbr_with_element_eq]
    have hbbx : (update_mbr_with_element ⟨bb, cs, t.depth + 1⟩ t.mbr).bounding_box
        = unionOpt bb (some t.mbr) := by
      rw [update_mbr_with_element_eq]
    obtain ⟨w, hw⟩ := unionOpt_some_exists bb t.mbr
    obtain ⟨hcovw, hxw⟩ := boxOk_cover_after_union hok hw
    obtain ⟨b1, b2, b3, b4, b5, b6, b7, b8⟩ :=
      resolve_overflow_add_one_covers opts st
        (update_mbr_with_element ⟨bb, cs, t.depth + 1⟩ t.mbr) t w
        hmin hminmax hrc
        (by rw [hbbx, hw])
        (by rw [hch]; exact hcovw)
        hxw
        (by rw [hch]; exact RTreeNode.boxOkB_children bb cs _ hok)
        hokt
        (by rw [hch]; exact hnel)
        hnet
    refine ⟨b1, b2, b3, b4, b5, ?_, ?_⟩
    · refine b6.trans ?_
      rw [hch]
    · intro w2 hw2
      have hww : w = w2 := Option.some.inj (hw.symm.trans hw2)
      subst hww
      exact ⟨b7, b8⟩
  case _ =>
    intro t st bb cs d hdep r hdes child harm ih bb2 cs2 d2 hnode hok hnel hokt hnet hoob hbad
    injection hnode with h1 h2 h3
    subst h1
    subst h2
    subst h3
    rw [insertNode] at hoob hbad ⊢
    simp only [if_neg hdep, hdes, harm] at hoob hbad ⊢
    obtain ⟨hfb, hfo2, _⟩ := resolve_overflow_flags opts
      ({ update_mbr_with_element ⟨bb, cs, d⟩ t.mbr with children := r.1 }.add_children [child])
      r.2.1
    have hro : r.2.1.oob = false := hfo2 hoob
    have hrb : r.2.1.badDescent = false := by rw [hfb] at hbad; exact hbad
    obtain ⟨c1, c2, c3, c4, c5, c6, c7⟩ := ih r hdes
      (RTreeNode.boxOkB_children bb cs d hok) hnel hokt hnet hro hrb
    rw [harm] at c4 c5 c6 c7
    rw [resultNodes] at c4 c5
    have hokch : RTreeNode.boxOkB child = true :=
      (RTreeNode.boxOkBList_iff _).mp c4 child (List.mem_singleton_self _)
    have hnech : RTreeNode.nonemptyDirsB child = true :=
      (RTreeNode.nonemptyDirsBList_iff _).mp c5 child (List.mem_singleton_self _)
    have hcs : cs ≠ [] := by
      intro h
      subst h
      rw [insertDescend_nil_none] at hdes
      cases hdes
    obtain ⟨u0, hbb0, hcov0⟩ := RTreeNode.boxOk_dir_some_of_ne_nil hok hcs
    obtain ⟨hc7a, hc7b⟩ := c7 u0 hcov0
    have hch : ({ update_mbr_with_element ⟨bb, cs, d⟩ t.mbr with
        children := r.1 } : DirectoryNodeData).children = r.1 := rfl
    have hbbx : ({ update_mbr_with_element ⟨bb, cs, d⟩ t.mbr with
        children := r.1 } : DirectoryNodeData).bounding_box
        = unionOpt bb (some t.mbr) := by
      show (update_mbr_with_element ⟨bb, cs, d⟩ t.mbr).bounding_box = unionOpt bb (some t.mbr)
      rw [update_mbr_with_element_eq]
    have hwv : unionOpt bb (some (RTreeNode.mbr t)) = some (u0.add_rect (RTreeNode.mbr t)) := by
      rw [hbb0]
      rfl
    obtain ⟨b1, b2, b3, b4, b5, b6, b7, b8⟩ :=
      resolve_overflow_add_one_covers opts r.2.1
        { update_mbr_with_element ⟨bb, cs, d⟩ t.mbr with children := r.1 } child
        (u0.add_rect (RTreeNode.mbr t))
        hmin hminmax hrc
        (by rw [hbbx, hwv])
        (by rw [hch]; exact hc7a)
        (hc7b child rfl)
        (by rw [hch]; exact c1)
        hokch
        (by rw [hch]; exact c3)
        hnech
    refine ⟨b1, b2, b3, b4, b5, ?_, ?_⟩
    · refine b6.trans ?_
      rw [hch]
      rw [← objsList_single child]
      exact c6
    · intro w2 hw2
      have hww : u0.add_rect (RTreeNode.mbr t) = w2 := Option.some.inj (hwv.symm.trans hw2)
      subst hww
      exact ⟨b7, b8⟩
  case _ =>
    intro t st bb cs d hdep r hdes ns harm ih bb2 cs2 d2 hnode hok hnel hokt hnet hoob hbad
    injection hnode with h1 h2 h3
    subst h1
    subst h2
    subst h3
    rw [insertNode] at hoob hbad ⊢
    simp only [if_neg hdep, hdes, harm] at hoob hbad ⊢
    obtain ⟨c1, c2, c3, c4, c5, c6, c7⟩ := ih r hdes
      (RTreeNode.boxOkB_children bb cs d hok) hnel hokt hnet hoob hbad
    rw [harm] at c4 c5 c6 c7
    rw [resultNodes] at c4 c5
    have hcs : cs ≠ [] := by
      intro h
      subst h
      rw [insertDescend_nil_none] at hdes
      cases hdes
    have hr1 : r.1 ≠ [] := by
      apply List.ne_nil_of_length_pos
      rw [c2]
      exact List.length_pos_of_ne_nil hcs
    obtain ⟨u0, hbb0, hcov0⟩ := RTreeNode.boxOk_dir_some_of_ne_nil hok hcs
    obtain ⟨hc7a, hc7b⟩ := c7 u0 hcov0
    obtain ⟨u2, hu2⟩ := mbrOfChildren_of_ne_nil hr1
    refine ⟨?_, hr1, c3, ?_, ?_, ?_, ?_⟩
    · exact update_mbr_boxOk c1
    · rw [resultNodes]
      exact c4
    · rw [resultNodes]
      exact c5
    · rw [resultNodes]
      exact c6
    · intro w2 hw2
      have hwv : unionOpt bb (some (RTreeNode.mbr t))
          = some (u0.add_rect (RTreeNode.mbr t)) := by
        rw [hbb0]
        rfl
      have hww : u0.add_rect (RTreeNode.mbr t) = w2 := Option.some.inj (hwv.symm.trans hw2)
      subst hww
      constructor
      · refine ⟨u2, ?_, ?_⟩
        · show mbrOfChildren r.1 = some u2
          exact hu2
        · exact mbrOfChildren_lub hu2 hc7a
      · intro c hc
        cases hc
  case _ =>
    intro t st bb cs d hdep r hdes harm ih bb2 cs2 d2 hnode hok hnel hokt hnet hoob hbad
    injection hnode with h1 h2 h3
    subst h1
    subst h2
    subst h3
    rw [insertNode] at hoob hbad ⊢
    simp only [if_neg hdep, hdes, harm] at hoob hbad ⊢
    obtain ⟨c1, c2, c3, c4, c5, c6, c7⟩ := ih r hdes
      (RTreeNode.boxOkB_children bb cs d hok) hnel hokt hnet hoob hbad
    rw [harm] at c4 c5 c6 c7
    rw [resultNodes] at c4 c5
    have hcs : cs ≠ [] := by
      intro h
      subst h
      rw [insertDescend_nil_none] at hdes
      cases hdes
    have hr1 : r.1 ≠ [] := by
      apply List.ne_nil_of_length_pos
      rw [c2]
      exact List.length_pos_of_ne_nil hcs
    obtain ⟨u0, hbb0, hcov0⟩ := RTreeNode.boxOk_dir_some_of_ne_nil hok hcs
    obtain ⟨hc7a, hc7b⟩ := c7 u0 hcov0
    have hbbx : ({ update_mbr_with_element ⟨bb, cs, d⟩ t.mbr with
        children := r.1 } : DirectoryNodeData).bounding_box
        = unionOpt bb (some t.mbr) := by
      show (update_mbr_with_element ⟨bb, cs, d⟩ t.mbr).bounding_box = unionOpt bb (some t.mbr)
      rw [update_mbr_with_element_eq]
    have hwv : unionOpt bb (some (RTreeNode.mbr t))
        = some (u0.add_rect (RTreeNode.mbr t)) := by
      rw [hbb0]
      rfl
    refine ⟨?_, hr1, c3, ?_, ?_, ?_, ?_⟩
    · rw [asNode]
      show RTreeNode.boxOkB (RTreeNode.DirectoryNode
        ({ update_mbr_with_element ⟨bb, cs, d⟩ t.mbr with
          children := r.1 } : DirectoryNodeData).bounding_box r.1 _) = true
      rw [hbbx, hwv]
      rw [RTreeNode.boxOkB_dir_some_iff]
      exact ⟨hc7a, (RTreeNode.boxOkBList_iff _).mp c1⟩
    · rw [resultNodes]
      exact c4
    · rw [resultNodes]
      exact c5
    · rw [resultNodes]
      exact c6
    · intro w2 hw2
      have hww : u0.add_rect (RTreeNode.mbr t) = w2 := Option.some.inj (hwv.symm.trans hw2)
      subst hww
      constructor
      · refine ⟨u0.add_rect (RTreeNode.mbr t), ?_, Rect.subset_refl _⟩
        show ({ update_mbr_with_element ⟨bb, cs, d⟩ t.mbr with
          children := r.1 } : DirectoryNodeData).bounding_box = _
        rw [hbbx, hwv]
      · intro c hc
        cases hc
  case _ =>
    intro t st bb cs d hdep r hdes harm ih bb2 cs2 d2 hnode hok hnel hokt hnet hoob hbad
    injection hnode with h1 h2 h3
    subst h1
    subst h2
    subst h3
    rw [insertNode] at hoob hbad
    simp only [if_neg hdep, hdes, harm] at hoob hbad
    have hfl := (insertNode_flags opts).2 cs (choose_subtree_index d cs t.mbr) t st r hdes
    rcases hfl.2.2 harm with h | h
    · rw [hoob] at h
      cases h
    · rw [hbad] at h
      cases h
  case _ =>
    intro t st bb cs d hdep hdes ih bb2 cs2 d2 hnode hok hnel hokt hnet hoob hbad
    injection hnode with h1 h2 h3
    subst h1
    subst h2
    subst h3
    rw [insertNode] at hbad
    simp only [if_neg hdep, hdes] at hbad
    simp at hbad
  case _ =>
    intro i t st r hr
    simp only [insertDescend] at hr
    cases hr
  case _ =>
    intro t st rest bb cs d ih r hr hokl hnell hokt hnet hoob hbad
    simp only [insertDescend, Option.some.injEq] at hr
    subst hr
    rw [RTreeNode.boxOkBList] at hokl
    rw [Bool.and_eq_true] at hokl
    rw [RTreeNode.nonemptyDirsBList] at hnell
    rw [Bool.and_eq_true] at hnell
    have hnedir := hnell.1
    rw [RTreeNode.nonemptyDirsB_dir_iff] at hnedir
    obtain ⟨m1, m2, m3, m4, m5, m6, m7⟩ := ih bb cs d rfl hokl.1
      ((RTreeNode.nonemptyDirsBList_iff _).mpr hnedir.2) hokt hnet hoob hbad
    have hxobjs : RTreeNode.objs (insertNode opts (RTreeNode.DirectoryNode bb cs d) t st).1.asNode
        = RTreeNode.objsList (insertNode opts (RTreeNode.DirectoryNode bb cs d) t st).1.children := by
      rw [asNode, RTreeNode.objs]
    obtain ⟨u0, hbb0, hcov0⟩ := RTreeNode.boxOk_dir_some_of_ne_nil hokl.1 hnedir.1
    have hwv : unionOpt bb (some (RTreeNode.mbr t))
        = some (u0.add_rect (RTreeNode.mbr t)) := by
      rw [hbb0]
      rfl
    obtain ⟨⟨ub, hub, hubw⟩, hsplitb⟩ := m7 (u0.add_rect (RTreeNode.mbr t)) hwv
    refine ⟨?_, by simp, ?_, m4, m5, ?_, ?_⟩
    · rw [RTreeNode.boxOkBList, Bool.and_eq_true]
      refine ⟨m1, hokl.2⟩
    · rw [RTreeNode.nonemptyDirsBList, Bool.and_eq_true]
      refine ⟨?_, hnell.2⟩
      rw [asNode, RTreeNode.nonemptyDirsB_dir_iff]
      exact ⟨m2, (RTreeNode.nonemptyDirsBList_iff _).mp m3⟩
    · rw [RTreeNode.objsList, hxobjs, RTreeNode.objsList, RTreeNode.objs]
      exact perm_shuffle m6
    · intro u hu
      have hcmbr : RTreeNode.mbr (RTreeNode.DirectoryNode bb cs d) = u0 := by
        rw [hbb0]
        rfl
      have hu0u : Rect.subset u0 u := by
        have := hu (RTreeNode.DirectoryNode bb cs d) (List.mem_cons_self _ _)
        rw [hcmbr] at this
        exact this
      have hwu : Rect.subset (u0.add_rect (RTreeNode.mbr t))
          (u.add_rect (RTreeNode.mbr t)) := Rect.add_rect_subset_mono hu0u
      constructor
      · intro c2 hc2
        rcases List.mem_cons.mp hc2 with rfl | hc2
        · have hxm : RTreeNode.mbr
              (insertNode opts (RTreeNode.DirectoryNode bb cs d) t st).1.asNode = ub := by
            rw [asNode]
            show ((insertNode opts (RTreeNode.DirectoryNode bb cs d) t st).1.bounding_box).getD
              default = ub
            rw [hub]
            rfl
          rw [hxm]
          exact Rect.subset_trans hubw hwu
        · exact Rect.subset_trans
            (hu c2 (List.mem_cons_of_mem _ hc2))
            (Rect.subset_add_left u (RTreeNode.mbr t))
      · intro c hc
        exact Rect.subset_trans (hsplitb c hc) hwu
  case _ =>
    intro t st rest p r hr
    simp only [insertDescend] at hr
    cases hr
  case _ =>
    intro t st c rest i r0 hsome ih r hr hokl hnell hokt hnet hoob hbad
    simp only [insertDescend, hsome, Option.some.injEq] at hr
    subst hr
    rw [RTreeNode.boxOkBList] at hokl
    rw [Bool.and_eq_true] at hokl
    rw [RTreeNode.nonemptyDirsBList] at hnell
    rw [Bool.and_eq_true] at hnell
    obtain ⟨m1, m2, m3, m4, m5, m6, m7⟩ := ih r0 hsome hokl.2 hnell.2 hokt hnet hoob hbad
    refine ⟨?_, by simp [m2], ?_, m4, m5, ?_, ?_⟩
    · rw [RTreeNode.boxOkBList, Bool.and_eq_true]
      exact ⟨hokl.1, m1⟩
    · rw [RTreeNode.nonemptyDirsBList, Bool.and_eq_true]
      exact ⟨hnell.1, m3⟩
    · rw [RTreeNode.objsList, RTreeNode.objsList]
      rw [List.append_assoc, List.append_assoc]
      exact List.Perm.append_left _ m6
    · intro u hu
      obtain ⟨ma, mb⟩ := m7 u (fun c2 hc2 => hu c2 (List.mem_cons_of_mem _ hc2))
      constructor
      · intro c2 hc2
        rcases List.mem_cons.mp hc2 with rfl | hc2
        · exact Rect.subset_trans (hu c2 (List.mem_cons_self _ _))
            (Rect.subset_add_left u (RTreeNode.mbr t))
        · exact ma c2 hc2
      · exact mb
  case _ =>
    intro t st c rest i hnone ih r hr
    rw [insertDescend.eq_def] at hr
    simp only [hnone] at hr
    cases hr

end DirectoryNodeData

/-- The covers master lemma at the insert entry point. -/
theorem DirectoryNodeData.insert_covers (opts : RTreeOptions)
    (hmin : 1 ≤ opts.min_size) (hminmax : opts.min_size ≤ opts.max_size)
    (hrc : opts.reinsertion_count ≤ opts.max_size)
    (bb : Option Rect) (cs : List RTreeNode) (d : Nat) (t : RTreeNode) (st : InsertionState)
    (hok : RTreeNode.boxOkB (RTreeNode.DirectoryNode bb cs d) = true)
    (hnel : RTreeNode.nonemptyDirsBList cs = true)
    (hokt : RTreeNode.boxOkB t = true)
    (hnet : RTreeNode.nonemptyDirsB t = true)
    (hoob : (DirectoryNodeData.insert opts bb cs d t st).2.1.oob = false)
    (hbad : (DirectoryNodeData.insert opts bb cs d t st).2.1.badDescent = false) :
    RTreeNode.boxOkB (DirectoryNodeData.insert opts bb cs d t st).1.asNode = true ∧
    (DirectoryNodeData.insert opts bb cs d t st).1.children ≠ [] ∧
    RTreeNode.nonemptyDirsBList (DirectoryNodeData.insert opts bb cs d t st).1.children = true ∧
    RTreeNode.boxOkBList
      (resultNodes (DirectoryNodeData.insert opts bb cs d t st).2.2) = true ∧
    RTreeNode.nonemptyDirsBList
      (resultNodes (DirectoryNodeData.insert opts bb cs d t st).2.2) = true ∧
    (RTreeNode.objsList (DirectoryNodeData.insert opts bb cs d t st).1.children ++
      RTreeNode.objsList (resultNodes (DirectoryNodeData.insert opts bb cs d t st).2.2)).Perm
      (RTreeNode.objsList cs ++ RTreeNode.objs t) :=
  ((DirectoryNodeData.insertNode_covers opts hmin hminmax hrc).1
    (RTreeNode.DirectoryNode bb cs d) t st bb cs d rfl hok hnel hokt hnet hoob hbad).imp
    id (fun h => ⟨h.1, h.2.1, h.2.2.1, h.2.2.2.1, h.2.2.2.2.1⟩)

/-- Containment soundness, nonemptiness and object bookkeeping through
the whole driver loop, given enough fuel and a panic free final state. -/
theorem insertLoopF_covers (opts : RTreeOptions)
    (hmin : 1 ≤ opts.min_size) (hminmax : opts.min_size ≤ opts.max_size)
    (hrc : opts.reinsertion_count ≤ opts.max_size) :
    ∀ (fuel : Nat) (root : DirectoryNodeData) (stack : List RTreeNode) (st : InsertionState),
    stack.length + opts.reinsertion_count * countFalse st.reinsertions ≤ fuel →
    RTreeNode.boxOkB root.asNode = true →
    RTreeNode.nonemptyDirsBList root.children = true →
    RTreeNode.boxOkBList stack = true →
    RTreeNode.nonemptyDirsBList stack = true →
    (insertLoopF opts fuel root stack st).2.oob = false →
    (insertLoopF opts fuel root stack st).2.badDescent = false →
    RTreeNode.boxOkB (insertLoopF opts fuel root stack st).1.asNode = true ∧
    RTreeNode.nonemptyDirsBList (insertLoopF opts fuel root stack st).1.children = true ∧
    (RTreeNode.objsList (insertLoopF opts fuel root stack st).1.children).Perm
      (RTreeNode.objsList stack ++ RTreeNode.objsList root.children) := by
  intro fuel
  induction fuel with
  | zero =>
    intro root stack st hb hokr hner hoks hnes hoob hbad
    match stack with
    | [] =>
      simp only [insertLoopF]
      refine ⟨hokr, hner, ?_⟩
      rw [RTreeNode.objsList]
      simp
    | nxt :: rest => simp at hb
  | succ fuel ih =>
    intro root stack st hb hokr hner hoks hnes hoob hbad
    match stack, hoks, hnes with
    | [], _, _ =>
      simp only [insertLoopF]
      refine ⟨hokr, hner, ?_⟩
      rw [RTreeNode.objsList]
      simp
    | nxt :: rest, hoks, hnes =>
      rw [RTreeNode.boxOkBList, Bool.and_eq_true] at hoks
      rw [RTreeNode.nonemptyDirsBList, Bool.and_eq_true] at hnes
      rcases hres : DirectoryNodeData.insert opts root.bounding_box root.children
        root.depth nxt st with ⟨root2, st2, result⟩
      obtain ⟨hlen, hle, hstr⟩ := DirectoryNodeData.insert_state opts root.bounding_box
        root.children root.depth nxt st
      rw [hres] at hlen hle hstr
      simp only at hlen hle hstr
      have hml := Nat.mul_le_mul_left opts.reinsertion_count hle
      simp only [List.length_cons] at hb
      have hfl := DirectoryNodeData.insert_flags opts root.bounding_box root.children
        root.depth nxt st
      rw [hres] at hfl
      simp only at hfl
      have hokroot : RTreeNode.boxOkB (RTreeNode.DirectoryNode root.bounding_box
          root.children root.depth) = true := hokr
      rcases result with _ | node | ns | _
      · simp only [insertLoopF, hres] at hoob hbad ⊢
        have hstep2o := (insertLoopF_flags opts fuel root2 rest st2).1 hoob
        have hstep2b := (insertLoopF_flags opts fuel root2 rest st2).2 hbad
        obtain ⟨e1, e2, e3, e4, e5, e6⟩ :=
          DirectoryNodeData.insert_covers opts hmin hminmax hrc root.bounding_box
            root.children root.depth nxt st hokroot hner hoks.1 hnes.1
            (by rw [hres]; exact hstep2o) (by rw [hres]; exact hstep2b)
        rw [hres] at e1 e3 e6
        simp only at e1 e3 e6
        obtain ⟨f1, f2, f3⟩ := ih root2 rest st2 (by omega) e1 e3 hoks.2 hnes.2 hoob hbad
        refine ⟨f1, f2, ?_⟩
        refine f3.trans ?_
        rw [resultNodes] at e6
        rw [RTreeNode.objsList]
        have e6b : (RTreeNode.objsList root2.children).Perm
            (RTreeNode.objsList root.children ++ RTreeNode.objs nxt) := by
          refine List.Perm.trans ?_ e6
          rw [RTreeNode.objsList]
          simp
        exact perm_rot e6b
      · simp only [insertLoopF, hres] at hoob hbad ⊢
        have hstep2o := (insertLoopF_flags opts fuel _ rest st2).1 hoob
        have hstep2b := (insertLoopF_flags opts fuel _ rest st2).2 hbad
        obtain ⟨e1, e2, e3, e4, e5, e6⟩ :=
          DirectoryNodeData.insert_covers opts hmin hminmax hrc root.bounding_box
            root.children root.depth nxt st hokroot hner hoks.1 hnes.1
            (by rw [hres]; exact hstep2o) (by rw [hres]; exact hstep2b)
        rw [hres] at e1 e2 e3 e4 e5 e6
        simp only at e1 e2 e3 e4 e5 e6
        rw [resultNodes] at e4 e5 e6
        have hoknode : RTreeNode.boxOkB node = true :=
          (RTreeNode.boxOkBList_iff _).mp e4 node (List.mem_singleton_self _)
        have hnenode : RTreeNode.nonemptyDirsB node = true :=
          (RTreeNode.nonemptyDirsBList_iff _).mp e5 node (List.mem_singleton_self _)
        set nr := DirectoryNodeData.add_children ⟨none, [], root2.depth + 1⟩
          [root2.asNode, node] with hnr
        have hnrch : nr.children = [root2.asNode, node] := by
          rw [hnr, DirectoryNodeData.add_children_eq]
          simp
        have hnrbb : nr.bounding_box
            = DirectoryNodeData.mbrOfChildren [root2.asNode, node] := by
          rw [hnr, DirectoryNodeData.add_children_eq]
          show unionOpt none (DirectoryNodeData.mbrOfChildren [root2.asNode, node]) = _
          rw [unionOpt]
        have hoknr : RTreeNode.boxOkB nr.asNode = true := by
          rw [DirectoryNodeData.asNode, hnrch, hnrbb]
          have hu : DirectoryNodeData.mbrOfChildren [root2.asNode, node]
              = some ((RTreeNode.mbr root2.asNode).add_rect (RTreeNode.mbr node)) := rfl
          rw [hu, RTreeNode.boxOkB_dir_some_iff]
          refine ⟨?_, ?_⟩
          · intro c hc
            exact DirectoryNodeData.mbrOfChildren_mem_subset hc hu
          · intro c hc
            simp only [List.mem_cons, List.not_mem_nil, or_false] at hc
            rcases hc with rfl | rfl
            · exact e1
            · exact hoknode
        have hnenr : RTreeNode.nonemptyDirsBList nr.children = true := by
          rw [hnrch, RTreeNode.nonemptyDirsBList_iff]
          intro c hc
          simp only [List.mem_cons, List.not_mem_nil, or_false] at hc
          rcases hc with rfl | rfl
          · rw [DirectoryNodeData.asNode, RTreeNode.nonemptyDirsB_dir_iff]
            exact ⟨e2, (RTreeNode.nonemptyDirsBList_iff _).mp e3⟩
          · exact hnenode
        obtain ⟨f1, f2, f3⟩ := ih nr rest st2 (by omega) hoknr hnenr hoks.2 hnes.2 hoob hbad
        refine ⟨f1, f2, ?_⟩
        refine f3.trans ?_
        have hobjnr : RTreeNode.objsList nr.children
            = RTreeNode.objsList root2.children ++ RTreeNode.objs node := by
          rw [hnrch, RTreeNode.objsList, RTreeNode.objsList, RTreeNode.objsList,
            DirectoryNodeData.asNode, RTreeNode.objs_dir, ← RTreeNode.objsList_eq]
          simp
        rw [hobjnr, RTreeNode.objsList]
        have e6b : (RTreeNode.objsList root2.children ++ RTreeNode.objs node).Perm
            (RTreeNode.objsList root.children ++ RTreeNode.objs nxt) := by
          refine List.Perm.trans ?_ e6
          refine List.Perm.append_left _ ?_
          rw [objsList_single]
        exact perm_rot e6b
      · simp only [insertLoopF, hres] at hoob hbad ⊢
        have hstep2o := (insertLoopF_flags opts fuel root2 (ns.reverse ++ rest) st2).1 hoob
        have hstep2b := (insertLoopF_flags opts fuel root2 (ns.reverse ++ rest) st2).2 hbad
        obtain ⟨e1, e2, e3, e4, e5, e6⟩ :=
          DirectoryNodeData.insert_covers opts hmin hminmax hrc root.bounding_box
            root.children root.depth nxt st hokroot hner hoks.1 hnes.1
            (by rw [hres]; exact hstep2o) (by rw [hres]; exact hstep2b)
        rw [hres] at e1 e3 e4 e5 e6
        simp only at e1 e3 e4 e5 e6
        rw [resultNodes] at e4 e5 e6
        have hlt := hstr ns rfl
        have hnsl := insert_reinsert_length opts root.bounding_box
          root.children root.depth nxt st ns (by rw [hres])
        have hokstack : RTreeNode.boxOkBList (ns.reverse ++ rest) = true := by
          rw [RTreeNode.boxOkBList_iff]
          intro c hc
          rcases List.mem_append.mp hc with h | h
          · exact (RTreeNode.boxOkBList_iff _).mp e4 c (List.mem_reverse.mp h)
          · exact (RTreeNode.boxOkBList_iff _).mp hoks.2 c h
        have hnestack : RTreeNode.nonemptyDirsBList (ns.reverse ++ rest) = true := by
          rw [RTreeNode.nonemptyDirsBList_iff]
          intro c hc
          rcases List.mem_append.mp hc with h | h
          · exact (RTreeNode.nonemptyDirsBList_iff _).mp e5 c (List.mem_reverse.mp h)
          · exact (RTreeNode.nonemptyDirsBList_iff _).mp hnes.2 c h
        have hfb : (ns.reverse ++ rest).length +
            opts.reinsertion_count * countFalse st2.reinsertions ≤ fuel := by
          simp only [List.length_append, List.length_reverse]
          have hkey : opts.reinsertion_count * countFalse st2.reinsertions
              + opts.reinsertion_count
              ≤ opts.reinsertion_count * countFalse st.reinsertions := by
            calc opts.reinsertion_count * countFalse st2.reinsertions + opts.reinsertion_count
                = opts.reinsertion_count * (countFalse st2.reinsertions + 1) := by ring
              _ ≤ opts.reinsertion_count * countFalse st.reinsertions :=
                Nat.mul_le_mul_left _ hlt
          omega
        obtain ⟨f1, f2, f3⟩ := ih root2 (ns.reverse ++ rest) st2 hfb e1 e3
          hokstack hnestack hoob hbad
        refine ⟨f1, f2, ?_⟩
        refine f3.trans ?_
        rw [RTreeNode.objsList_append, RTreeNode.objsList]
        have hrev : (RTreeNode.objsList ns.reverse).Perm (RTreeNode.objsList ns) :=
          RTreeNode.objsList_perm (List.reverse_perm ns)
        have q1 : ((RTreeNode.objsList ns.reverse ++ RTreeNode.objsList rest) ++
            RTreeNode.objsList root2.children).Perm
            ((RTreeNode.objsList ns ++ RTreeNode.objsList rest) ++
            RTreeNode.objsList root2.children) :=
          List.Perm.append_right _ (List.Perm.append_right _ hrev)
        have q2 : ((RTreeNode.objsList ns ++ RTreeNode.objsList rest) ++
            RTreeNode.objsList root2.children).Perm
            ((RTreeNode.objsList root2.children ++ RTreeNode.objsList ns) ++
            RTreeNode.objsList rest) := by
          rw [List.append_assoc (RTreeNode.objsList root2.children)
            (RTreeNode.objsList ns) (RTreeNode.objsList rest)]
          exact List.perm_append_comm
        have q4 : ((RTreeNode.objsList root2.children ++ RTreeNode.objsList ns) ++
            RTreeNode.objsList rest).Perm
            ((RTreeNode.objsList root.children ++ RTreeNode.objs nxt) ++
            RTreeNode.objsList rest) := e6.append_right _
        have q5 : ((RTreeNode.objsList root.children ++ RTreeNode.objs nxt) ++
            RTreeNode.objsList rest).Perm
            ((RTreeNode.objs nxt ++ RTreeNode.objsList rest) ++
            RTreeNode.objsList root.children) := by
          rw [List.append_assoc]
          exact List.perm_append_comm
        exact q1.trans (q2.trans (q4.trans q5))
      · simp only [insertLoopF, hres] at hoob hbad ⊢
        have habort := hfl.2.2 rfl
        rcases habort with h | h
        · rw [hoob] at h
          cases h
        · rw [hbad] at h
          cases h

/-- Containment soundness, nonemptiness and object count through one whole
public insert. -/
theorem insert_fullF_covers (opts : RTreeOptions)
    (hmin : 1 ≤ opts.min_size) (hminmax : opts.min_size ≤ opts.max_size)
    (hrc : opts.reinsertion_count ≤ opts.max_size) (tr : RTree) (t : Pt)
    (hok : RTreeNode.boxOkB tr.root.asNode = true)
    (hnel : RTreeNode.nonemptyDirsBList tr.root.children = true)
    (hoob : (RTree.insert_fullF opts tr t).2.oob = false)
    (hbad : (RTree.insert_fullF opts tr t).2.badDescent = false) :
    RTreeNode.boxOkB (RTree.insert_fullF opts tr t).1.root.asNode = true ∧
    RTreeNode.nonemptyDirsBList (RTree.insert_fullF opts tr t).1.root.children = true ∧
    (RTreeNode.objsList (RTree.insert_fullF opts tr t).1.root.children).Perm
      (t :: RTreeNode.objsList tr.root.children) ∧
    (RTree.insert_fullF opts tr t).1.size = tr.size + 1 := by
  have hstack1 : RTreeNode.boxOkBList [RTreeNode.Leaf t] = true := rfl
  have hstack2 : RTreeNode.nonemptyDirsBList [RTreeNode.Leaf t] = true := rfl
  obtain ⟨f1, f2, f3⟩ := insertLoopF_covers opts hmin hminmax hrc
    (1 + opts.reinsertion_count * countFalse (InsertionState.new (tr.root.depth + 1)).reinsertions)
    tr.root [RTreeNode.Leaf t] (InsertionState.new (tr.root.depth + 1))
    (by simp) hok hnel hstack1 hstack2 hoob hbad
  refine ⟨f1, f2, ?_, rfl⟩
  refine f3.trans ?_
  rw [RTreeNode.objsList, RTreeNode.objsList, RTreeNode.objs]
  simp

/-- The tree level invariant every public mutation preserves: the cached
boxes are containment sound, every directory below the root is nonempty,
the stored object count never exceeds the size field, and an emptied root
has been reset to depth 1. -/
def TreeInv (tr : RTree) : Prop :=
  RTreeNode.boxOkB tr.root.asNode = true ∧
  RTreeNode.nonemptyDirsBList tr.root.children = true ∧
  (RTreeNode.objsList tr.root.children).length ≤ tr.size ∧
  (tr.root.children = [] → tr.root.depth = 1)

theorem TreeInv_new : TreeInv RTree.new_with_options :=
  ⟨rfl, rfl, by simp [RTree.new_with_options, RTreeNode.objsList], fun _ => rfl⟩

/-- RTree::remove on an invariant satisfying tree: it succeeds exactly
when the object is stored, removes exactly one copy and decrements size,
leaves the tree untouched on failure, and preserves the invariant. -/
theorem RTree.remove_master (tr : RTree) (obj : Pt) (hinv : TreeInv tr) :
    TreeInv (RTree.remove tr obj).1 ∧
    ((RTree.remove tr obj).2 = true ↔
      obj ∈ RTreeNode.objsList tr.root.children) ∧
    ((RTree.remove tr obj).2 = true → ∃ l1 l2,
      RTreeNode.objsList tr.root.children = l1 ++ obj :: l2 ∧
      RTreeNode.objsList (RTree.remove tr obj).1.root.children = l1 ++ l2 ∧
      (RTree.remove tr obj).1.size = tr.size - 1) ∧
    ((RTree.remove tr obj).2 = false → (RTree.remove tr obj).1 = tr) := by
  obtain ⟨hok, hnel, hsz, hd1⟩ := hinv
  by_cases hsz0 : tr.size = 0
  · have hw : RTree.remove tr obj = (tr, false) := by
      unfold RTree.remove
      rw [if_pos hsz0]
    rw [hw]
    refine ⟨⟨hok, hnel, hsz, hd1⟩, ?_, ?_, fun _ => rfl⟩
    · constructor
      · intro h
        exact Bool.noConfusion h
      · intro hmem
        have hlen := List.length_pos_of_mem hmem
        omega
    · intro h
      exact Bool.noConfusion h
  · rcases tr with ⟨⟨bb, cs, d⟩, sz⟩
    obtain ⟨m1, m2, m3, m4, m5, m6⟩ := removeNode_master.1
      (RTreeNode.DirectoryNode bb cs d) obj bb cs d rfl hok hnel
    obtain ⟨b2, c2, d2, hshape⟩ := removeNode_dir_shape bb cs d obj
    have htd : (removeNode (RTreeNode.DirectoryNode bb cs d) obj).1.toData
        = (⟨b2, c2, d2⟩ : DirectoryNodeData) := by
      rw [hshape]
      rfl
    have hw : RTree.remove ⟨⟨bb, cs, d⟩, sz⟩ obj
        = (⟨if ((removeNode (RTreeNode.DirectoryNode bb cs d) obj).1.toData.children.isEmpty)
              then { (removeNode (RTreeNode.DirectoryNode bb cs d) obj).1.toData with
                depth := 1 }
              else (removeNode (RTreeNode.DirectoryNode bb cs d) obj).1.toData,
            if (removeNode (RTreeNode.DirectoryNode bb cs d) obj).2 then sz - 1 else sz⟩,
          (removeNode (RTreeNode.DirectoryNode bb cs d) obj).2) := by
      unfold RTree.remove DirectoryNodeData.remove
      rw [if_neg hsz0]
      rfl
    rw [htd] at hw
    have hobjres : RTreeNode.objs (removeNode (RTreeNode.DirectoryNode bb cs d) obj).1
        = RTreeNode.objsList c2 := by
      rw [hshape]
      rfl
    have hobjn : RTreeNode.objs (RTreeNode.DirectoryNode bb cs d)
        = RTreeNode.objsList cs := rfl
    have hchres : (removeNode (RTreeNode.DirectoryNode bb cs d) obj).1.childrenOf = c2 := by
      rw [hshape]
      rfl
    rcases hfl : (removeNode (RTreeNode.DirectoryNode bb cs d) obj).2 with _ | _
    · have hunch := m5 hfl
      rw [hunch] at htd
      have hcd : (⟨b2, c2, d2⟩ : DirectoryNodeData)
          = (⟨bb, cs, d⟩ : DirectoryNodeData) := by
        have h2 : (RTreeNode.DirectoryNode bb cs d).toData
            = (⟨bb, cs, d⟩ : DirectoryNodeData) := rfl
        rw [← htd, h2]
      rw [hcd] at hw
      have hfix : (if ((⟨bb, cs, d⟩ : DirectoryNodeData).children.isEmpty)
          then { (⟨bb, cs, d⟩ : DirectoryNodeData) with depth := 1 }
          else (⟨bb, cs, d⟩ : DirectoryNodeData)) = (⟨bb, cs, d⟩ : DirectoryNodeData) := by
        rcases hemp : cs.isEmpty with _ | _
        · rw [if_neg (by simp [hemp])]
        · rw [if_pos (by simp [hemp])]
          have hcse : cs = [] := List.isEmpty_iff.mp hemp
          have hdd := hd1 hcse
          simp only at hdd
          rw [hdd]
      rw [hfix, hfl] at hw
      have htr : RTree.remove ⟨⟨bb, cs, d⟩, sz⟩ obj = (⟨⟨bb, cs, d⟩, sz⟩, false) := by
        rw [hw]
        rfl
      rw [htr]
      refine ⟨⟨hok, hnel, hsz, hd1⟩, ?_, ?_, fun _ => rfl⟩
      · constructor
        · intro h
          exact Bool.noConfusion h
        · intro hmem
          have := m3.mpr hmem
          rw [hfl] at this
          exact Bool.noConfusion this
      · intro h
        exact Bool.noConfusion h
    · rw [hfl] at hw
      obtain ⟨l1, l2, he1, he2⟩ := m4 hfl
      rw [hobjn] at he1
      rw [hobjres] at he2
      have hlen1 : (RTreeNode.objsList cs).length = l1.length + l2.length + 1 := by
        rw [he1]
        simp only [List.length_append, List.length_cons]
        omega
      have hlen2 : (RTreeNode.objsList c2).length = l1.length + l2.length := by
        rw [he2]
        simp
      rw [hchres] at m2 m6
      rw [hshape] at m1
      have hsz2 : (RTreeNode.objsList cs).length ≤ sz := hsz
      rcases hemp : c2.isEmpty with _ | _
      · have htr : RTree.remove ⟨⟨bb, cs, d⟩, sz⟩ obj
            = (⟨⟨b2, c2, d2⟩, sz - 1⟩, true) := by
          rw [hw, if_neg (by simp [hemp])]
          rfl
        rw [htr]
        refine ⟨⟨?_, ?_, ?_, ?_⟩, ?_, ?_, ?_⟩
        · exact m1
        · exact m2
        · show (RTreeNode.objsList c2).length ≤ sz - 1
          omega
        · intro h2
          have h3 : c2 = [] := h2
          rw [h3] at hemp
          simp at hemp
        · exact ⟨fun _ => m3.mp hfl, fun _ => rfl⟩
        · intro _
          exact ⟨l1, l2, he1, he2, rfl⟩
        · intro h
          exact Bool.noConfusion h
      · have htr : RTree.remove ⟨⟨bb, cs, d⟩, sz⟩ obj
            = (⟨⟨b2, c2, 1⟩, sz - 1⟩, true) := by
          rw [hw, if_pos (by simp [hemp])]
          rfl
        rw [htr]
        have hcse : c2 = [] := List.isEmpty_iff.mp hemp
        refine ⟨⟨?_, ?_, ?_, fun _ => rfl⟩, ?_, ?_, ?_⟩
        · show RTreeNode.boxOkB (RTreeNode.DirectoryNode b2 c2 1) = true
          have hb : RTreeNode.boxOkB (RTreeNode.DirectoryNode b2 c2 d2) = true := m1
          subst hcse
          rcases b2 with _ | rb2
          · rfl
          · rw [RTreeNode.boxOkB_dir_some_iff] at hb ⊢
            exact ⟨fun c hc => absurd hc (List.not_mem_nil c), hb.2⟩
        · exact m2
        · show (RTreeNode.objsList c2).length ≤ sz - 1
          omega
        · exact ⟨fun _ => m3.mp hfl, fun _ => rfl⟩
        · intro _
          exact ⟨l1, l2, he1, he2, rfl⟩
        · intro h
          exact Bool.noConfusion h

/-- RTree::lookup_and_remove preserves the tree level invariant. -/
theorem RTree.lookup_and_remove_inv (tr : RTree) (q : Pt) (hinv : TreeInv tr) :
    TreeInv (RTree.lookup_and_remove tr q).1 := by
  obtain ⟨hok, hnel, hsz, hd1⟩ := hinv
  by_cases hsz0 : tr.size > 0
  · rcases tr with ⟨⟨bb, cs, d⟩, sz⟩
    obtain ⟨m1, m2, m3, m4, m5, m6⟩ := larNode_covers.1
      (RTreeNode.DirectoryNode bb cs d) q hok hnel
    obtain ⟨bb2, cs2, d2, hshape⟩ := larNode_dir_shape bb cs d q
    have htd : (larNode (RTreeNode.DirectoryNode bb cs d) q).1.toData
        = (⟨bb2, cs2, d2⟩ : DirectoryNodeData) := by
      rw [hshape]
      rfl
    have hw : RTree.lookup_and_remove ⟨⟨bb, cs, d⟩, sz⟩ q
        = (match (larNode (RTreeNode.DirectoryNode bb cs d) q).2 with
           | some v =>
             (⟨if ((larNode (RTreeNode.DirectoryNode bb cs d) q).1.toData.children.isEmpty)
                 then { (larNode (RTreeNode.DirectoryNode bb cs d) q).1.toData with depth := 1 }
                 else (larNode (RTreeNode.DirectoryNode bb cs d) q).1.toData, sz - 1⟩, some v)
           | none => (⟨(larNode (RTreeNode.DirectoryNode bb cs d) q).1.toData, sz⟩, none)) := by
      unfold RTree.lookup_and_remove
      rw [if_pos hsz0]
      rfl
    have hobjres : RTreeNode.objs (larNode (RTreeNode.DirectoryNode bb cs d) q).1
        = RTreeNode.objsList cs2 := by
      rw [hshape]
      rfl
    have hobjn : RTreeNode.objs (RTreeNode.DirectoryNode bb cs d)
        = RTreeNode.objsList cs := rfl
    have hchres : (larNode (RTreeNode.DirectoryNode bb cs d) q).1.childrenOf = cs2 := by
      rw [hshape]
      rfl
    rw [hobjres, hobjn] at m5 m6
    rw [hchres] at m2
    have hsz2 : (RTreeNode.objsList cs).length ≤ sz := hsz
    rcases hres : (larNode (RTreeNode.DirectoryNode bb cs d) q).2 with _ | v
    · rw [hres] at hw
      rw [htd] at hw
      have hunch := m4 hres
      rw [hshape] at hunch
      rw [hw]
      refine ⟨?_, m2, ?_, ?_⟩
      · show RTreeNode.boxOkB (RTreeNode.DirectoryNode bb2 cs2 d2) = true
        rw [← hshape]
        exact m1
      · show (RTreeNode.objsList cs2).length ≤ sz
        have hm5 := m5
        omega
      · intro h2
        show d2 = 1
        injection hunch with e1 e2 e3
        subst e2
        subst e3
        exact hd1 h2
    · rw [hres] at hw
      rw [htd] at hw
      have hm6 := m6 v hres
      rcases hemp : cs2.isEmpty with _ | _
      · have htr : RTree.lookup_and_remove ⟨⟨bb, cs, d⟩, sz⟩ q
            = (⟨⟨bb2, cs2, d2⟩, sz - 1⟩, some v) := by
          rw [hw, if_neg (by simp [hemp])]
        rw [htr]
        refine ⟨?_, m2, ?_, ?_⟩
        · show RTreeNode.boxOkB (RTreeNode.DirectoryNode bb2 cs2 d2) = true
          rw [← hshape]
          exact m1
        · show (RTreeNode.objsList cs2).length ≤ sz - 1
          omega
        · intro h2
          have h3 : cs2 = [] := h2
          rw [h3] at hemp
          simp at hemp
      · have htr : RTree.lookup_and_remove ⟨⟨bb, cs, d⟩, sz⟩ q
            = (⟨⟨bb2, cs2, 1⟩, sz - 1⟩, some v) := by
          rw [hw, if_pos (by simp [hemp])]
        rw [htr]
        have hcse : cs2 = [] := List.isEmpty_iff.mp hemp
        refine ⟨?_, m2, ?_, fun _ => rfl⟩
        · show RTreeNode.boxOkB (RTreeNode.DirectoryNode bb2 cs2 1) = true
          have hb : RTreeNode.boxOkB (RTreeNode.DirectoryNode bb2 cs2 d2) = true := by
            rw [← hshape]
            exact m1
          subst hcse
          rcases bb2 with _ | rb2
          · rfl
          · rw [RTreeNode.boxOkB_dir_some_iff] at hb ⊢
            exact ⟨fun c hc => absurd hc (List.not_mem_nil c), hb.2⟩
        · show (RTreeNode.objsList cs2).length ≤ sz - 1
          omega
  · have hw : RTree.lookup_and_remove tr q = (tr, none) := by
      unfold RTree.lookup_and_remove
      rw [if_neg hsz0]
    rw [hw]
    exact ⟨hok, hnel, hsz, hd1⟩

/-- The tree level invariant through any panic free checked program. -/
theorem foldl_opStepF_inv (opts : RTreeOptions)
    (hmin : 1 ≤ opts.min_size) (hminmax : opts.min_size ≤ opts.max_size)
    (hrc : opts.reinsertion_count ≤ opts.max_size) :
    ∀ (ops : List Op) (tr : RTree) (b : Bool),
    TreeInv tr →
    (ops.foldl (opStepF opts) (tr, b)).2 = true →
    TreeInv (ops.foldl (opStepF opts) (tr, b)).1 := by
  intro ops
  induction ops with
  | nil =>
    intro tr b hinv hok
    exact hinv
  | cons op rest ih =>
    intro tr b hinv hok
    simp only [List.foldl_cons] at hok ⊢
    cases op with
    | ins p =>
      have hb3 : (b && !(RTree.insert_fullF opts tr p).2.oob &&
          !(RTree.insert_fullF opts tr p).2.badDescent) = true :=
        foldl_opStepF_bool opts rest _ _ hok
      simp only [Bool.and_eq_true, Bool.not_eq_true'] at hb3
      obtain ⟨⟨hb, hoo⟩, hbd⟩ := hb3
      obtain ⟨g1, g2, g3, g4⟩ := insert_fullF_covers opts hmin hminmax hrc tr p
        hinv.1 hinv.2.1 hoo hbd
      have hstep : opStepF opts (tr, b) (Op.ins p)
          = ((RTree.insert_fullF opts tr p).1, true) := by
        simp only [opStepF, hb, hoo, hbd]
        rfl
      rw [hstep] at hok ⊢
      refine ih _ _ ⟨g1, g2, ?_, ?_⟩ hok
      · rw [g3.length_eq, g4]
        simp only [List.length_cons]
        have := hinv.2.2.1
        omega
      · intro h2
        have hlen := g3.length_eq
        rw [h2] at hlen
        simp only [RTreeNode.objsList, List.length_cons] at hlen
        exact absurd hlen.symm (by simp)
    | rem p =>
      have hstep : opStepF opts (tr, b) (Op.rem p)
          = ((RTree.remove tr p).1, b) := rfl
      rw [hstep] at hok ⊢
      exact ih _ _ (RTree.remove_master tr p hinv).1 hok
    | lar p =>
      have hstep : opStepF opts (tr, b) (Op.lar p)
          = ((RTree.lookup_and_remove tr p).1, b) := rfl
      rw [hstep] at hok ⊢
      exact ih _ _ (RTree.lookup_and_remove_inv tr p hinv) hok

/-- The tree reached by any panic free program satisfies the invariant. -/
theorem runOps_inv (opts : RTreeOptions)
    (hmin : 1 ≤ opts.min_size) (hminmax : opts.min_size ≤ opts.max_size)
    (hrc : opts.reinsertion_count ≤ opts.max_size) (ops : List Op)
    (hok : (runOpsChecked opts ops).2 = true) :
    TreeInv (runOps opts ops) := by
  rw [runOpsChecked_eq_fuel, runOpsCheckedF] at hok
  rw [runOps_eq_fuel, runOpsF]
  have hfst := foldl_opStepF_fst opts ops RTree.new_with_options true
  rw [← hfst]
  exact foldl_opStepF_inv opts hmin hminmax hrc ops RTree.new_with_options true
    TreeInv_new hok

/-! Child count bounds through insertion. -/

namespace DirectoryNodeData

/-- Shape of split with the partition index between min_size and the
child count minus min_size, available as soon as twice min_size fits the
child count. -/
theorem split_shape_counts (opts : RTreeOptions) (dd : DirectoryNodeData)
    (h2len : 2 * opts.min_size ≤ dd.children.length) :
    ∃ (sorted : List RTreeNode) (k : Nat), sorted.Perm dd.children ∧
      opts.min_size ≤ k ∧ k + opts.min_size ≤ sorted.length ∧
      (split opts dd).1 = update_mbr { dd with children := sorted.take k } ∧
      (split opts dd).2 = (new_parent (sorted.drop k) dd.depth).asNode := by
  unfold split
  set axis_sorted := get_split_axis opts dd.children with haxis
  set sorted := sortByKey (lowerNth axis_sorted.1) axis_sorted.2 with hsorted
  have hperm : sorted.Perm dd.children :=
    (sortByKey_perm _ _).trans (get_split_axis_perm opts dd.children)
  have hslen : sorted.length = dd.children.length := hperm.length_eq
  set best := (splitKs opts.min_size sorted.length).foldl
    (fun (st : (Int × Int) × Nat) k =>
      let first_mbr := mbrOf1 (sorted.take k)
      let second_mbr := mbrOf1 (sorted.drop k)
      let overlap_value := (first_mbr.intersect second_mbr).area
      let area_value := first_mbr.area + second_mbr.area
      let new_best := (overlap_value, area_value)
      if lexLt2 new_best st.1 || decide (k = opts.min_size) then (new_best, k) else st)
    ((0, 0), opts.min_size) with hbest
  have hk : best.2 = opts.min_size ∨ best.2 ∈ splitKs opts.min_size sorted.length := by
    rw [hbest]
    exact foldl_second_mem _ (fun st k => by dsimp only; split <;> simp) _ _
  refine ⟨sorted, best.2, hperm, ?_, ?_, rfl, rfl⟩
  · rcases hk with h | h
    · omega
    · exact (splitKs_bounds h).1
  · rcases hk with h | h
    · omega
    · exact (splitKs_bounds h).2

/-- Child count bounds through one overflow resolution. -/
theorem resolve_overflow_counts (opts : RTreeOptions) (dd : DirectoryNodeData)
    (st : InsertionState)
    (hmin : 1 ≤ opts.min_size)
    (h2m : 2 * opts.min_size ≤ opts.max_size + 1)
    (hrc1 : 1 ≤ opts.reinsertion_count)
    (hrcm : opts.reinsertion_count + opts.min_size ≤ opts.max_size + 1)
    (hcnt : RTreeNode.childCountBelowOkBList opts.min_size opts.max_size dd.children = true)
    (hlen : dd.children.length ≤ opts.max_size + 1) :
    ((resolve_overflow opts dd st).2.1.oob = false →
      (resolve_overflow opts dd st).2.2 ≠ InsertionResult.Abort) ∧
    RTreeNode.childCountBelowOkBList opts.min_size opts.max_size
      (resolve_overflow opts dd st).1.children = true ∧
    ((resolve_overflow opts dd st).2.2 ≠ InsertionResult.Abort →
      (resolve_overflow opts dd st).1.children.length ≤ opts.max_size) ∧
    min opts.min_size dd.children.length ≤ (resolve_overflow opts dd st).1.children.length ∧
    (∀ c, (resolve_overflow opts dd st).2.2 = InsertionResult.Split c →
      opts.min_size ≤ (resolve_overflow opts dd st).1.children.length ∧
      RTreeNode.childCountBelowOkB opts.min_size opts.max_size c = true) ∧
    (∀ ns, (resolve_overflow opts dd st).2.2 = InsertionResult.Reinsert ns →
      ∀ n ∈ ns, RTreeNode.childCountBelowOkB opts.min_size opts.max_size n = true) := by
  have hcm := (RTreeNode.childCountBelowOkBList_iff _ _ _).mp hcnt
  unfold resolve_overflow
  split
  case isTrue hover =>
    have hlen1 : dd.children.length = opts.max_size + 1 := by omega
    rcases hidx : st.reinsertions[dd.depth]? with _ | flag
    · refine ⟨?_, hcnt, ?_, Nat.min_le_right _ _, ?_, ?_⟩
      · intro h
        simp at h
      · intro h
        exact absurd rfl h
      · intro c hc
        exact absurd hc (by simp)
      · intro ns hns
        exact absurd hns (by simp)
    · rcases flag with _ | _
      · -- reinsert branch
        obtain ⟨sorted, hperm, h1, h2⟩ := reinsert_shape opts dd
        simp only [Bool.false_eq_true, if_false, h1, h2]
        have hslen : sorted.length = dd.children.length := hperm.length_eq
        have hmemt : ∀ c ∈ sorted.take (sorted.length - opts.reinsertion_count),
            c ∈ dd.children := fun c hc => hperm.mem_iff.mp (List.mem_of_mem_take hc)
        have hmemd : ∀ c ∈ sorted.drop (sorted.length - opts.reinsertion_count),
            c ∈ dd.children := fun c hc => hperm.mem_iff.mp (List.mem_of_mem_drop hc)
        have hlt : (update_mbr { dd with
            children := sorted.take (sorted.length - opts.reinsertion_count) }).children.length
            = sorted.length - opts.reinsertion_count := by
          show (sorted.take (sorted.length - opts.reinsertion_count)).length = _
          rw [List.length_take]
          omega
        refine ⟨fun _ => by simp, ?_, ?_, ?_, ?_, ?_⟩
        · show RTreeNode.childCountBelowOkBList opts.min_size opts.max_size
            (sorted.take (sorted.length - opts.reinsertion_count)) = true
          exact (RTreeNode.childCountBelowOkBList_iff _ _ _).mpr
            (fun c hc => hcm c (hmemt c hc))
        · intro h
          rw [hlt]
          omega
        · rw [hlt]
          omega
        · intro c hc
          exact absurd hc (by simp)
        · intro ns hns
          rw [InsertionResult.Reinsert.injEq] at hns
          subst hns
          intro n hn
          exact hcm n (hmemd n hn)
      · -- split branch
        have h2len : 2 * opts.min_size ≤ dd.children.length := by omega
        obtain ⟨sorted, k, hperm, hk1, hk2, h1, h2⟩ := split_shape_counts opts dd h2len
        simp only [if_true, h1, h2]
        have hslen : sorted.length = dd.children.length := hperm.length_eq
        have hmemt : ∀ c ∈ sorted.take k, c ∈ dd.children :=
          fun c hc => hperm.mem_iff.mp (List.mem_of_mem_take hc)
        have hmemd : ∀ c ∈ sorted.drop k, c ∈ dd.children :=
          fun c hc => hperm.mem_iff.mp (List.mem_of_mem_drop hc)
        have hlt : (update_mbr { dd with children := sorted.take k }).children.length = k := by
          show (sorted.take k).length = k
          rw [List.length_take]
          omega
        refine ⟨fun _ => by simp, ?_, ?_, ?_, ?_, ?_⟩
        · show RTreeNode.childCountBelowOkBList opts.min_size opts.max_size
            (sorted.take k) = true
          exact (RTreeNode.childCountBelowOkBList_iff _ _ _).mpr
            (fun c hc => hcm c (hmemt c hc))
        · intro h
          rw [hlt]
          omega
        · rw [hlt]
          omega
        · intro c hc
          rw [InsertionResult.Split.injEq] at hc
          subst hc
          refine ⟨by rw [hlt]; omega, ?_⟩
          show RTreeNode.childCountBelowOkB opts.min_size opts.max_size
            (RTreeNode.DirectoryNode (mbrOfChildren (sorted.drop k)) (sorted.drop k) dd.depth)
            = true
          rw [RTreeNode.childCountBelowOkB_dir_iff]
          refine ⟨?_, fun c hc => hcm c (hmemd c hc)⟩
          rw [List.length_drop]
          omega
        · intro ns hns
          exact absurd hns (by simp)
  case isFalse hover =>
    refine ⟨fun _ => by simp, hcnt, ?_, Nat.min_le_right _ _, ?_, ?_⟩
    · intro h
      show dd.children.length ≤ opts.max_size
      omega
    · intro c hc
      exact absurd hc (by simp)
    · intro ns hns
      exact absurd hns (by simp)

/-- Child count bounds of one overflow resolution after hanging one
extra node into a directory within bounds. -/
theorem resolve_overflow_add_one_counts (opts : RTreeOptions) (st : InsertionState)
    (dd0 : DirectoryNodeData) (x : RTreeNode)
    (hmin : 1 ≤ opts.min_size)
    (h2m : 2 * opts.min_size ≤ opts.max_size + 1)
    (hrc1 : 1 ≤ opts.reinsertion_count)
    (hrcm : opts.reinsertion_count + opts.min_size ≤ opts.max_size + 1)
    (hcnt0 : RTreeNode.childCountBelowOkBList opts.min_size opts.max_size dd0.children = true)
    (hlen0 : dd0.children.length ≤ opts.max_size)
    (hx : RTreeNode.childCountBelowOkB opts.min_size opts.max_size x = true) :
    ((resolve_overflow opts (add_children dd0 [x]) st).2.1.oob = false →
      (resolve_overflow opts (add_children dd0 [x]) st).2.2 ≠ InsertionResult.Abort) ∧
    RTreeNode.childCountBelowOkBList opts.min_size opts.max_size
      (resolve_overflow opts (add_children dd0 [x]) st).1.children = true ∧
    ((resolve_overflow opts (add_children dd0 [x]) st).2.2 ≠ InsertionResult.Abort →
      (resolve_overflow opts (add_children dd0 [x]) st).1.children.length ≤ opts.max_size) ∧
    min opts.min_size (dd0.children.length + 1)
      ≤ (resolve_overflow opts (add_children dd0 [x]) st).1.children.length ∧
    (∀ c, (resolve_overflow opts (add_children dd0 [x]) st).2.2 = InsertionResult.Split c →
      opts.min_size ≤ (resolve_overflow opts (add_children dd0 [x]) st).1.children.length ∧
      RTreeNode.childCountBelowOkB opts.min_size opts.max_size c = true) ∧
    (∀ ns, (resolve_overflow opts (add_children dd0 [x]) st).2.2
        = InsertionResult.Reinsert ns →
      ∀ n ∈ ns, RTreeNode.childCountBelowOkB opts.min_size opts.max_size n = true) := by
  have hch : (add_children dd0 [x]).children = dd0.children ++ [x] := by
    rw [add_children_eq]
  have hcnt : RTreeNode.childCountBelowOkBList opts.min_size opts.max_size
      (add_children dd0 [x]).children = true := by
    rw [hch]
    rw [RTreeNode.childCountBelowOkBList_iff]
    intro c hc
    rcases List.mem_append.mp hc with h | h
    · exact (RTreeNode.childCountBelowOkBList_iff _ _ _).mp hcnt0 c h
    · rw [List.mem_singleton] at h
      subst h
      exact hx
  have hlen : (add_children dd0 [x]).children.length ≤ opts.max_size + 1 := by
    rw [hch]
    simp only [List.length_append, List.length_singleton]
    omega
  obtain ⟨b1, b2, b3, b4, b5, b6⟩ := resolve_overflow_counts opts (add_children dd0 [x]) st
    hmin h2m hrc1 hrcm hcnt hlen
  refine ⟨b1, b2, b3, ?_, b5, b6⟩
  rw [hch] at b4
  simp only [List.length_append, List.length_singleton] at b4
  exact b4

end DirectoryNodeData

namespace DirectoryNodeData

/-- Master child count lemma of one insertion: the node stays within the
upper bound, no node below it leaves the bounds, a split partner is
within the bounds, and every reinsertion payload node is within the
bounds. -/
theorem insertNode_counts_and (opts : RTreeOptions)
    (hmin : 1 ≤ opts.min_size)
    (h2m : 2 * opts.min_size ≤ opts.max_size + 1)
    (hrc1 : 1 ≤ opts.reinsertion_count)
    (hrcm : opts.reinsertion_count + opts.min_size ≤ opts.max_size + 1) :
    (∀ (node t : RTreeNode) (st : InsertionState),
      ∀ bb cs d, node = RTreeNode.DirectoryNode bb cs d →
      RTreeNode.childCountBelowOkBList opts.min_size opts.max_size cs = true →
      cs.length ≤ opts.max_size →
      RTreeNode.childCountBelowOkB opts.min_size opts.max_size t = true →
      (insertNode opts node t st).2.1.oob = false →
      (insertNode opts node t st).2.1.badDescent = false →
      ((insertNode opts node t st).2.2 ≠ InsertionResult.Abort ∧
       RTreeNode.childCountBelowOkBList opts.min_size opts.max_size
         (insertNode opts node t st).1.children = true ∧
       (insertNode opts node t st).1.children.length ≤ opts.max_size ∧
       min opts.min_size cs.length ≤ (insertNode opts node t st).1.children.length ∧
       (∀ c, (insertNode opts node t st).2.2 = InsertionResult.Split c →
         opts.min_size ≤ (insertNode opts node t st).1.children.length ∧
         RTreeNode.childCountBelowOkB opts.min_size opts.max_size c = true) ∧
       (∀ ns, (insertNode opts node t st).2.2 = InsertionResult.Reinsert ns →
         ∀ n ∈ ns, RTreeNode.childCountBelowOkB opts.min_size opts.max_size n = true))) ∧
    (∀ (cs : List RTreeNode) (i : Nat) (t : RTreeNode) (st : InsertionState),
      ∀ r, insertDescend opts cs i t st = some r →
      RTreeNode.childCountBelowOkBList opts.min_size opts.max_size cs = true →
      RTreeNode.childCountBelowOkB opts.min_size opts.max_size t = true →
      r.2.1.oob = false →
      r.2.1.badDescent = false →
      (r.2.2 ≠ InsertionResult.Abort ∧
       RTreeNode.childCountBelowOkBList opts.min_size opts.max_size r.1 = true ∧
       r.1.length = cs.length ∧
       (∀ c, r.2.2 = InsertionResult.Split c →
         RTreeNode.childCountBelowOkB opts.min_size opts.max_size c = true) ∧
       (∀ ns, r.2.2 = InsertionResult.Reinsert ns →
         ∀ n ∈ ns, RTreeNode.childCountBelowOkB opts.min_size opts.max_size n = true))) := by
  apply DirectoryNodeData.insertNode.mutual_induct opts
    (motive_1 := fun node t st =>
      ∀ bb cs d, node = RTreeNode.DirectoryNode bb cs d →
      RTreeNode.childCountBelowOkBList opts.min_size opts.max_size cs = true →
      cs.length ≤ opts.max_size →
      RTreeNode.childCountBelowOkB opts.min_size opts.max_size t = true →
      (insertNode opts node t st).2.1.oob = false →
      (insertNode opts node t st).2.1.badDescent = false →
      ((insertNode opts node t st).2.2 ≠ InsertionResult.Abort ∧
       RTreeNode.childCountBelowOkBList opts.min_size opts.max_size
         (insertNode opts node t st).1.children = true ∧
       (insertNode opts node t st).1.children.length ≤ opts.max_size ∧
       min opts.min_size cs.length ≤ (insertNode opts node t st).1.children.length ∧
       (∀ c, (insertNode opts node t st).2.2 = InsertionResult.Split c →
         opts.min_size ≤ (insertNode opts node t st).1.children.length ∧
         RTreeNode.childCountBelowOkB opts.min_size opts.max_size c = true) ∧
       (∀ ns, (insertNode opts node t st).2.2 = InsertionResult.Reinsert ns →
         ∀ n ∈ ns, RTreeNode.childCountBelowOkB opts.min_size opts.max_size n = true)))
    (motive_2 := fun cs i t st =>
      ∀ r, insertDescend opts cs i t st = some r →
      RTreeNode.childCountBelowOkBList opts.min_size opts.max_size cs = true →
      RTreeNode.childCountBelowOkB opts.min_size opts.max_size t = true →
      r.2.1.oob = false →
      r.2.1.badDescent = false →
      (r.2.2 ≠ InsertionResult.Abort ∧
       RTreeNode.childCountBelowOkBList opts.min_size opts.max_size r.1 = true ∧
       r.1.length = cs.length ∧
       (∀ c, r.2.2 = InsertionResult.Split c →
         RTreeNode.childCountBelowOkB opts.min_size opts.max_size c = true) ∧
       (∀ ns, r.2.2 = InsertionResult.Reinsert ns →
         ∀ n ∈ ns, RTreeNode.childCountBelowOkB opts.min_size opts.max_size n = true)))
  case _ =>
    intro t st a bb cs d hnode
    exact absurd hnode (by simp)
  case _ =>
    intro t st bb cs bb2 cs2 d2 hnode hcl hlen ht hoob hbad
    injection hnode with h1 h2 h3
    subst h1
    subst h2
    subst h3
    rw [insertNode] at hoob hbad ⊢
    rw [if_pos rfl] at hoob hbad ⊢
    have hch : (update_mbr_with_element ⟨bb, cs, t.depth + 1⟩ t.mbr).children = cs := by
      rw [update_mbr_with_element_eq]
    obtain ⟨b1, b2, b3, b4, b5, b6⟩ :=
      resolve_overflow_add_one_counts opts st
        (update_mbr_with_element ⟨bb, cs, t.depth + 1⟩ t.mbr) t
        hmin h2m hrc1 hrcm
        (by rw [hch]; exact hcl)
        (by rw [hch]; exact hlen)
        ht
    have hne := b1 hoob
    refine ⟨hne, b2, b3 hne, ?_, b5, b6⟩
    rw [hch] at b4
    have hm : min opts.min_size cs.length ≤ min opts.min_size (cs.length + 1) := by
      omega
    exact le_trans hm b4
  case _ =>
    intro t st bb cs d hdep r hdes child harm ih bb2 cs2 d2 hnode hcl hlen ht hoob hbad
    injection hnode with h1 h2 h3
    subst h1
    subst h2
    subst h3
    rw [insertNode] at hoob hbad ⊢
    simp only [if_neg hdep, hdes, harm] at hoob hbad ⊢
    obtain ⟨hfb, hfo2, _⟩ := resolve_overflow_flags opts
      ({ update_mbr_with_element ⟨bb, cs, d⟩ t.mbr with children := r.1 }.add_children [child])
      r.2.1
    have hro : r.2.1.oob = false := hfo2 hoob
    have hrb : r.2.1.badDescent = false := by rw [hfb] at hbad; exact hbad
    obtain ⟨c1, c2, c3, c4, c5⟩ := ih r hdes hcl ht hro hrb
    have hcch := c4 child harm
    have hch : ({ update_mbr_with_element ⟨bb, cs, d⟩ t.mbr with
        children := r.1 } : DirectoryNodeData).children = r.1 := rfl
    obtain ⟨b1, b2, b3, b4, b5, b6⟩ :=
      resolve_overflow_add_one_counts opts r.2.1
        { update_mbr_with_element ⟨bb, cs, d⟩ t.mbr with children := r.1 } child
        hmin h2m hrc1 hrcm
        (by rw [hch]; exact c2)
        (by rw [hch, c3]; exact hlen)
        hcch
    have hne := b1 hoob
    refine ⟨hne, b2, b3 hne, ?_, b5, b6⟩
    rw [hch] at b4
    rw [c3] at b4
    have hm : min opts.min_size cs.length ≤ min opts.min_size (cs.length + 1) := by
      omega
    exact le_trans hm b4
  case _ =>
    intro t st bb cs d hdep r hdes ns harm ih bb2 cs2 d2 hnode hcl hlen ht hoob hbad
    injection hnode with h1 h2 h3
    subst h1
    subst h2
    subst h3
    rw [insertNode] at hoob hbad ⊢
    simp only [if_neg hdep, hdes, harm] at hoob hbad ⊢
    obtain ⟨c1, c2, c3, c4, c5⟩ := ih r hdes hcl ht hoob hbad
    refine ⟨by simp, ?_, ?_, ?_, ?_, ?_⟩
    · show RTreeNode.childCountBelowOkBList opts.min_size opts.max_size r.1 = true
      exact c2
    · show r.1.length ≤ opts.max_size
      rw [c3]
      exact hlen
    · show min opts.min_size cs.length ≤ r.1.length
      rw [c3]
      exact Nat.min_le_right _ _
    · intro c hc
      exact absurd hc (by simp)
    · intro ns2 hns
      rw [InsertionResult.Reinsert.injEq] at hns
      subst hns
      exact c5 ns harm
  case _ =>
    intro t st bb cs d hdep r hdes harm ih bb2 cs2 d2 hnode hcl hlen ht hoob hbad
    injection hnode with h1 h2 h3
    subst h1
    subst h2
    subst h3
    rw [insertNode] at hoob hbad ⊢
    simp only [if_neg hdep, hdes, harm] at hoob hbad ⊢
    obtain ⟨c1, c2, c3, c4, c5⟩ := ih r hdes hcl ht hoob hbad
    refine ⟨by simp, ?_, ?_, ?_, ?_, ?_⟩
    · show RTreeNode.childCountBelowOkBList opts.min_size opts.max_size r.1 = true
      exact c2
    · show r.1.length ≤ opts.max_size
      rw [c3]
      exact hlen
    · show min opts.min_size cs.length ≤ r.1.length
      rw [c3]
      exact Nat.min_le_right _ _
    · intro c hc
      exact absurd hc (by simp)
    · intro ns hns
      exact absurd hns (by simp)
  case _ =>
    intro t st bb cs d hdep r hdes harm ih bb2 cs2 d2 hnode hcl hlen ht hoob hbad
    injection hnode with h1 h2 h3
    subst h1
    subst h2
    subst h3
    rw [insertNode] at hoob hbad
    simp only [if_neg hdep, hdes, harm] at hoob hbad
    obtain ⟨c1, c2, c3, c4, c5⟩ := ih r hdes hcl ht hoob hbad
    exact absurd harm c1
  case _ =>
    intro t st bb cs d hdep hdes ih bb2 cs2 d2 hnode hcl hlen ht hoob hbad
    injection hnode with h1 h2 h3
    subst h1
    subst h2
    subst h3
    rw [insertNode] at hbad
    simp only [if_neg hdep, hdes] at hbad
    simp at hbad
  case _ =>
    intro i t st r hr
    simp only [insertDescend] at hr
    cases hr
  case _ =>
    intro t st rest bb cs d ih r hr hcll ht hoob hbad
    simp only [insertDescend, Option.some.injEq] at hr
    subst hr
    rw [RTreeNode.childCountBelowOkBList] at hcll
    rw [Bool.and_eq_true] at hcll
    have hhead := hcll.1
    rw [RTreeNode.childCountBelowOkB_dir_iff] at hhead
    obtain ⟨m1, m2, m3, m4, m5, m6⟩ := ih bb cs d rfl
      ((RTreeNode.childCountBelowOkBList_iff _ _ _).mpr hhead.2) hhead.1.2 ht hoob hbad
    refine ⟨m1, ?_, by simp, ?_, ?_⟩
    · rw [RTreeNode.childCountBelowOkBList, Bool.and_eq_true]
      refine ⟨?_, hcll.2⟩
      rw [DirectoryNodeData.asNode, RTreeNode.childCountBelowOkB_dir_iff]
      refine ⟨⟨?_, m3⟩, (RTreeNode.childCountBelowOkBList_iff _ _ _).mp m2⟩
      have hlo : opts.min_size ≤ cs.length := hhead.1.1
      omega
    · intro c hc
      exact (m5 c hc).2
    · intro ns hns
      exact m6 ns hns
  case _ =>
    intro t st rest p r hr
    simp only [insertDescend] at hr
    cases hr
  case _ =>
    intro t st c rest i r0 hsome ih r hr hcll ht hoob hbad
    simp only [insertDescend, hsome, Option.some.injEq] at hr
    subst hr
    rw [RTreeNode.childCountBelowOkBList] at hcll
    rw [Bool.and_eq_true] at hcll
    obtain ⟨m1, m2, m3, m4, m5⟩ := ih r0 hsome hcll.2 ht hoob hbad
    refine ⟨m1, ?_, by simp [m3], m4, m5⟩
    rw [RTreeNode.childCountBelowOkBList, Bool.and_eq_true]
    exact ⟨hcll.1, m2⟩
  case _ =>
    intro t st c rest i hnone ih r hr
    rw [insertDescend.eq_def] at hr
    simp only [hnone] at hr
    cases hr

/-- Child count bounds at the insert entry point. -/
theorem insert_counts (opts : RTreeOptions)
    (hmin : 1 ≤ opts.min_size)
    (h2m : 2 * opts.min_size ≤ opts.max_size + 1)
    (hrc1 : 1 ≤ opts.reinsertion_count)
    (hrcm : opts.reinsertion_count + opts.min_size ≤ opts.max_size + 1)
    (bb : Option Rect) (cs : List RTreeNode) (d : Nat) (t : RTreeNode) (st : InsertionState)
    (hcl : RTreeNode.childCountBelowOkBList opts.min_size opts.max_size cs = true)
    (hlen : cs.length ≤ opts.max_size)
    (ht : RTreeNode.childCountBelowOkB opts.min_size opts.max_size t = true)
    (hoob : (insert opts bb cs d t st).2.1.oob = false)
    (hbad : (insert opts bb cs d t st).2.1.badDescent = false) :
    (insert opts bb cs d t st).2.2 ≠ InsertionResult.Abort ∧
    RTreeNode.childCountBelowOkBList opts.min_size opts.max_size
      (insert opts bb cs d t st).1.children = true ∧
    (insert opts bb cs d t st).1.children.length ≤ opts.max_size ∧
    min opts.min_size cs.length ≤ (insert opts bb cs d t st).1.children.length ∧
    (∀ c, (insert opts bb cs d t st).2.2 = InsertionResult.Split c →
      opts.min_size ≤ (insert opts bb cs d t st).1.children.length ∧
      RTreeNode.childCountBelowOkB opts.min_size opts.max_size c = true) ∧
    (∀ ns, (insert opts bb cs d t st).2.2 = InsertionResult.Reinsert ns →
      ∀ n ∈ ns, RTreeNode.childCountBelowOkB opts.min_size opts.max_size n = true) :=
  (insertNode_counts_and opts hmin h2m hrc1 hrcm).1 (RTreeNode.DirectoryNode bb cs d) t st
    bb cs d rfl hcl hlen ht hoob hbad

end DirectoryNodeData

/-- Child count bounds through the insertion driver loop. -/
theorem insertLoopF_counts (opts : RTreeOptions)
    (hmin : 1 ≤ opts.min_size) (hminmax : opts.min_size < opts.max_size)
    (h2m : 2 * opts.min_size ≤ opts.max_size + 1)
    (hrc1 : 1 ≤ opts.reinsertion_count)
    (hrcm : opts.reinsertion_count + opts.min_size ≤ opts.max_size + 1) :
    ∀ (fuel : Nat) (root : DirectoryNodeData) (stack : List RTreeNode) (st : InsertionState),
    RTreeNode.childCountBelowOkBList opts.min_size opts.max_size root.children = true →
    root.children.length ≤ opts.max_size →
    (∀ n ∈ stack, RTreeNode.childCountBelowOkB opts.min_size opts.max_size n = true) →
    (insertLoopF opts fuel root stack st).2.oob = false →
    (insertLoopF opts fuel root stack st).2.badDescent = false →
    RTreeNode.childCountBelowOkBList opts.min_size opts.max_size
      (insertLoopF opts fuel root stack st).1.children = true ∧
    (insertLoopF opts fuel root stack st).1.children.length ≤ opts.max_size := by
  intro fuel
  induction fuel with
  | zero =>
    intro root stack st hcl hlen hst hoob hbad
    match stack with
    | [] =>
      simp only [insertLoopF]
      exact ⟨hcl, hlen⟩
    | nxt :: rest =>
      simp only [insertLoopF]
      exact ⟨hcl, hlen⟩
  | succ fuel ih =>
    intro root stack st hcl hlen hst hoob hbad
    match stack with
    | [] =>
      simp only [insertLoopF]
      exact ⟨hcl, hlen⟩
    | nxt :: rest =>
      rcases hres : DirectoryNodeData.insert opts root.bounding_box root.children
        root.depth nxt st with ⟨root2, st2, result⟩
      have hfl := DirectoryNodeData.insert_flags opts root.bounding_box root.children
        root.depth nxt st
      rw [hres] at hfl
      simp only at hfl
      rcases result with _ | node | ns | _
      · -- Complete
        simp only [insertLoopF, hres] at hoob hbad ⊢
        have hstep2o := (insertLoopF_flags opts fuel root2 rest st2).1 hoob
        have hstep2b := (insertLoopF_flags opts fuel root2 rest st2).2 hbad
        obtain ⟨e1, e2, e3, e4, e5, e6⟩ :=
          DirectoryNodeData.insert_counts opts hmin h2m hrc1 hrcm root.bounding_box
            root.children root.depth nxt st hcl hlen
            (hst nxt (List.mem_cons_self _ _))
            (by rw [hres]; exact hstep2o) (by rw [hres]; exact hstep2b)
        rw [hres] at e2 e3
        simp only at e2 e3
        exact ih root2 rest st2 e2 e3
          (fun n hn => hst n (List.mem_cons_of_mem _ hn)) hoob hbad
      · -- Split
        simp only [insertLoopF, hres] at hoob hbad ⊢
        have hstep2o := (insertLoopF_flags opts fuel _ rest st2).1 hoob
        have hstep2b := (insertLoopF_flags opts fuel _ rest st2).2 hbad
        obtain ⟨e1, e2, e3, e4, e5, e6⟩ :=
          DirectoryNodeData.insert_counts opts hmin h2m hrc1 hrcm root.bounding_box
            root.children root.depth nxt st hcl hlen
            (hst nxt (List.mem_cons_self _ _))
            (by rw [hres]; exact hstep2o) (by rw [hres]; exact hstep2b)
        rw [hres] at e2 e3 e5
        simp only at e2 e3 e5
        obtain ⟨hlo2, hnodecnt⟩ := e5 node rfl
        set nr := DirectoryNodeData.add_children ⟨none, [], root2.depth + 1⟩
          [root2.asNode, node] with hnr
        have hnrch : nr.children = [root2.asNode, node] := by
          rw [hnr, DirectoryNodeData.add_children_eq]
          simp
        have hcnr : RTreeNode.childCountBelowOkBList opts.min_size opts.max_size
            nr.children = true := by
          rw [hnrch]
          rw [RTreeNode.childCountBelowOkBList_iff]
          intro c hc
          simp only [List.mem_cons, List.not_mem_nil, or_false] at hc
          rcases hc with rfl | rfl
          · rw [DirectoryNodeData.asNode, RTreeNode.childCountBelowOkB_dir_iff]
            exact ⟨⟨hlo2, e3⟩, (RTreeNode.childCountBelowOkBList_iff _ _ _).mp e2⟩
          · exact hnodecnt
        have hlnr : nr.children.length ≤ opts.max_size := by
          rw [hnrch]
          simp only [List.length_cons, List.length_nil]
          omega
        exact ih nr rest st2 hcnr hlnr
          (fun n hn => hst n (List.mem_cons_of_mem _ hn)) hoob hbad
      · -- Reinsert
        simp only [insertLoopF, hres] at hoob hbad ⊢
        have hstep2o := (insertLoopF_flags opts fuel root2 (ns.reverse ++ rest) st2).1 hoob
        have hstep2b := (insertLoopF_flags opts fuel root2 (ns.reverse ++ rest) st2).2 hbad
        obtain ⟨e1, e2, e3, e4, e5, e6⟩ :=
          DirectoryNodeData.insert_counts opts hmin h2m hrc1 hrcm root.bounding_box
            root.children root.depth nxt st hcl hlen
            (hst nxt (List.mem_cons_self _ _))
            (by rw [hres]; exact hstep2o) (by rw [hres]; exact hstep2b)
        rw [hres] at e2 e3 e6
        simp only at e2 e3 e6
        have hns := e6 ns rfl
        have hstack : ∀ n ∈ ns.reverse ++ rest,
            RTreeNode.childCountBelowOkB opts.min_size opts.max_size n = true := by
          intro n hn
          rcases List.mem_append.mp hn with h | h
          · exact hns n (List.mem_reverse.mp h)
          · exact hst n (List.mem_cons_of_mem _ h)
        exact ih root2 (ns.reverse ++ rest) st2 e2 e3 hstack hoob hbad
      · -- Abort
        simp only [insertLoopF, hres] at hoob hbad ⊢
        have habort := hfl.2.2 rfl
        rcases habort with h | h
        · rw [hoob] at h
          cases h
        · rw [hbad] at h
          cases h

/-- Child count bounds through one tree level insert. -/
theorem insert_fullF_counts (opts : RTreeOptions)
    (hmin : 1 ≤ opts.min_size) (hminmax : opts.min_size < opts.max_size)
    (h2m : 2 * opts.min_size ≤ opts.max_size + 1)
    (hrc1 : 1 ≤ opts.reinsertion_count)
    (hrcm : opts.reinsertion_count + opts.min_size ≤ opts.max_size + 1)
    (tr : RTree) (t : Pt)
    (hcl : RTreeNode.childCountBelowOkBList opts.min_size opts.max_size
      tr.root.children = true)
    (hlen : tr.root.children.length ≤ opts.max_size)
    (hoob : (RTree.insert_fullF opts tr t).2.oob = false)
    (hbad : (RTree.insert_fullF opts tr t).2.badDescent = false) :
    RTreeNode.childCountBelowOkBList opts.min_size opts.max_size
      (RTree.insert_fullF opts tr t).1.root.children = true ∧
    (RTree.insert_fullF opts tr t).1.root.children.length ≤ opts.max_size := by
  have hstack : ∀ n ∈ [RTreeNode.Leaf t],
      RTreeNode.childCountBelowOkB opts.min_size opts.max_size n = true := by
    intro n hn
    rw [List.mem_singleton] at hn
    subst hn
    rfl
  exact insertLoopF_counts opts hmin hminmax h2m hrc1 hrcm
    (1 + opts.reinsertion_count * countFalse
      (InsertionState.new (tr.root.depth + 1)).reinsertions)
    tr.root [RTreeNode.Leaf t] (InsertionState.new (tr.root.depth + 1))
    hcl hlen hstack hoob hbad

/-- Child count bounds through a whole panic free run of inserts. -/
theorem foldl_insStepF_counts (opts : RTreeOptions)
    (hmin : 1 ≤ opts.min_size) (hminmax : opts.min_size < opts.max_size)
    (h2m : 2 * opts.min_size ≤ opts.max_size + 1)
    (hrc1 : 1 ≤ opts.reinsertion_count)
    (hrcm : opts.reinsertion_count + opts.min_size ≤ opts.max_size + 1) :
    ∀ (ps : List Pt) (tr : RTree) (b : Bool),
    RTreeNode.childCountBelowOkBList opts.min_size opts.max_size tr.root.children = true →
    tr.root.children.length ≤ opts.max_size →
    (ps.foldl (insStepF opts) (tr, b)).2 = true →
    RTreeNode.childCountBelowOkBList opts.min_size opts.max_size
      (ps.foldl (insStepF opts) (tr, b)).1.root.children = true ∧
    (ps.foldl (insStepF opts) (tr, b)).1.root.children.length ≤ opts.max_size := by
  intro ps
  induction ps with
  | nil =>
    intro tr b hcl hlen hok
    exact ⟨hcl, hlen⟩
  | cons p rest ih =>
    intro tr b hcl hlen hok
    simp only [List.foldl_cons] at hok ⊢
    have hb2 := foldl_insStepF_bool opts rest _ _ hok
    simp only [insStepF, Bool.and_eq_true, Bool.not_eq_true'] at hb2
    obtain ⟨⟨hb, hoo⟩, hbd⟩ := hb2
    obtain ⟨g1, g2⟩ := insert_fullF_counts opts hmin hminmax h2m hrc1 hrcm tr p
      hcl hlen hoo hbd
    have hstep : insStepF opts (tr, b) p = ((RTree.insert_fullF opts tr p).1, true) := by
      rw [insStepF]
      simp [hb, hoo, hbd]
    rw [hstep] at hok ⊢
    exact ih (RTree.insert_fullF opts tr p).1 true g1 g2 hok

/-- Child count bounds of a panic free insert only run, phrased over the
source level definitions. -/
theorem buildTree_child_counts (opts : RTreeOptions) (ps : List Pt)
    (hmin : 1 ≤ opts.min_size) (hminmax : opts.min_size < opts.max_size)
    (h2m : 2 * opts.min_size ≤ opts.max_size + 1)
    (hrc1 : 1 ≤ opts.reinsertion_count)
    (hrcm : opts.reinsertion_count + opts.min_size ≤ opts.max_size + 1)
    (hok : (insertAll opts ps).2 = true) :
    rootChildCountOkB opts.min_size opts.max_size (buildTree opts ps).root = true := by
  rw [insertAll_eq_fuel] at hok
  rw [buildTree_eq_fuel]
  rw [insertAllF] at hok
  obtain ⟨f1, f2⟩ := foldl_insStepF_counts opts hmin hminmax h2m hrc1 hrcm ps
    RTree.new_with_options true rfl (Nat.zero_le _) hok
  have hfst := foldl_insStepF_fst opts ps RTree.new_with_options true
  rw [hfst] at f1 f2
  rw [buildTreeF]
  rw [rootChildCountOkB]
  rw [Bool.and_eq_true]
  constructor
  · rw [decide_eq_true_eq]
    exact f2
  · rw [List.all_eq_true]
    intro c hc
    exact (RTreeNode.childCountBelowOkBList_iff _ _ _).mp f1 c hc

/-! Claim theorems. -/

/-- Claim C6, refuted as a code bug: nearest_n_neighbors is claimed to
return normally for every n including n = 0, but on a one object tree the
call with n = 0 panics.  The source keeps the result vector at length at
most n, and when the length equals n it pops the last element and unwraps
it; with n = 0 the vector is empty, pop returns None and the unwrap
panics (lines 524 to 529 of rtree.rs).  The model returns none exactly at
that unwrap. -/
theorem C6_nearest_n_neighbors_zero_panics :
    (buildTree RTreeOptions.new [(0, 0)]).nearest_n_neighbors (0, 0) 0 = none := by
  rw [buildTree_eq_fuel]
  decide

set_option maxRecDepth 100000 in
set_option maxHeartbeats 8000000 in
/-- Claim C10, refuted as a code bug: a reinsertion flag access out of
bounds is reachable within a single top level insert.  With options
max_size 3, min_size 1, reinsertion_count 2, inserting the 18th point
(6, 0) into the tree built from the 17 points below splits the root in
the middle of the call and then resolves an overflow at the new root
depth 3; the flag vector has indices 0 to 2 only, so did_reinsert
indexes out of bounds (modelled by the oob flag).  The proof steps
through concrete checkpoint trees so that each kernel evaluation covers
one insertion. -/
theorem C10_reinsertion_flag_out_of_bounds :
    (RTree.insert_full ⟨3, 1, 2⟩
      (buildTree ⟨3, 1, 2⟩ [(5,0),(2,0),(7,0),(4,0),(9,0),(2,0),(7,0),(0,0),(1,0),(10,0),
        (7,0),(4,0),(1,0),(6,0),(3,0),(4,0),(5,0)]) (6, 0)).2.oob = true := by
  rw [RTree.insert_full_eq_fuel, buildTree_eq_fuel]
  have h15 : ([(5,0),(2,0),(7,0),(4,0),(9,0),(2,0),(7,0),(0,0),(1,0),(10,0),
      (7,0),(4,0),(1,0),(6,0),(3,0)] : List Pt).foldl
      (fun tr p => (RTree.insert_fullF ⟨3, 1, 2⟩ tr p).1) RTree.new_with_options
      = (RTree.mk (DirectoryNodeData.mk (some (Rect.mk 0 0 10 0)) [(RTreeNode.DirectoryNode (some (Rect.mk 0 0 10 0)) [(RTreeNode.DirectoryNode (some (Rect.mk 0 0 0 0)) [(RTreeNode.Leaf (0, 0))] 1), (RTreeNode.DirectoryNode (some (Rect.mk 1 0 4 0)) [(RTreeNode.Leaf (4, 0)), (RTreeNode.Leaf (1, 0)), (RTreeNode.Leaf (1, 0))] 1), (RTreeNode.DirectoryNode (some (Rect.mk 3 0 10 0)) [(RTreeNode.Leaf (3, 0)), (RTreeNode.Leaf (6, 0)), (RTreeNode.Leaf (10, 0))] 1)] 2), (RTreeNode.DirectoryNode (some (Rect.mk 2 0 9 0)) [(RTreeNode.DirectoryNode (some (Rect.mk 2 0 7 0)) [(RTreeNode.Leaf (7, 0)), (RTreeNode.Leaf (2, 0))] 1), (RTreeNode.DirectoryNode (some (Rect.mk 2 0 9 0)) [(RTreeNode.Leaf (2, 0)), (RTreeNode.Leaf (7, 0)), (RTreeNode.Leaf (9, 0))] 1), (RTreeNode.DirectoryNode (some (Rect.mk 4 0 7 0)) [(RTreeNode.Leaf (4, 0)), (RTreeNode.Leaf (5, 0)), (RTreeNode.Leaf (7, 0))] 1)] 2)] 3) 15) := by decide
  have h16 : (RTree.insert_fullF ⟨3, 1, 2⟩ (RTree.mk (DirectoryNodeData.mk (some (Rect.mk 0 0 10 0)) [(RTreeNode.DirectoryNode (some (Rect.mk 0 0 10 0)) [(RTreeNode.DirectoryNode (some (Rect.mk 0 0 0 0)) [(RTreeNode.Leaf (0, 0))] 1), (RTreeNode.DirectoryNode (some (Rect.mk 1 0 4 0)) [(RTreeNode.Leaf (4, 0)), (RTreeNode.Leaf (1, 0)), (RTreeNode.Leaf (1, 0))] 1), (RTreeNode.DirectoryNode (some (Rect.mk 3 0 10 0)) [(RTreeNode.Leaf (3, 0)), (RTreeNode.Leaf (6, 0)), (RTreeNode.Leaf (10, 0))] 1)] 2), (RTreeNode.DirectoryNode (some (Rect.mk 2 0 9 0)) [(RTreeNode.DirectoryNode (some (Rect.mk 2 0 7 0)) [(RTreeNode.Leaf (7, 0)), (RTreeNode.Leaf (2, 0))] 1), (RTreeNode.DirectoryNode (some (Rect.mk 2 0 9 0)) [(RTreeNode.Leaf (2, 0)), (RTreeNode.Leaf (7, 0)), (RTreeNode.Leaf (9, 0))] 1), (RTreeNode.DirectoryNode (some (Rect.mk 4 0 7 0)) [(RTreeNode.Leaf (4, 0)), (RTreeNode.Leaf (5, 0)), (RTreeNode.Leaf (7, 0))] 1)] 2)] 3) 15) ((4, 0) : Pt)).1
      = (RTree.mk (DirectoryNodeData.mk (some (Rect.mk 0 0 10 0)) [(RTreeNode.DirectoryNode (some (Rect.mk 0 0 0 0)) [(RTreeNode.DirectoryNode (some (Rect.mk 0 0 0 0)) [(RTreeNode.Leaf (0, 0))] 1)] 2), (RTreeNode.DirectoryNode (some (Rect.mk 2 0 9 0)) [(RTreeNode.DirectoryNode (some (Rect.mk 2 0 7 0)) [(RTreeNode.Leaf (7, 0)), (RTreeNode.Leaf (2, 0))] 1), (RTreeNode.DirectoryNode (some (Rect.mk 2 0 9 0)) [(RTreeNode.Leaf (2, 0)), (RTreeNode.Leaf (7, 0)), (RTreeNode.Leaf (9, 0))] 1), (RTreeNode.DirectoryNode (some (Rect.mk 4 0 7 0)) [(RTreeNode.Leaf (4, 0)), (RTreeNode.Leaf (5, 0)), (RTreeNode.Leaf (7, 0))] 1)] 2), (RTreeNode.DirectoryNode (some (Rect.mk 1 0 10 0)) [(RTreeNode.DirectoryNode (some (Rect.mk 1 0 4 0)) [(RTreeNode.Leaf (1, 0)), (RTreeNode.Leaf (4, 0)), (RTreeNode.Leaf (4, 0))] 1), (RTreeNode.DirectoryNode (some (Rect.mk 1 0 1 0)) [(RTreeNode.Leaf (1, 0))] 1), (RTreeNode.DirectoryNode (some (Rect.mk 3 0 10 0)) [(RTreeNode.Leaf (3, 0)), (RTreeNode.Leaf (6, 0)), (RTreeNode.Leaf (10, 0))] 1)] 2)] 3) 16) := by decide
  have h17 : (RTree.insert_fullF ⟨3, 1, 2⟩ (RTree.mk (DirectoryNodeData.mk (some (Rect.mk 0 0 10 0)) [(RTreeNode.DirectoryNode (some (Rect.mk 0 0 0 0)) [(RTreeNode.DirectoryNode (some (Rect.mk 0 0 0 0)) [(RTreeNode.Leaf (0, 0))] 1)] 2), (RTreeNode.DirectoryNode (some (Rect.mk 2 0 9 0)) [(RTreeNode.DirectoryNode (some (Rect.mk 2 0 7 0)) [(RTreeNode.Leaf (7, 0)), (RTreeNode.Leaf (2, 0))] 1), (RTreeNode.DirectoryNode (some (Rect.mk 2 0 9 0)) [(RTreeNode.Leaf (2, 0)), (RTreeNode.Leaf (7, 0)), (RTreeNode.Leaf (9, 0))] 1), (RTreeNode.DirectoryNode (some (Rect.mk 4 0 7 0)) [(RTreeNode.Leaf (4, 0)), (RTreeNode.Leaf (5, 0)), (RTreeNode.Leaf (7, 0))] 1)] 2), (RTreeNode.DirectoryNode (some (Rect.mk 1 0 10 0)) [(RTreeNode.DirectoryNode (some (Rect.mk 1 0 4 0)) [(RTreeNode.Leaf (1, 0)), (RTreeNode.Leaf (4, 0)), (RTreeNode.Leaf (4, 0))] 1), (RTreeNode.DirectoryNode (some (Rect.mk 1 0 1 0)) [(RTreeNode.Leaf (1, 0))] 1), (RTreeNode.DirectoryNode (some (Rect.mk 3 0 10 0)) [(RTreeNode.Leaf (3, 0)), (RTreeNode.Leaf (6, 0)), (RTreeNode.Leaf (10, 0))] 1)] 2)] 3) 16) ((5, 0) : Pt)).1
      = (RTree.mk (DirectoryNodeData.mk (some (Rect.mk 0 0 10 0)) [(RTreeNode.DirectoryNode (some (Rect.mk 0 0 0 0)) [(RTreeNode.DirectoryNode (some (Rect.mk 0 0 0 0)) [(RTreeNode.Leaf (0, 0))] 1)] 2), (RTreeNode.DirectoryNode (some (Rect.mk 2 0 9 0)) [(RTreeNode.DirectoryNode (some (Rect.mk 2 0 7 0)) [(RTreeNode.Leaf (7, 0)), (RTreeNode.Leaf (2, 0)), (RTreeNode.Leaf (5, 0))] 1), (RTreeNode.DirectoryNode (some (Rect.mk 2 0 9 0)) [(RTreeNode.Leaf (2, 0)), (RTreeNode.Leaf (7, 0)), (RTreeNode.Leaf (9, 0))] 1), (RTreeNode.DirectoryNode (some (Rect.mk 4 0 7 0)) [(RTreeNode.Leaf (4, 0)), (RTreeNode.Leaf (5, 0)), (RTreeNode.Leaf (7, 0))] 1)] 2), (RTreeNode.DirectoryNode (some (Rect.mk 1 0 10 0)) [(RTreeNode.DirectoryNode (some (Rect.mk 1 0 4 0)) [(RTreeNode.Leaf (1, 0)), (RTreeNode.Leaf (4, 0)), (RTreeNode.Leaf (4, 0))] 1), (RTreeNode.DirectoryNode (some (Rect.mk 1 0 1 0)) [(RTreeNode.Leaf (1, 0))] 1), (RTreeNode.DirectoryNode (some (Rect.mk 3 0 10 0)) [(RTreeNode.Leaf (3, 0)), (RTreeNode.Leaf (6, 0)), (RTreeNode.Leaf (10, 0))] 1)] 2)] 3) 17) := by decide
  have h18 : (RTree.insert_fullF ⟨3, 1, 2⟩ (RTree.mk (DirectoryNodeData.mk (some (Rect.mk 0 0 10 0)) [(RTreeNode.DirectoryNode (some (Rect.mk 0 0 0 0)) [(RTreeNode.DirectoryNode (some (Rect.mk 0 0 0 0)) [(RTreeNode.Leaf (0, 0))] 1)] 2), (RTreeNode.DirectoryNode (some (Rect.mk 2 0 9 0)) [(RTreeNode.DirectoryNode (some (Rect.mk 2 0 7 0)) [(RTreeNode.Leaf (7, 0)), (RTreeNode.Leaf (2, 0)), (RTreeNode.Leaf (5, 0))] 1), (RTreeNode.DirectoryNode (some (Rect.mk 2 0 9 0)) [(RTreeNode.Leaf (2, 0)), (RTreeNode.Leaf (7, 0)), (RTreeNode.Leaf (9, 0))] 1), (RTreeNode.DirectoryNode (some (Rect.mk 4 0 7 0)) [(RTreeNode.Leaf (4, 0)), (RTreeNode.Leaf (5, 0)), (RTreeNode.Leaf (7, 0))] 1)] 2), (RTreeNode.DirectoryNode (some (Rect.mk 1 0 10 0)) [(RTreeNode.DirectoryNode (some (Rect.mk 1 0 4 0)) [(RTreeNode.Leaf (1, 0)), (RTreeNode.Leaf (4, 0)), (RTreeNode.Leaf (4, 0))] 1), (RTreeNode.DirectoryNode (some (Rect.mk 1 0 1 0)) [(RTreeNode.Leaf (1, 0))] 1), (RTreeNode.DirectoryNode (some (Rect.mk 3 0 10 0)) [(RTreeNode.Leaf (3, 0)), (RTreeNode.Leaf (6, 0)), (RTreeNode.Leaf (10, 0))] 1)] 2)] 3) 17) ((6, 0) : Pt)).2.oob = true := by
    decide
  have hsplit : ([(5,0),(2,0),(7,0),(4,0),(9,0),(2,0),(7,0),(0,0),(1,0),(10,0),
      (7,0),(4,0),(1,0),(6,0),(3,0),(4,0),(5,0)] : List Pt)
      = [(5,0),(2,0),(7,0),(4,0),(9,0),(2,0),(7,0),(0,0),(1,0),(10,0),
        (7,0),(4,0),(1,0),(6,0),(3,0)] ++ [(4,0),(5,0)] := rfl
  rw [buildTreeF, hsplit, List.foldl_append, h15]
  simp only [List.foldl_cons, List.foldl_nil]
  rw [h16, h17, h18]

/-- Claim C8 counterexample: options violating the claimed bounds are
obtainable through the public constructor and setters.  set_min_size only
asserts min_size < max_size, so min_size 0 passes; set_max_size does not
recheck the reinsertion count, so raising the count and then shrinking
max_size yields reinsertion_count larger than max_size. -/
theorem C8_invalid_options_obtainable :
    BuiltOptions ⟨6, 0, 2⟩ ∧ BuiltOptions ⟨4, 3, 5⟩ := by
  constructor
  · exact @BuiltOptions.min RTreeOptions.new ⟨6, 0, 2⟩ 0 BuiltOptions.new (by decide)
  · exact @BuiltOptions.max ⟨6, 3, 5⟩ ⟨4, 3, 5⟩ 4
      (@BuiltOptions.reins RTreeOptions.new ⟨6, 3, 5⟩ 5 BuiltOptions.new (by decide))
      (by decide)

/-- Claim C8, amended: the bounds the constructor and setters actually
maintain are min_size < max_size and 0 < reinsertion_count.  The claimed
bounds 0 < min_size and reinsertion_count < max_size are each breakable
(C8_invalid_options_obtainable), because every setter asserts only its
own constraint. -/
theorem C8_built_options_bounds {o : RTreeOptions} (h : BuiltOptions o) :
    o.min_size < o.max_size ∧ 1 ≤ o.reinsertion_count :=
  builtOptions_invariant h

/-- Witness for C8_built_options_bounds at the default options. -/
theorem C8_built_options_bounds_witness :
    RTreeOptions.new.min_size < RTreeOptions.new.max_size ∧
      1 ≤ RTreeOptions.new.reinsertion_count :=
  C8_built_options_bounds BuiltOptions.new

/-- Claim C7 counterexample: on the three leaves below with min_size 1,
some legal axis 0 partition has a margin sum strictly below every axis 1
margin sum, so axis 0 attains the smaller minimum, yet get_split_axis
returns axis 1.  The cause is that the axis 0 fold always overwrites its
best value (the comparison in line 322 of rtree.rs is or-ed with
axis == 0), so the value carried into the axis 1 comparison is the last
axis 0 margin sum, not its minimum. -/
theorem C7_split_axis_not_minimal :
    (DirectoryNodeData.get_split_axis ⟨3, 1, 2⟩
      [RTreeNode.Leaf (0, 9), RTreeNode.Leaf (10, 0), RTreeNode.Leaf (11, 12)]).1 = 1 ∧
    (∃ v ∈ axis0Margins 1 [RTreeNode.Leaf (0, 9), RTreeNode.Leaf (10, 0),
        RTreeNode.Leaf (11, 12)],
      ∀ w ∈ axis1Margins 1 [RTreeNode.Leaf (0, 9), RTreeNode.Leaf (10, 0),
        RTreeNode.Leaf (11, 12)], v < w) := by
  constructor
  · decide
  · decide

/-- Claim C7, amended: the axis get_split_axis returns is 1 exactly when
some axis 1 margin sum is strictly below the LAST axis 0 margin sum (the
value the axis 0 fold retains, since its comparison is or-ed with
axis == 0), and 0 otherwise; the axis of minimal margin sum plays no
role. -/
theorem C7_split_axis_rule (opts : RTreeOptions) (cs : List RTreeNode) :
    (DirectoryNodeData.get_split_axis opts cs).1 =
      if (axis1Margins opts.min_size cs).any
          (fun v => decide (v < axis0SeedMargin opts.min_size cs)) then 1 else 0 :=
  get_split_axis_characterization opts cs

/-- Claim C2 counterexample: with options max_size 2, min_size 1,
reinsertion_count 1, after three inserts and one public remove the root
keeps its old cached bounding box although the union of its children
boxes shrank: the removal happened inside a directory child that stayed
nonempty, and remove then skips update_mbr at the ancestors (line 695 of
rtree.rs runs only when a child of this very node was deleted). -/
theorem C2_remove_leaves_stale_mbr :
    RTreeNode.mbrExactB ((runOps ⟨2, 1, 1⟩
      [Op.ins (0, 0), Op.ins (1, 0), Op.ins (10, 0), Op.rem (10, 0)]).root.asNode)
      = false := by
  rw [runOps_eq_fuel]
  decide

/-- Claim C2, amended: the exact MBR invariant survives every public
mutation except remove.  After every panic free program of inserts and
lookup_and_remove calls on the empty tree (options with positive
min_size, min_size at most max_size and reinsertion_count at most
max_size), every directory node has its cached bounding box equal to the
exact componentwise union of its children boxes, none exactly for the
empty root: lookup_and_remove reruns update_mbr at every node below
which the removal happened.  Public remove breaks the invariant
(C2_remove_leaves_stale_mbr): when the removal happens inside a
directory child that stays nonempty, no ancestor recomputes its box. -/
theorem C2_mbr_exact_without_remove (opts : RTreeOptions) (ops : List Op)
    (hmin : 1 ≤ opts.min_size) (hminmax : opts.min_size ≤ opts.max_size)
    (hrc : opts.reinsertion_count ≤ opts.max_size)
    (hnorem : ∀ op ∈ ops, Op.isRem op = false)
    (hok : (runOpsChecked opts ops).2 = true) :
    RTreeNode.mbrExactB (runOps opts ops).root.asNode = true := by
  rw [runOpsChecked_eq_fuel, runOpsCheckedF] at hok
  rw [runOps_eq_fuel, runOpsF]
  have hfst := foldl_opStepF_fst opts ops RTree.new_with_options true
  rw [← hfst]
  exact (foldl_opStepF_exact opts hmin hminmax hrc ops RTree.new_with_options true
    hnorem rfl rfl hok).1

/-- Witness for C2_mbr_exact_without_remove: three inserts and one
lookup_and_remove that removes deep inside the tree. -/
theorem C2_mbr_exact_without_remove_witness :
    (∀ op ∈ [Op.ins (0, 0), Op.ins (1, 0), Op.ins (10, 0), Op.lar (10, 0)],
      Op.isRem op = false) ∧
    RTreeNode.mbrExactB ((runOps ⟨2, 1, 1⟩
      [Op.ins (0, 0), Op.ins (1, 0), Op.ins (10, 0), Op.lar (10, 0)]).root.asNode)
      = true :=
  ⟨by decide, C2_mbr_exact_without_remove ⟨2, 1, 1⟩
    [Op.ins (0, 0), Op.ins (1, 0), Op.ins (10, 0), Op.lar (10, 0)]
    (by decide) (by decide) (by decide) (by decide)
    (by rw [runOpsChecked_eq_fuel]; decide)⟩

/-- Claim C3 counterexample: with the fully valid options max_size 3,
min_size 2, reinsertion_count 2, after four inserts one public remove,
or equally one public lookup_and_remove, leaves a non root directory
node with a single child, below min_size, because neither removal has
underflow handling (each only prunes a child that became completely
empty). -/
theorem C3_remove_breaks_min_children :
    rootChildCountOkB 2 3
      (runOps ⟨3, 2, 2⟩ [Op.ins (0, 0), Op.ins (1, 0), Op.ins (10, 0), Op.ins (11, 0),
        Op.rem (0, 0)]).root = false ∧
    rootChildCountOkB 2 3
      (runOps ⟨3, 2, 2⟩ [Op.ins (0, 0), Op.ins (1, 0), Op.ins (10, 0), Op.ins (11, 0),
        Op.lar (0, 0)]).root = false := by
  simp only [runOps_eq_fuel]
  constructor
  · decide
  · decide

/-- Claim C3, amended: after every panic free insert only run, under
options with positive min_size strictly below max_size, positive
reinsertion_count, and the split and reinsert feasibility conditions
2 * min_size at most max_size + 1 and reinsertion_count + min_size at
most max_size + 1 (the default options satisfy all of these), the root
has at most max_size children and every directory node below it has
between min_size and max_size children inclusive.  Public remove and
lookup_and_remove break the lower bound
(C3_remove_breaks_min_children): neither has underflow handling. -/
theorem C3_child_counts_insert_only (opts : RTreeOptions) (ps : List Pt)
    (hmin : 1 ≤ opts.min_size) (hminmax : opts.min_size < opts.max_size)
    (h2m : 2 * opts.min_size ≤ opts.max_size + 1)
    (hrc1 : 1 ≤ opts.reinsertion_count)
    (hrcm : opts.reinsertion_count + opts.min_size ≤ opts.max_size + 1)
    (hok : (insertAll opts ps).2 = true) :
    rootChildCountOkB opts.min_size opts.max_size (buildTree opts ps).root = true :=
  buildTree_child_counts opts ps hmin hminmax h2m hrc1 hrcm hok

/-- Witness for C3_child_counts_insert_only: four inserts under options
max_size 3, min_size 2, reinsertion_count 2. -/
theorem C3_child_counts_insert_only_witness :
    rootChildCountOkB 2 3 (buildTree ⟨3, 2, 2⟩
      [(0, 0), (1, 0), (10, 0), (11, 0)]).root = true :=
  C3_child_counts_insert_only ⟨3, 2, 2⟩ [(0, 0), (1, 0), (10, 0), (11, 0)]
    (by decide) (by decide) (by decide) (by decide) (by decide)
    (by rw [insertAll_eq_fuel]; decide)

/-- Claim C4 counterexample: on the tree built by eight inserts and one
remove below, nearest_neighbors of the origin returns the single object
(21, 0) although the tree still holds (1, 0) at squared distance 1: the
remove left stale oversized boxes, the minmax distance pruning bound
computed from them cuts off the subtree holding the true nearest
neighbor, and the claimed tie set equality fails. -/
theorem C4_nearest_neighbors_wrong_after_remove :
    (runOps ⟨2, 1, 1⟩ [Op.ins (0, 0), Op.ins (1, 0), Op.ins (10, 0), Op.ins (11, 0),
      Op.ins (20, 0), Op.ins (21, 0), Op.ins (30, 0), Op.ins (31, 0),
      Op.rem (0, 0)]).nearest_neighbors (0, 0) = [(21, 0)] ∧
    (1, 0) ∈ RTreeNode.objsList (runOps ⟨2, 1, 1⟩ [Op.ins (0, 0), Op.ins (1, 0),
      Op.ins (10, 0), Op.ins (11, 0), Op.ins (20, 0), Op.ins (21, 0), Op.ins (30, 0),
      Op.ins (31, 0), Op.rem (0, 0)]).root.children ∧
    dist2 (1, 0) (0, 0) < dist2 (21, 0) (0, 0) := by
  rw [runOps_eq_fuel]
  refine ⟨by decide, by decide, by decide⟩

/-- Claim C9, confirmed over every tree reachable by a panic free
program of public mutations (inserts, removes, lookup_and_removes)
from the empty tree: remove returns true exactly when the tree stores
an equal object; on success exactly one equal leaf disappears (the
stored objects read l1 ++ obj :: l2 before and l1 ++ l2 after) and
size drops by exactly one, even when several equal duplicates exist;
on failure, in particular on the empty tree, the tree is returned
unchanged, size included. -/
theorem C9_remove_one_match (opts : RTreeOptions) (ops : List Op) (obj : Pt)
    (hmin : 1 ≤ opts.min_size) (hminmax : opts.min_size ≤ opts.max_size)
    (hrc : opts.reinsertion_count ≤ opts.max_size)
    (hok : (runOpsChecked opts ops).2 = true) :
    ((RTree.remove (runOps opts ops) obj).2 = true ↔
      obj ∈ RTreeNode.objsList (runOps opts ops).root.children) ∧
    ((RTree.remove (runOps opts ops) obj).2 = true → ∃ l1 l2,
      RTreeNode.objsList (runOps opts ops).root.children = l1 ++ obj :: l2 ∧
      RTreeNode.objsList (RTree.remove (runOps opts ops) obj).1.root.children
        = l1 ++ l2 ∧
      (RTree.remove (runOps opts ops) obj).1.size + 1 = (runOps opts ops).size) ∧
    ((RTree.remove (runOps opts ops) obj).2 = false →
      (RTree.remove (runOps opts ops) obj).1 = runOps opts ops) := by
  have hinv := runOps_inv opts hmin hminmax hrc ops hok
  obtain ⟨h1, h2, h3, h4⟩ := RTree.remove_master (runOps opts ops) obj hinv
  refine ⟨h2, ?_, h4⟩
  intro hsucc
  obtain ⟨l1, l2, e1, e2, e3⟩ := h3 hsucc
  refine ⟨l1, l2, e1, e2, ?_⟩
  have hmem : obj ∈ RTreeNode.objsList (runOps opts ops).root.children := h2.mp hsucc
  have hlen : 0 < (RTreeNode.objsList (runOps opts ops).root.children).length :=
    List.length_pos_of_mem hmem
  obtain ⟨g1, g2, g3, g4⟩ := hinv
  omega

/-- Witness for C9_remove_one_match: removing one copy of a duplicated
object from a four object tree succeeds. -/
theorem C9_remove_one_match_witness :
    (RTree.remove (runOps ⟨2, 1, 1⟩ [Op.ins (0, 0), Op.ins (1, 0), Op.ins (1, 0),
      Op.ins (10, 0)]) (1, 0)).2 = true :=
  (C9_remove_one_match ⟨2, 1, 1⟩ [Op.ins (0, 0), Op.ins (1, 0), Op.ins (1, 0),
      Op.ins (10, 0)] (1, 0) (by decide) (by decide) (by decide)
      (by rw [runOpsChecked_eq_fuel]; decide)).1.mpr
    (by rw [runOps_eq_fuel]; decide)

/-- Claim C5, confirmed over every tree reachable by a panic free
program of public mutations from the empty tree (removes included, since
the stale cached boxes they leave are only ever oversized, which keeps
pruning sound): lookup_in_circle returns exactly the stored objects at
squared distance strictly below the squared radius, objects at distance
exactly the squared radius excluded, although descent into a child uses
the non strict test min_dist2 at most the squared radius. -/
theorem C5_lookup_in_circle_strict (opts : RTreeOptions) (ops : List Op)
    (q : Pt) (r2 : Int) (o : Pt)
    (hmin : 1 ≤ opts.min_size) (hminmax : opts.min_size ≤ opts.max_size)
    (hrc : opts.reinsertion_count ≤ opts.max_size)
    (hok : (runOpsChecked opts ops).2 = true) :
    o ∈ RTree.lookup_in_circle (runOps opts ops) q r2 ↔
      (o ∈ RTreeNode.objsList (runOps opts ops).root.children ∧ dist2 o q < r2) := by
  have hinv := runOps_inv opts hmin hminmax hrc ops hok
  obtain ⟨hbox, hnel, hsz, hd1⟩ := hinv
  unfold RTree.lookup_in_circle
  by_cases hpos : (runOps opts ops).size > 0
  · rw [if_pos hpos]
    have hb2 : RTreeNode.boxOkBList (runOps opts ops).root.children = true :=
      RTreeNode.boxOkB_children (runOps opts ops).root.bounding_box
        (runOps opts ops).root.children (runOps opts ops).root.depth hbox
    rw [lookup_in_circle_iff _ _ q r2 hb2 o]
    simp only [List.not_mem_nil, false_or]
  · rw [if_neg hpos]
    have hsz0 : (runOps opts ops).size = 0 := by omega
    have hemp : RTreeNode.objsList (runOps opts ops).root.children = [] := by
      rw [hsz0] at hsz
      exact List.eq_nil_of_length_eq_zero (Nat.le_zero.mp hsz)
    rw [hemp]
    simp only [List.not_mem_nil, false_and]

/-- Witness for C5_lookup_in_circle_strict: on the three object tree
below, the circle of squared radius 2 around the origin holds (0, 0) and
(1, 0) but not the stored (10, 0), and a boundary query of squared
radius exactly 1 excludes (1, 0). -/
theorem C5_lookup_in_circle_strict_witness :
    ((0, 0) ∈ RTree.lookup_in_circle (runOps ⟨2, 1, 1⟩
        [Op.ins (0, 0), Op.ins (1, 0), Op.ins (10, 0)]) (0, 0) 2 ↔
      ((0, 0) ∈ RTreeNode.objsList (runOps ⟨2, 1, 1⟩
        [Op.ins (0, 0), Op.ins (1, 0), Op.ins (10, 0)]).root.children ∧
        dist2 (0, 0) (0, 0) < 2)) ∧
    ¬ (1, 0) ∈ RTree.lookup_in_circle (runOps ⟨2, 1, 1⟩
        [Op.ins (0, 0), Op.ins (1, 0), Op.ins (10, 0)]) (0, 0) 1 := by
  constructor
  · exact C5_lookup_in_circle_strict ⟨2, 1, 1⟩
      [Op.ins (0, 0), Op.ins (1, 0), Op.ins (10, 0)] (0, 0) 2 (0, 0)
      (by decide) (by decide) (by decide)
      (by rw [runOpsChecked_eq_fuel]; decide)
  · intro hmem
    have h := (C5_lookup_in_circle_strict ⟨2, 1, 1⟩
      [Op.ins (0, 0), Op.ins (1, 0), Op.ins (10, 0)] (0, 0) 1 (1, 0)
      (by decide) (by decide) (by decide)
      (by rw [runOpsChecked_eq_fuel]; decide)).mp hmem
    exact absurd h.2 (by decide)

end Spade